import Mathlib

/-! The loris lexer (src/src/lexer.cpp): a shallow embedding.

Conventions of the embedding.

* A `std::string` is a `List Char`; Lean's `Char` stands for the C++ `char`.
* The `int` results of `CharStream::PeekChar` and `CharStream::NextChar` are
  an `Option Char`: `none` is the value -1 of `EOF`, `some c` the character `c`.
  A `char` is a signed 8-bit value (the choice of the usual compilers; C++
  leaves the signedness to the implementation), so the conversion `charToInt`
  of a `char` to `int` sends the byte 0xFF (the character 255) to -1, the value
  of `EOF`, and every other character to itself. `isalpha` and `isdigit` are the "C" locale
  classifications.
* Sizes and indices are natural numbers (texts are assumed to fit in an `int`);
  `CharStream.PeekCharInt` keeps the conversions to `int` of `PeekChar`.
* A read of a vector or string outside its bounds, which C++ leaves undefined,
  is the result `none` (`TokenStream.PeekToken`, `CharStream.PeekCharInt`).
* Every `while` loop carries a fuel argument and yields `none` when the fuel
  runs out; the totality lemmas show that the fuel the callers pass is enough.
-/

namespace loris

/-! ## Tokens and errors -/

/-- Modelled from the spec: the enumeration `Token::Type` is declared in
`lexer.hpp`, which is not among the sources; the constructors are the names
`lexer.cpp` uses, and they are the token kinds of section 3 of the spec. -/
inductive TokenType where
  | EOS | Iden | Integer | Float | String
  | True | False | Null
  | Import | Module | New | Class | Function | Def | Extends | Static | Return
  | Var | Enum | If | Else | Elif | For | While | Break | Or | And
  | Add | Sub | Mul | Div
  | OpenParen | CloseParen | OpenCurlyBrace | CloseCurlyBrace
  | OpenBracket | CloseBracket
  | Comma | Dot | Colon | SemiColon
  | Assign | EQ | NEQ | Not | LT | LTE | GT | GTE
  deriving DecidableEq, Repr

/-- The class `Token`: the fields `type`, `token` (the text) and `line` that
`lexer.cpp` assigns. -/
structure Token where
  type : TokenType
  token : List Char
  line : Int
  deriving DecidableEq, Repr

/-- The enumeration `Error::Type` of `error.hpp`. -/
inductive ErrorType where
  | NONE | UNKOWN_CHAR | UNEXPECTED_TOKEN | INVALID_OPERATION
  deriving DecidableEq, Repr

/-- The class `Error` of `error.hpp`. -/
structure Error where
  code : ErrorType
  message : List Char
  line : Int
  filename : List Char
  deriving DecidableEq, Repr

/-- The constructor `Error::Error()`: code `NONE`, line `-1`, empty strings. -/
def Error.new : Error :=
  { code := ErrorType.NONE, message := [], line := -1, filename := [] }

/-! ## TokenStream -/

/-- The class `TokenStream`: the token vector and the read cursor. -/
structure TokenStream where
  tokens : List Token
  index : Nat
  deriving DecidableEq, Repr

/-- The constructor `TokenStream::TokenStream()`. -/
def TokenStream.new : TokenStream := { tokens := [], index := 0 }

/-- The method `TokenStream::AddToken(Token t)`: `tokens.push_back(t)`. -/
def TokenStream.AddToken (ts : TokenStream) (t : Token) : TokenStream :=
  { ts with tokens := ts.tokens ++ [t] }

/-- The method `TokenStream::AddToken(Token::Type type, string tok, int line)`. -/
def TokenStream.AddToken3 (ts : TokenStream) (type : TokenType) (tok : List Char)
    (line : Int) : TokenStream :=
  ts.AddToken { type := type, token := tok, line := line }

/-- Modelled from the spec: the static function `Token::EOSToken(int line)` is
declared in `lexer.hpp`, which is not among the sources; it gives the
end-of-stream token that carries the line it is passed (sections 3 and 4.4 of
the spec), with the empty text of a default-constructed `Token`. -/
def Token.EOSToken (line : Int) : Token :=
  { type := TokenType.EOS, token := [], line := line }

/-- Modelled from the spec: the default value of the parameter `line` of
`Token::EOSToken`, which `TokenStream::NextToken` relies on in
`return Token::EOSToken();`. The spec gives line 1 to the end-of-stream token
that `next()` returns on a stream without tokens (section 4.4), which that
call yields only if the default is 1. -/
abbrev eosLineDefault : Int := 1

/-- The method `TokenStream::NextToken`: the token at the cursor, or
`Token::EOSToken()` at and beyond the end; the index is incremented in both
cases. -/
def TokenStream.NextToken (ts : TokenStream) : Token × TokenStream :=
  if h : ts.index < ts.tokens.length then
    (ts.tokens[ts.index], { ts with index := ts.index + 1 })
  else
    (Token.EOSToken eosLineDefault, { ts with index := ts.index + 1 })

/-- The method `TokenStream::PeekTokenType(look_ahead)`. The sum
`index + look_ahead` is taken in the natural numbers (no overflow of the type of
`index`, which `lexer.hpp` declares). -/
def TokenStream.PeekTokenType (ts : TokenStream) (look_ahead : Nat) : TokenType :=
  if h : ts.tokens.length ≤ ts.index + look_ahead then TokenType.EOS
  else (ts.tokens.get ⟨ts.index + look_ahead, Nat.lt_of_not_le h⟩).type

/-- The method `TokenStream::PeekToken(look_ahead)`. The vector is read without
a bounds check: the result is `none` when `tokens[index-1]` is outside the
vector, which C++ leaves undefined. -/
def TokenStream.PeekToken (ts : TokenStream) (look_ahead : Nat) : Option Token :=
  if h : ts.tokens.length ≤ ts.index + look_ahead then
    if ts.index > 0 then
      (ts.tokens[ts.index - 1]?).map (fun t => Token.EOSToken t.line)
    else
      some (Token.EOSToken 1)
  else
    some (ts.tokens.get ⟨ts.index + look_ahead, Nat.lt_of_not_le h⟩)

/-- The method `TokenStream::HasMore`. -/
def TokenStream.HasMore (ts : TokenStream) : Bool :=
  decide (ts.index < ts.tokens.length)

/-- The method `TokenStream::Advance`. -/
def TokenStream.Advance (ts : TokenStream) : TokenStream :=
  { ts with index := ts.index + 1 }

/-- The tokens that `n` successive calls of `NextToken` return, and the stream
after them. -/
def TokenStream.readTokens : Nat → TokenStream → List Token × TokenStream
  | 0, ts => ([], ts)
  | n + 1, ts =>
    ((ts.NextToken).1 :: (TokenStream.readTokens n (ts.NextToken).2).1,
      (TokenStream.readTokens n (ts.NextToken).2).2)

/-! ## CharStream -/

/-- The class `CharStream`: the text and the read position. -/
structure CharStream where
  chars : List Char
  index : Nat
  deriving DecidableEq, Repr

/-- The constructor `CharStream::CharStream(string code)`. -/
def CharStream.new (code : List Char) : CharStream := { chars := code, index := 0 }

/-- The conversion of a `char` to `int` in `return chars[index++];` and
`return chars[index+look_ahead];`: the byte 0xFF is the signed value -1, which
is the value of `EOF`; every other character is itself. -/
def charToInt (c : Char) : Option Char :=
  if c = Char.ofNat 255 then none else some c

/-- The method `CharStream::NextChar`: the character at the cursor converted to
`int`, or `EOF` when out of bounds; the index is incremented in both cases. -/
def CharStream.NextChar (s : CharStream) : Option Char × CharStream :=
  if s.index < s.chars.length then
    ((s.chars[s.index]?).bind charToInt, { s with index := s.index + 1 })
  else
    (none, { s with index := s.index + 1 })

/-- The method `CharStream::Advance`. -/
def CharStream.Advance (s : CharStream) : CharStream :=
  { s with index := s.index + 1 }

/-- The method `CharStream::PeekChar(look_ahead)`: the character at
`index + look_ahead` converted to `int`, or `EOF` when out of bounds. -/
def CharStream.PeekChar (s : CharStream) (look_ahead : Nat) : Option Char :=
  if s.index + look_ahead < s.chars.length then
    (s.chars[s.index + look_ahead]?).bind charToInt
  else
    none

/-- The method `CharStream::HasMore`. -/
def CharStream.HasMore (s : CharStream) : Bool :=
  decide (s.index < s.chars.length)

/-- The conversion of a non-negative integer value to the 32-bit `int`: the
value modulo 2^32, read as a two's complement number. -/
def toInt32 (n : Nat) : Int :=
  if n % 4294967296 < 2147483648 then ((n % 4294967296 : Nat) : Int)
  else ((n % 4294967296 : Nat) : Int) - 4294967296

/-- The method `CharStream::PeekChar(look_ahead)` with its conversions to `int`
(`int size = (int)chars.size(); int look = (index+look_ahead);`), for an
`unsigned int` argument `look_ahead` of any size; an `int` has 32 bits. The sum
`index + look_ahead` is taken in the natural numbers and reduced modulo 2^32 by
the conversion. The outer `none` is a read of `chars[index+look_ahead]` outside
the string, which C++ leaves undefined; `some none` is `EOF`. `CharStream.PeekChar` is this method on the calls whose
values fit in an `int` (see `CharStream.PeekCharInt_eq`). -/
def CharStream.PeekCharInt (s : CharStream) (look_ahead : Nat) : Option (Option Char) :=
  let size := toInt32 s.chars.length
  let look := toInt32 (s.index + look_ahead)
  if look < size then
    (s.chars[s.index + look_ahead]?).map charToInt
  else
    some none

/-! ## Character helpers -/

/-- The single quote character. -/
abbrev SQUOTE : Char := Char.ofNat 39

/-- The double quote character. -/
abbrev DQUOTE : Char := Char.ofNat 34

/-- The character NUL that ends a C string. -/
abbrev NUL : Char := Char.ofNat 0

/-- The conversion of an `int` to `char` as in `token += chr`: a character is
itself, -1 (`EOF`) is the character 255. -/
def toChar : Option Char → Char
  | some c => c
  | none => Char.ofNat 255

/-- The library function `isalpha` on an `int` (false on `EOF`). -/
def isalpha : Option Char → Bool
  | some c => c.isAlpha
  | none => false

/-- The library function `isdigit` on an `int` (false on `EOF`). -/
def isdigit : Option Char → Bool
  | some c => c.isDigit
  | none => false

/-- Modelled from the spec: the default value of the parameter `look_ahead` of
`CharStream::PeekChar`, which the absent `lexer.hpp` declares; the calls
`stream->PeekChar()` of `lexer.cpp` read the character at the cursor
(section 4.2: `peek(offset = 0)`). -/
abbrev lookAheadDefault : Nat := 0

/-- Modelled from the spec: the default value of the parameter `advance` of
`Lexer::AddToken`, which the absent `lexer.hpp` declares; the calls with one
argument are those of the single-character punctuation and of the
two-character operators, which advance by one character (section 4.3, steps 5
and 6). -/
abbrev advanceDefault : Bool := true

/-! ## Lexer -/

/-- The class `Lexer`. The pointers `tokens` and `stream` are replaced by fresh
objects at the start of every `Parse`, before any use; the embedding holds the
objects themselves (empty ones where the constructor stores `NULL`). -/
structure Lexer where
  tokens : TokenStream
  stream : CharStream
  line : Int
  error : Error
  deriving DecidableEq, Repr

/-- The constructor `Lexer::Lexer()`. -/
def Lexer.new : Lexer :=
  { tokens := TokenStream.new, stream := CharStream.new [], line := 1, error := Error.new }

/-- The loop of `Lexer::StripComments` from position `i` on, where the argument
list is `code[i..]`: the result is `res[i..]`. -/
def StripCommentsLoop : Bool → List Char → List Char
  | _, [] => []
  | true, c :: cs =>
    if c = '\n' then '\n' :: StripCommentsLoop false cs
    else ' ' :: StripCommentsLoop true cs
  | false, c :: cs =>
    if c = '/' ∧ cs.head? = some '/' then ' ' :: StripCommentsLoop true cs
    else c :: StripCommentsLoop false cs

/-- The constructor `string(const char*)` applied to a NUL-terminated buffer:
the characters before the first NUL. -/
def cstring (res : List Char) : List Char :=
  res.takeWhile (fun c => c != NUL)

/-- The method `Lexer::StripComments`: the buffer `res` is filled position by
position, terminated by NUL and converted with `string result(res)`. -/
def StripComments (code : List Char) : List Char :=
  cstring (StripCommentsLoop false code)

/-- The method `Lexer::AddToken(Token::Type type, bool advance)`; the text of
the token is the empty string of a default-constructed `Token`. -/
def Lexer.AddToken (L : Lexer) (type : TokenType) (advance : Bool) : Lexer :=
  let L1 := { L with tokens := L.tokens.AddToken { type := type, token := [], line := L.line } }
  if advance then { L1 with stream := L1.stream.Advance } else L1

/-- The method `Lexer::IsWhiteSpace`. -/
def Lexer.IsWhiteSpace (L : Lexer) : Bool :=
  let c := L.stream.PeekChar lookAheadDefault
  decide (c = some ' ' ∨ c = some '\n' ∨ c = some '\t')

/-- The loop of `Lexer::ReadWhiteSpace`. -/
def Lexer.ReadWhiteSpaceLoop : Nat → Lexer → Option Lexer
  | 0, _ => none
  | fuel + 1, L =>
    if L.stream.HasMore then
      let c := L.stream.PeekChar lookAheadDefault
      let L1 := if c = some '\n' then { L with line := L.line + 1 } else L
      if c = some ' ' ∨ c = some '\n' ∨ c = some '\t' then
        Lexer.ReadWhiteSpaceLoop fuel { L1 with stream := L1.stream.NextChar.2 }
      else
        some L1
    else
      some L

/-- The method `Lexer::ReadWhiteSpace`. -/
def Lexer.ReadWhiteSpace (L : Lexer) : Option Lexer :=
  Lexer.ReadWhiteSpaceLoop (L.stream.chars.length + 1) L

/-- The method `Lexer::IsIdentifier`. -/
def Lexer.IsIdentifier (L : Lexer) : Bool :=
  let c := L.stream.PeekChar lookAheadDefault
  decide (c = some '_') || isalpha c

/-- The loop of `Lexer::ReadIdentifier`, which accumulates the local `token`. -/
def Lexer.ReadIdentifierLoop : Nat → Lexer → List Char → Option (Lexer × List Char)
  | 0, _, _ => none
  | fuel + 1, L, token =>
    if L.stream.HasMore then
      let c := L.stream.PeekChar lookAheadDefault
      if decide (c = some '_') || isalpha c || (decide (token.length > 0) && isdigit c) then
        let r := L.stream.NextChar
        Lexer.ReadIdentifierLoop fuel { L with stream := r.2 } (token ++ [toChar r.1])
      else
        some (L, token)
    else
      some (L, token)

/-- The keyword check of `Lexer::ReadIdentifier`: the chain of comparisons. -/
def keywordType (token : List Char) : TokenType :=
  if token = "import".toList then TokenType.Import
  else if token = "module".toList then TokenType.Module
  else if token = "new".toList then TokenType.New
  else if token = "class".toList then TokenType.Class
  else if token = "function".toList then TokenType.Function
  else if token = "def".toList then TokenType.Def
  else if token = "extends".toList then TokenType.Extends
  else if token = "static".toList then TokenType.Static
  else if token = "return".toList then TokenType.Return
  else if token = "var".toList then TokenType.Var
  else if token = "enum".toList then TokenType.Enum
  else if token = "if".toList then TokenType.If
  else if token = "else".toList then TokenType.Else
  else if token = "elif".toList then TokenType.Elif
  else if token = "for".toList then TokenType.For
  else if token = "while".toList then TokenType.While
  else if token = "break".toList then TokenType.Break
  else if token = "or".toList then TokenType.Or
  else if token = "and".toList then TokenType.And
  else if token = "true".toList then TokenType.True
  else if token = "false".toList then TokenType.False
  else if token = "null".toList then TokenType.Null
  else TokenType.Iden

/-- The method `Lexer::ReadIdentifier`. -/
def Lexer.ReadIdentifier (L : Lexer) : Option Lexer :=
  match Lexer.ReadIdentifierLoop (L.stream.chars.length + 1) L [] with
  | none => none
  | some (L1, token) =>
    some { L1 with tokens := L1.tokens.AddToken3 (keywordType token) token L1.line }

/-- The method `Lexer::IsNumber`. -/
def Lexer.IsNumber (L : Lexer) : Bool :=
  isdigit (L.stream.PeekChar lookAheadDefault)

/-- The loop of `Lexer::ReadNumber`, with the locals `dot` and `token`; the
local `c` is the peeked `int` converted to `char`. -/
def Lexer.ReadNumberLoop : Nat → Lexer → Bool → List Char → Option (Lexer × Bool × List Char)
  | 0, _, _, _ => none
  | fuel + 1, L, dot, token =>
    if L.stream.HasMore then
      let c := toChar (L.stream.PeekChar lookAheadDefault)
      if c.isDigit then
        Lexer.ReadNumberLoop fuel { L with stream := L.stream.Advance } dot (token ++ [c])
      else if c = '.' ∧ dot = false then
        Lexer.ReadNumberLoop fuel { L with stream := L.stream.Advance } true (token ++ [c])
      else
        some (L, dot, token)
    else
      some (L, dot, token)

/-- The method `Lexer::ReadNumber`. -/
def Lexer.ReadNumber (L : Lexer) : Option Lexer :=
  match Lexer.ReadNumberLoop (L.stream.chars.length + 1) L false [] with
  | none => none
  | some (L1, dot, token) =>
    let type := if dot then TokenType.Float else TokenType.Integer
    some { L1 with tokens := L1.tokens.AddToken3 type token L1.line }

/-- The loop shared by `Lexer::ReadSingleQuotedString` and
`Lexer::ReadDoubleQuotedString` (they differ in the quote character only),
which accumulates the text of the local `token`. -/
def Lexer.ReadQuotedLoop (q : Char) : Nat → Lexer → List Char → Option (Lexer × List Char)
  | 0, _, _ => none
  | fuel + 1, L, text =>
    if L.stream.HasMore then
      let r := L.stream.NextChar
      let L1 := { L with stream := r.2 }
      if r.1 = some q then some (L1, text)
      else if r.1 = none then some (L1, text)
      else Lexer.ReadQuotedLoop q fuel L1 (text ++ [toChar r.1])
    else
      some (L, text)

/-- The body of `Lexer::ReadSingleQuotedString` and of
`Lexer::ReadDoubleQuotedString` for the quote character `q`. -/
def Lexer.ReadQuotedString (q : Char) (L : Lexer) : Option Lexer :=
  let L0 := { L with stream := L.stream.Advance }
  match Lexer.ReadQuotedLoop q (L0.stream.chars.length + 1) L0 [] with
  | none => none
  | some (L1, text) =>
    some { L1 with
      tokens := L1.tokens.AddToken { type := TokenType.String, token := text, line := L.line } }

/-- The method `Lexer::ReadSingleQuotedString`. -/
def Lexer.ReadSingleQuotedString (L : Lexer) : Option Lexer :=
  Lexer.ReadQuotedString SQUOTE L

/-- The method `Lexer::ReadDoubleQuotedString`. -/
def Lexer.ReadDoubleQuotedString (L : Lexer) : Option Lexer :=
  Lexer.ReadQuotedString DQUOTE L

/-- The four cases `=`, `!`, `<`, `>` of the switch in `Lexer::Parse`: advance,
peek, and add the two-character operator (advancing) or the one-character
operator (not advancing). -/
def Lexer.ReadOperator (L : Lexer) (two one : TokenType) : Lexer :=
  let L1 := { L with stream := L.stream.Advance }
  if L1.stream.PeekChar lookAheadDefault = some '=' then L1.AddToken two advanceDefault
  else L1.AddToken one false

/-- One iteration of the `while` loop of `Lexer::Parse`, entered with
`HasMore` true. The flag is `false` when the iteration executes `return false`. -/
def Lexer.ParseStep (L : Lexer) : Option (Bool × Lexer) :=
  let chr := L.stream.PeekChar lookAheadDefault
  if L.IsWhiteSpace then (L.ReadWhiteSpace).map (fun r => (true, r))
  else if L.IsIdentifier then (L.ReadIdentifier).map (fun r => (true, r))
  else if L.IsNumber then (L.ReadNumber).map (fun r => (true, r))
  else if chr = some '+' then some (true, L.AddToken TokenType.Add advanceDefault)
  else if chr = some '-' then some (true, L.AddToken TokenType.Sub advanceDefault)
  else if chr = some '*' then some (true, L.AddToken TokenType.Mul advanceDefault)
  else if chr = some '/' then some (true, L.AddToken TokenType.Div advanceDefault)
  else if chr = some '(' then some (true, L.AddToken TokenType.OpenParen advanceDefault)
  else if chr = some ')' then some (true, L.AddToken TokenType.CloseParen advanceDefault)
  else if chr = some (Char.ofNat 123) then
    some (true, L.AddToken TokenType.OpenCurlyBrace advanceDefault)
  else if chr = some (Char.ofNat 125) then
    some (true, L.AddToken TokenType.CloseCurlyBrace advanceDefault)
  else if chr = some '[' then some (true, L.AddToken TokenType.OpenBracket advanceDefault)
  else if chr = some ']' then some (true, L.AddToken TokenType.CloseBracket advanceDefault)
  else if chr = some ',' then some (true, L.AddToken TokenType.Comma advanceDefault)
  else if chr = some '.' then some (true, L.AddToken TokenType.Dot advanceDefault)
  else if chr = some '=' then some (true, L.ReadOperator TokenType.EQ TokenType.Assign)
  else if chr = some '!' then some (true, L.ReadOperator TokenType.NEQ TokenType.Not)
  else if chr = some '<' then some (true, L.ReadOperator TokenType.LTE TokenType.LT)
  else if chr = some '>' then some (true, L.ReadOperator TokenType.GTE TokenType.GT)
  else if chr = some ':' then some (true, L.AddToken TokenType.Colon advanceDefault)
  else if chr = some ';' then some (true, L.AddToken TokenType.SemiColon advanceDefault)
  else if chr = some SQUOTE then (L.ReadSingleQuotedString).map (fun r => (true, r))
  else if chr = some DQUOTE then (L.ReadDoubleQuotedString).map (fun r => (true, r))
  else
    some (false, { L with error := { L.error with
      code := ErrorType.UNKOWN_CHAR,
      message := "unknown character ".toList ++ [toChar chr] } })

/-- The `while(stream->HasMore())` loop of `Lexer::Parse`. -/
def Lexer.ParseLoop : Nat → Lexer → Option (Bool × Lexer)
  | 0, _ => none
  | fuel + 1, L =>
    if L.stream.HasMore then
      match L.ParseStep with
      | none => none
      | some (false, L1) => some (false, L1)
      | some (true, L1) => Lexer.ParseLoop fuel L1
    else
      some (true, L)

/-- The method `Lexer::Parse`, run on a lexer in the state `L`: the streams are
replaced, the line is reset, the error record is whatever it was. -/
def Lexer.Parse (L : Lexer) (code : List Char) : Option (Bool × Lexer) :=
  let L0 : Lexer :=
    { tokens := TokenStream.new, stream := CharStream.new (StripComments code),
      line := 1, error := L.error }
  Lexer.ParseLoop (L0.stream.chars.length + 1) L0

/-! ## The remaining text of a stream, and the lexemes it starts with -/

/-- The part of the text at and after the cursor. -/
def CharStream.rest (s : CharStream) : List Char := s.chars.drop s.index

/-- The stream with the cursor moved `k` characters on. -/
def CharStream.skip (s : CharStream) (k : Nat) : CharStream :=
  { s with index := s.index + k }

/-- The lexer with the cursor moved `k` characters on. -/
def Lexer.skip (L : Lexer) (k : Nat) : Lexer :=
  { L with stream := L.stream.skip k }

/-- The characters that `ReadWhiteSpace` consumes. -/
def isWhite (c : Char) : Bool := decide (c = ' ' ∨ c = '\n' ∨ c = '\t')

/-- The characters that start an identifier. -/
def isIdStart (c : Char) : Bool := c = '_' || c.isAlpha

/-- The characters that continue an identifier. -/
def isIdCont (c : Char) : Bool := isIdStart c || c.isDigit

/-- The longest run of identifier characters at the head of a text; digits
count only when `ne` holds (some character has been accumulated already). -/
def identSpan : Bool → List Char → List Char
  | _, [] => []
  | ne, c :: cs => if isIdStart c || (ne && c.isDigit) then c :: identSpan true cs else []

/-- The number at the head of a text, read with the flag `dot` (a dot has been
seen), and the final value of the flag. -/
def numSpan : Bool → List Char → List Char × Bool
  | dot, [] => ([], dot)
  | dot, c :: cs =>
    if c.isDigit then (c :: (numSpan dot cs).1, (numSpan dot cs).2)
    else if c = '.' ∧ dot = false then (c :: (numSpan true cs).1, (numSpan true cs).2)
    else ([], dot)

/-- The lexer after a lexeme of `k` characters that yields the token `t`. -/
def Lexer.emit (L : Lexer) (k : Nat) (t : Token) : Lexer :=
  { L.skip k with tokens := L.tokens.AddToken t }

/-- The characters that the loop of a string literal with the quote `q`
accumulates: all but the quote and the byte 0xFF, which `NextChar` returns as
the value of `EOF`. -/
def isContent (q : Char) (x : Char) : Bool := x != q && x != Char.ofNat 255

/-- The lexer after `return false` on the character `c`. -/
def Lexer.failOn (L : Lexer) (c : Char) : Lexer :=
  { L with error := { L.error with
      code := ErrorType.UNKOWN_CHAR,
      message := "unknown character ".toList ++ [c] } }

/-- The closed form of one iteration of the loop of `Lexer::Parse` when the
remaining text is `c :: cs` (see `Lexer.ParseStep_eq`). -/
def Lexer.stepSpec (L : Lexer) (c : Char) (cs : List Char) : Bool × Lexer :=
  if isWhite c then
    (true, { L.skip ((c :: cs).takeWhile isWhite).length with
      line := L.line + (((c :: cs).takeWhile isWhite).count '\n' : Nat) })
  else if isIdStart c then
    (true, L.emit (identSpan false (c :: cs)).length
      { type := keywordType (identSpan false (c :: cs)), token := identSpan false (c :: cs),
        line := L.line })
  else if c.isDigit then
    (true, L.emit (numSpan false (c :: cs)).1.length
      { type := if (numSpan false (c :: cs)).2 then TokenType.Float else TokenType.Integer,
        token := (numSpan false (c :: cs)).1, line := L.line })
  else if c = '+' then (true, L.emit 1 { type := TokenType.Add, token := [], line := L.line })
  else if c = '-' then (true, L.emit 1 { type := TokenType.Sub, token := [], line := L.line })
  else if c = '*' then (true, L.emit 1 { type := TokenType.Mul, token := [], line := L.line })
  else if c = '/' then (true, L.emit 1 { type := TokenType.Div, token := [], line := L.line })
  else if c = '(' then (true, L.emit 1 { type := TokenType.OpenParen, token := [], line := L.line })
  else if c = ')' then (true, L.emit 1 { type := TokenType.CloseParen, token := [], line := L.line })
  else if c = Char.ofNat 123 then
    (true, L.emit 1 { type := TokenType.OpenCurlyBrace, token := [], line := L.line })
  else if c = Char.ofNat 125 then
    (true, L.emit 1 { type := TokenType.CloseCurlyBrace, token := [], line := L.line })
  else if c = '[' then (true, L.emit 1 { type := TokenType.OpenBracket, token := [], line := L.line })
  else if c = ']' then (true, L.emit 1 { type := TokenType.CloseBracket, token := [], line := L.line })
  else if c = ',' then (true, L.emit 1 { type := TokenType.Comma, token := [], line := L.line })
  else if c = '.' then (true, L.emit 1 { type := TokenType.Dot, token := [], line := L.line })
  else if c = '=' then
    (true, if cs.head? = some '=' then L.emit 2 { type := TokenType.EQ, token := [], line := L.line }
      else L.emit 1 { type := TokenType.Assign, token := [], line := L.line })
  else if c = '!' then
    (true, if cs.head? = some '=' then L.emit 2 { type := TokenType.NEQ, token := [], line := L.line }
      else L.emit 1 { type := TokenType.Not, token := [], line := L.line })
  else if c = '<' then
    (true, if cs.head? = some '=' then L.emit 2 { type := TokenType.LTE, token := [], line := L.line }
      else L.emit 1 { type := TokenType.LT, token := [], line := L.line })
  else if c = '>' then
    (true, if cs.head? = some '=' then L.emit 2 { type := TokenType.GTE, token := [], line := L.line }
      else L.emit 1 { type := TokenType.GT, token := [], line := L.line })
  else if c = ':' then (true, L.emit 1 { type := TokenType.Colon, token := [], line := L.line })
  else if c = ';' then (true, L.emit 1 { type := TokenType.SemiColon, token := [], line := L.line })
  else if c = SQUOTE then
    (true, L.emit (1 + min ((cs.takeWhile (isContent SQUOTE)).length + 1) cs.length)
      { type := TokenType.String, token := cs.takeWhile (isContent SQUOTE), line := L.line })
  else if c = DQUOTE then
    (true, L.emit (1 + min ((cs.takeWhile (isContent DQUOTE)).length + 1) cs.length)
      { type := TokenType.String, token := cs.takeWhile (isContent DQUOTE), line := L.line })
  else (false, L.failOn c)

/-- The punctuation and operator characters of the switch in `Lexer::Parse`. -/
def isSymbol (c : Char) : Bool :=
  decide (c = '+' ∨ c = '-' ∨ c = '*' ∨ c = '/' ∨ c = '(' ∨ c = ')' ∨ c = Char.ofNat 123 ∨
    c = Char.ofNat 125 ∨ c = '[' ∨ c = ']' ∨ c = ',' ∨ c = '.' ∨ c = '=' ∨ c = '!' ∨ c = '<' ∨
    c = '>' ∨ c = ':' ∨ c = ';')

/-- The recognized characters other than the two quotes. -/
def isPlain (c : Char) : Bool := isWhite c || isIdStart c || c.isDigit || isSymbol c

/-- The characters on which the loop of `Lexer::Parse` does not return false. -/
def isRecognized (c : Char) : Bool := isPlain c || decide (c = SQUOTE) || decide (c = DQUOTE)

/-- The token kinds that `Lexer::ReadIdentifier` produces: `Iden`, the
keywords and the literals `true`, `false`, `null`. -/
def TokenType.isWord : TokenType → Bool
  | .Iden | .True | .False | .Null
  | .Import | .Module | .New | .Class | .Function | .Def | .Extends | .Static | .Return
  | .Var | .Enum | .If | .Else | .Elif | .For | .While | .Break | .Or | .And => true
  | _ => false

/-- The text of a token begins with a letter or an underscore. -/
def Token.startsLikeIdentifier (t : Token) : Prop :=
  ∃ c r, t.token = c :: r ∧ isIdStart c = true

/-- The main loop run with the fuel that the remaining text asks for. -/
def Lexer.run (L : Lexer) : Option (Bool × Lexer) :=
  Lexer.ParseLoop (L.stream.rest.length + 1) L

/-- The outcome `r` of a run of the main loop, had the run started with the
error record `e`: a successful run leaves `e` as it is, a failed run has written
the code and the message. -/
def Lexer.outcomeWith (e : Error) (r : Bool × Lexer) : Bool × Lexer :=
  (r.1, { r.2 with error :=
    if r.1 = true then e else { e with code := r.2.error.code, message := r.2.error.message } })

/-! ## Lexeme positions -/

/-- The loop of `Lexer::Parse` again, keeping for every token the loop emits
the cursor index at which the iteration that emitted it began: the position of
the first character of the lexeme of the token. -/
def Lexer.ParseLoopStarts : Nat → Lexer → Option (List Nat)
  | 0, _ => none
  | fuel + 1, L =>
    if L.stream.HasMore then
      match L.ParseStep with
      | none => none
      | some (false, L1) =>
        some (List.replicate (L1.tokens.tokens.length - L.tokens.tokens.length) L.stream.index)
      | some (true, L1) =>
        (Lexer.ParseLoopStarts fuel L1).map
          (fun r => List.replicate (L1.tokens.tokens.length - L.tokens.tokens.length)
            L.stream.index ++ r)
    else
      some []

/-- The positions in the text at which the lexemes of the tokens of
`Lexer::Parse` begin, in the order of the tokens. -/
def Lexer.ParseStarts (L : Lexer) (code : List Char) : Option (List Nat) :=
  Lexer.ParseLoopStarts ((StripComments code).length + 1)
    { tokens := TokenStream.new, stream := CharStream.new (StripComments code),
      line := 1, error := L.error }

/-- The loop of `Lexer::Parse` again, counting the iterations it executes (the
one that returns false included). -/
def Lexer.ParseLoopCount : Nat → Lexer → Option Nat
  | 0, _ => none
  | fuel + 1, L =>
    if L.stream.HasMore then
      match L.ParseStep with
      | none => none
      | some (false, _) => some 1
      | some (true, L1) => (Lexer.ParseLoopCount fuel L1).map (fun n => n + 1)
    else
      some 0

/-- The number of iterations of the main loop in `Lexer::Parse`. -/
def Lexer.ParseCount (L : Lexer) (code : List Char) : Option Nat :=
  Lexer.ParseLoopCount ((StripComments code).length + 1)
    { tokens := TokenStream.new, stream := CharStream.new (StripComments code),
      line := 1, error := L.error }

/-- Where a token comes from: the position `start` at which its lexeme begins,
the number `white` of newlines that the loop has consumed as whitespace before
it, and the number `quoted` of newlines inside the string literals before it. -/
structure TokenOrigin where
  start : Nat
  white : Nat
  quoted : Nat
  deriving DecidableEq, Repr

/-- The loop of `Lexer::Parse` again, keeping for every token the loop emits its
origin. The counters `white` and `quoted` hold the newlines among the characters
that the iterations so far have consumed, those of the iterations that began at
a whitespace character and those of the iterations that began at a quote. -/
def Lexer.ParseLoopOrigins : Nat → Lexer → Nat → Nat → Option (List TokenOrigin)
  | 0, _, _, _ => none
  | fuel + 1, L, white, quoted =>
    if L.stream.HasMore then
      match L.ParseStep with
      | none => none
      | some (ok, L1) =>
        let n := (((L.stream.chars.drop L.stream.index).take
          (L1.stream.index - L.stream.index)).count '\n')
        let new := List.replicate (L1.tokens.tokens.length - L.tokens.tokens.length)
          ({ start := L.stream.index, white := white, quoted := quoted } : TokenOrigin)
        if ok = true then
          (Lexer.ParseLoopOrigins fuel L1
            (if L.IsWhiteSpace = true then white + n else white)
            (if L.stream.PeekChar lookAheadDefault = some SQUOTE ∨
                L.stream.PeekChar lookAheadDefault = some DQUOTE then quoted + n
              else quoted)).map (fun r => new ++ r)
        else
          some new
    else
      some []

/-- The origins of the tokens of `Lexer::Parse`, in the order of the tokens. -/
def Lexer.ParseOrigins (L : Lexer) (code : List Char) : Option (List TokenOrigin) :=
  Lexer.ParseLoopOrigins ((StripComments code).length + 1)
    { tokens := TokenStream.new, stream := CharStream.new (StripComments code),
      line := 1, error := L.error } 0 0

/-! ## The vocabulary of the claims -/

/-- A text has two adjacent `/` characters somewhere. -/
def hasAdjacentSlashes : List Char → Bool
  | c :: d :: r => (decide (c = '/') && decide (d = '/')) || hasAdjacentSlashes (d :: r)
  | _ => false

/-- Position `i` of the text lies in a comment: some `/` at a position `j ≤ i`
is immediately followed by a second `/`, and no newline stands at the
positions `j` to `i`. -/
def inComment (s : List Char) (i : Nat) : Prop :=
  ∃ j, j ≤ i ∧ s[j]? = some '/' ∧ s[j + 1]? = some '/' ∧
    ∀ k, j ≤ k → k ≤ i → s[k]? ≠ some '\n'

/-- Position `i` is blanked by the loop of `StripComments` entered in the mode
`b`: the loop is in comment mode and no newline stands at the positions `0` to
`i`, or position `i` lies in a comment of the text. -/
def blankedAt (b : Bool) (s : List Char) (i : Nat) : Prop :=
  (b = true ∧ ∀ k, k ≤ i → s[k]? ≠ some '\n') ∨ inComment s i

/-- The comment mode after the loop of `StripComments` has handled the
character `c`, which is followed by `cs`, in the mode `b`. -/
def nextMode (b : Bool) (c : Char) (cs : List Char) : Bool :=
  if b then !decide (c = '\n') else decide (c = '/' ∧ cs.head? = some '/')

/-- A text shaped like an identifier: a letter or `_`, then letters, digits
and `_`. -/
def identifierShaped (w : List Char) : Prop :=
  ∃ c r, w = c :: r ∧ isIdStart c = true ∧ ∀ x ∈ r, isIdCont x = true

/-- A non-empty string of digits. -/
def digitString (d : List Char) : Prop :=
  d ≠ [] ∧ ∀ x ∈ d, x.isDigit = true

/-- The keywords and literals of the language with their token kinds, as the
specification lists them. -/
def keywordTable : List (List Char × TokenType) :=
  [("import".toList, TokenType.Import), ("module".toList, TokenType.Module),
   ("new".toList, TokenType.New), ("class".toList, TokenType.Class),
   ("function".toList, TokenType.Function), ("def".toList, TokenType.Def),
   ("extends".toList, TokenType.Extends), ("static".toList, TokenType.Static),
   ("return".toList, TokenType.Return), ("var".toList, TokenType.Var),
   ("enum".toList, TokenType.Enum), ("if".toList, TokenType.If),
   ("else".toList, TokenType.Else), ("elif".toList, TokenType.Elif),
   ("for".toList, TokenType.For), ("while".toList, TokenType.While),
   ("break".toList, TokenType.Break), ("or".toList, TokenType.Or),
   ("and".toList, TokenType.And), ("true".toList, TokenType.True),
   ("false".toList, TokenType.False), ("null".toList, TokenType.Null)]

/-- The four operator characters that may be followed by `=`, each with its
two-character and its one-character token kind, as the specification lists
them. -/
def operatorTable : List (Char × TokenType × TokenType) :=
  [('=', TokenType.EQ, TokenType.Assign), ('!', TokenType.NEQ, TokenType.Not),
   ('<', TokenType.LTE, TokenType.LT), ('>', TokenType.GTE, TokenType.GT)]

/-! ## Lemmas on streams -/

theorem CharStream.rest_skip (s : CharStream) (k : Nat) : (s.skip k).rest = s.rest.drop k := by
  simp [CharStream.rest, CharStream.skip, List.drop_drop, Nat.add_comm]

theorem CharStream.skip_zero (s : CharStream) : s.skip 0 = s := rfl

theorem CharStream.skip_skip (s : CharStream) (j k : Nat) : (s.skip j).skip k = s.skip (j + k) := by
  simp [CharStream.skip, Nat.add_assoc]

theorem CharStream.Advance_eq (s : CharStream) : s.Advance = s.skip 1 := rfl

theorem CharStream.HasMore_nil (s : CharStream) (h : s.rest = []) : s.HasMore = false := by
  simp only [CharStream.rest, List.drop_eq_nil_iff] at h
  simp [CharStream.HasMore]; omega

theorem CharStream.lt_of_cons (s : CharStream) (c : Char) (cs : List Char)
    (h : s.rest = c :: cs) : s.index < s.chars.length := by
  by_contra hlt
  have : s.rest = [] := by simp [CharStream.rest]; omega
  rw [this] at h; cases h

theorem CharStream.HasMore_cons (s : CharStream) (c : Char) (cs : List Char)
    (h : s.rest = c :: cs) : s.HasMore = true := by
  simp [CharStream.HasMore, s.lt_of_cons c cs h]

theorem charToInt_of_ne (c : Char) (h : c ≠ Char.ofNat 255) : charToInt c = some c := by
  simp [charToInt, h]

theorem charToInt_last : charToInt (Char.ofNat 255) = none := by
  simp [charToInt]

theorem charToInt_eq_none (c : Char) : charToInt c = none ↔ c = Char.ofNat 255 := by
  unfold charToInt; split <;> simp [*]

theorem charToInt_eq_some (c d : Char) (hd : d ≠ Char.ofNat 255) :
    charToInt c = some d ↔ c = d := by
  unfold charToInt
  split
  · rename_i h
    constructor
    · intro h2; cases h2
    · intro h2; exact absurd (h2 ▸ h) hd
  · simp

theorem charToInt_eq_some_iff (c d : Char) :
    charToInt c = some d ↔ c = d ∧ d ≠ Char.ofNat 255 := by
  by_cases hd : d = Char.ofNat 255
  · subst hd
    unfold charToInt
    split <;> simp [*]
  · simp [charToInt_eq_some c d hd, hd]

theorem SQUOTE_ne_last : ¬ SQUOTE = Char.ofNat 255 := by decide

theorem DQUOTE_ne_last : ¬ DQUOTE = Char.ofNat 255 := by decide

theorem toChar_charToInt (c : Char) : toChar (charToInt c) = c := by
  unfold charToInt; split <;> simp [toChar, *]

theorem isalpha_charToInt (c : Char) : isalpha (charToInt c) = c.isAlpha := by
  unfold charToInt
  split
  · rename_i h; subst h; decide
  · rfl

theorem isdigit_charToInt (c : Char) : isdigit (charToInt c) = c.isDigit := by
  unfold charToInt
  split
  · rename_i h; subst h; decide
  · rfl

theorem CharStream.PeekChar_eq (s : CharStream) (k : Nat) :
    s.PeekChar k = (s.rest[k]?).bind charToInt := by
  unfold CharStream.PeekChar CharStream.rest
  split
  · simp [List.getElem?_drop]
  · rename_i h
    have : s.chars.length ≤ s.index + k := by omega
    simp [List.getElem?_drop, List.getElem?_eq_none this]

theorem CharStream.PeekChar_nil (s : CharStream) (h : s.rest = []) : s.PeekChar 0 = none := by
  simp [CharStream.PeekChar_eq, h]

theorem CharStream.PeekChar_cons (s : CharStream) (c : Char) (cs : List Char)
    (h : s.rest = c :: cs) : s.PeekChar 0 = charToInt c := by
  simp [CharStream.PeekChar_eq, h]

theorem CharStream.NextChar_cons (s : CharStream) (c : Char) (cs : List Char)
    (h : s.rest = c :: cs) : s.NextChar = (charToInt c, s.skip 1) := by
  have hlt := s.lt_of_cons c cs h
  have hp := s.PeekChar_cons c cs h
  simp only [CharStream.PeekChar, Nat.add_zero, hlt, if_true] at hp
  simp only [CharStream.NextChar, hlt, if_true, hp, CharStream.skip]

theorem CharStream.rest_skip_one (s : CharStream) (c : Char) (cs : List Char)
    (h : s.rest = c :: cs) : (s.skip 1).rest = cs := by
  simp [CharStream.rest_skip, h]

/-! ## Closed forms of the four reading loops -/

theorem Lexer.lexer_skip_zero (L : Lexer) : L.skip 0 = L := rfl

theorem Lexer.lexer_skip_skip (L : Lexer) (j k : Nat) : (L.skip j).skip k = L.skip (j + k) := by
  simp [Lexer.skip, CharStream.skip_skip]

theorem Lexer.ReadWhiteSpaceLoop_eq (fuel : Nat) (L : Lexer) (h : L.stream.rest.length < fuel) :
    Lexer.ReadWhiteSpaceLoop fuel L =
      some { L.skip (L.stream.rest.takeWhile isWhite).length with
        line := L.line + ((L.stream.rest.takeWhile isWhite).count '\n' : Nat) } := by
  induction fuel generalizing L with
  | zero => omega
  | succ n ih =>
    unfold Lexer.ReadWhiteSpaceLoop
    cases hr : L.stream.rest with
    | nil => simp [CharStream.HasMore_nil _ hr, Lexer.lexer_skip_zero]
    | cons c cs =>
      rw [hr] at h
      have hlen : cs.length < n := by simp at h; omega
      have hN := CharStream.NextChar_cons _ c cs hr
      have hr3 := CharStream.rest_skip_one _ _ _ hr
      simp only [CharStream.HasMore_cons _ c cs hr, CharStream.PeekChar_cons _ c cs hr, if_true,
        Option.some.injEq, charToInt_eq_some_iff, ne_eq, Char.reduceEq, not_false_eq_true, and_true]
      by_cases hw : c = ' ' ∨ c = '\n' ∨ c = '\t'
      · have hw1 : isWhite c = true := by simpa [isWhite] using hw
        rw [if_pos hw]
        by_cases hn : c = '\n'
        · simp only [hn, if_true]
          rw [hn] at hN
          simp only [hN]
          rw [ih _ (by simpa [hr3] using hlen)]
          simp only [hr3, Lexer.skip, CharStream.skip_skip]
          rw [hn] at hw1
          simp [List.takeWhile_cons, hw1, Nat.add_comm]
          omega
        · simp only [hn, if_false, hN]
          rw [ih _ (by simpa [hr3] using hlen)]
          simp only [hr3, Lexer.skip, CharStream.skip_skip]
          have hn2 : ¬ ('\n' = c) := fun h => hn h.symm
          simp [List.takeWhile_cons, hw1, Nat.add_comm, List.count_cons, hn2]
      · have hw1 : isWhite c = false := by simpa [isWhite] using hw
        rw [if_neg hw]
        have hn : c ≠ '\n' := fun h => hw (Or.inr (Or.inl h))
        simp [hn, List.takeWhile_cons, hw1, Lexer.lexer_skip_zero]

theorem Lexer.ReadIdentifierLoop_eq (fuel : Nat) (L : Lexer) (token : List Char)
    (h : L.stream.rest.length < fuel) :
    Lexer.ReadIdentifierLoop fuel L token =
      some (L.skip (identSpan (decide (token.length > 0)) L.stream.rest).length,
        token ++ identSpan (decide (token.length > 0)) L.stream.rest) := by
  induction fuel generalizing L token with
  | zero => omega
  | succ n ih =>
    unfold Lexer.ReadIdentifierLoop
    cases hr : L.stream.rest with
    | nil => simp [CharStream.HasMore_nil _ hr, Lexer.lexer_skip_zero, identSpan]
    | cons c cs =>
      rw [hr] at h
      have hlen : cs.length < n := by simp at h; omega
      have hN := CharStream.NextChar_cons _ c cs hr
      have hr3 := CharStream.rest_skip_one _ _ _ hr
      simp only [CharStream.HasMore_cons _ c cs hr, CharStream.PeekChar_cons _ c cs hr, if_true,
        Option.some.injEq, hN, toChar_charToInt, isalpha_charToInt, isdigit_charToInt,
        charToInt_eq_some_iff, ne_eq, Char.reduceEq, not_false_eq_true, and_true]
      by_cases hc : (isIdStart c || (decide (token.length > 0) && c.isDigit)) = true
      · have hc2 : (decide (c = '_') || c.isAlpha || (decide (token.length > 0) && c.isDigit))
            = true := by simpa [isIdStart] using hc
        rw [if_pos hc2, ih _ _ (by simpa [hr3] using hlen)]
        simp only [hr3, Lexer.skip, CharStream.skip_skip]
        simp [identSpan, hc, Nat.add_comm]
      · have hc2 : ¬ (decide (c = '_') || c.isAlpha || (decide (token.length > 0) && c.isDigit))
            = true := by simpa [isIdStart] using hc
        rw [if_neg hc2]
        simp [identSpan, hc, Lexer.lexer_skip_zero]

theorem Lexer.ReadNumberLoop_eq (fuel : Nat) (L : Lexer) (dot : Bool) (token : List Char)
    (h : L.stream.rest.length < fuel) :
    Lexer.ReadNumberLoop fuel L dot token =
      some (L.skip (numSpan dot L.stream.rest).1.length, (numSpan dot L.stream.rest).2,
        token ++ (numSpan dot L.stream.rest).1) := by
  induction fuel generalizing L dot token with
  | zero => omega
  | succ n ih =>
    unfold Lexer.ReadNumberLoop
    cases hr : L.stream.rest with
    | nil => simp [CharStream.HasMore_nil _ hr, Lexer.lexer_skip_zero, numSpan]
    | cons c cs =>
      rw [hr] at h
      have hlen : cs.length < n := by simp at h; omega
      have hr3 := CharStream.rest_skip_one _ _ _ hr
      simp only [CharStream.HasMore_cons _ c cs hr, CharStream.PeekChar_cons _ c cs hr, if_true,
        toChar_charToInt, CharStream.Advance_eq]
      by_cases hd : c.isDigit = true
      · rw [if_pos hd, ih _ _ _ (by simpa [hr3] using hlen)]
        simp only [hr3, Lexer.skip, CharStream.skip_skip]
        simp [numSpan, hd, Nat.add_comm]
      · rw [if_neg hd]
        by_cases hdot : c = '.' ∧ dot = false
        · rw [if_pos hdot, ih _ _ _ (by simpa [hr3] using hlen)]
          simp only [hr3, Lexer.skip, CharStream.skip_skip]
          simp [numSpan, hd, hdot, Nat.add_comm]
        · rw [if_neg hdot]
          simp [numSpan, hd, hdot, Lexer.lexer_skip_zero]

theorem Lexer.ReadQuotedLoop_eq (q : Char) (fuel : Nat) (L : Lexer) (text : List Char)
    (h : L.stream.rest.length < fuel) :
    Lexer.ReadQuotedLoop q fuel L text =
      some (L.skip (min ((L.stream.rest.takeWhile (isContent q)).length + 1)
          L.stream.rest.length),
        text ++ L.stream.rest.takeWhile (isContent q)) := by
  induction fuel generalizing L text with
  | zero => omega
  | succ n ih =>
    unfold Lexer.ReadQuotedLoop
    cases hr : L.stream.rest with
    | nil => simp [CharStream.HasMore_nil _ hr, Lexer.lexer_skip_zero]
    | cons c cs =>
      rw [hr] at h
      have hlen : cs.length < n := by simp at h; omega
      have hN := CharStream.NextChar_cons _ c cs hr
      have hr3 := CharStream.rest_skip_one _ _ _ hr
      simp only [CharStream.HasMore_cons _ c cs hr, if_true, hN, toChar_charToInt]
      by_cases hl : c = Char.ofNat 255
      · have hk : isContent q c = false := by simp [isContent, hl]
        rw [if_neg (by simp [(charToInt_eq_none c).2 hl]), if_pos ((charToInt_eq_none c).2 hl)]
        simp [List.takeWhile_cons, hk, Lexer.skip]
      · rw [charToInt_of_ne c hl]
        simp only [Option.some.injEq]
        by_cases hc : c = q
        · have hk : isContent q c = false := by simp [isContent, hc]
          rw [if_pos hc]
          simp [List.takeWhile_cons, hk, Lexer.skip]
        · have hk : isContent q c = true := by simp [isContent, hc, hl]
          rw [if_neg hc, if_neg (by simp)]
          have hr4 : ({ L with stream := L.stream.skip 1 } : Lexer).stream.rest = cs := hr3
          rw [ih _ _ (by simpa [hr4] using hlen)]
          simp only [hr4, Lexer.skip, CharStream.skip_skip]
          simp [List.takeWhile_cons, hk, Nat.add_comm 1, Nat.add_min_add_right]

/-! ## Closed form of one iteration of the main loop -/

theorem Lexer.rest_length_lt (L : Lexer) : L.stream.rest.length < L.stream.chars.length + 1 := by
  simp [CharStream.rest]; omega

theorem Lexer.ReadWhiteSpace_eq (L : Lexer) :
    L.ReadWhiteSpace =
      some { L.skip (L.stream.rest.takeWhile isWhite).length with
        line := L.line + ((L.stream.rest.takeWhile isWhite).count '\n' : Nat) } :=
  Lexer.ReadWhiteSpaceLoop_eq _ _ L.rest_length_lt

theorem Lexer.ReadIdentifier_eq (L : Lexer) :
    L.ReadIdentifier =
      some (L.emit (identSpan false L.stream.rest).length
        { type := keywordType (identSpan false L.stream.rest),
          token := identSpan false L.stream.rest, line := L.line }) := by
  unfold Lexer.ReadIdentifier
  rw [Lexer.ReadIdentifierLoop_eq _ _ _ L.rest_length_lt]
  simp [Lexer.emit, Lexer.skip, TokenStream.AddToken3]

theorem Lexer.ReadNumber_eq (L : Lexer) :
    L.ReadNumber =
      some (L.emit (numSpan false L.stream.rest).1.length
        { type := if (numSpan false L.stream.rest).2 then TokenType.Float else TokenType.Integer,
          token := (numSpan false L.stream.rest).1, line := L.line }) := by
  unfold Lexer.ReadNumber
  rw [Lexer.ReadNumberLoop_eq _ _ _ _ L.rest_length_lt]
  simp [Lexer.emit, Lexer.skip, TokenStream.AddToken3]

theorem Lexer.ReadQuotedString_eq (q : Char) (L : Lexer) (c : Char) (cs : List Char)
    (hr : L.stream.rest = c :: cs) :
    Lexer.ReadQuotedString q L =
      some (L.emit (1 + min ((cs.takeWhile (isContent q)).length + 1) cs.length)
        { type := TokenType.String, token := cs.takeWhile (isContent q), line := L.line }) := by
  unfold Lexer.ReadQuotedString
  have hr3 : ({ L with stream := L.stream.Advance } : Lexer).stream.rest = cs :=
    CharStream.rest_skip_one _ _ _ hr
  have hlt : ({ L with stream := L.stream.Advance } : Lexer).stream.rest.length
      < ({ L with stream := L.stream.Advance } : Lexer).stream.chars.length + 1 :=
    Lexer.rest_length_lt _
  simp only []
  rw [Lexer.ReadQuotedLoop_eq q _ _ _ hlt, hr3]
  simp [Lexer.emit, Lexer.skip, CharStream.Advance_eq, CharStream.skip_skip]

theorem Lexer.ReadOperator_eq (L : Lexer) (c : Char) (cs : List Char)
    (hr : L.stream.rest = c :: cs) (two one : TokenType) :
    L.ReadOperator two one =
      if cs.head? = some '=' then L.emit 2 { type := two, token := [], line := L.line }
      else L.emit 1 { type := one, token := [], line := L.line } := by
  unfold Lexer.ReadOperator
  have hr3 : ({ L with stream := L.stream.Advance } : Lexer).stream.rest = cs :=
    CharStream.rest_skip_one _ _ _ hr
  have hp : (({ L with stream := L.stream.Advance } : Lexer).stream.PeekChar 0 = some '=') =
      (cs.head? = some '=') := by
    rw [CharStream.PeekChar_eq, hr3]; cases cs <;> simp [charToInt_eq_some_iff]
  simp only [hp]
  split <;>
    simp [Lexer.AddToken, Lexer.emit, Lexer.skip, CharStream.Advance_eq, CharStream.skip_skip]

theorem Lexer.AddToken_eq (L : Lexer) (ty : TokenType) :
    L.AddToken ty true = L.emit 1 { type := ty, token := [], line := L.line } := by
  simp [Lexer.AddToken, Lexer.emit, Lexer.skip, CharStream.Advance_eq]

theorem Lexer.IsWhiteSpace_eq (L : Lexer) (c : Char) (cs : List Char)
    (hr : L.stream.rest = c :: cs) : L.IsWhiteSpace = isWhite c := by
  simp [Lexer.IsWhiteSpace, CharStream.PeekChar_cons _ c cs hr, isWhite, charToInt_eq_some_iff]

theorem Lexer.IsIdentifier_eq (L : Lexer) (c : Char) (cs : List Char)
    (hr : L.stream.rest = c :: cs) : L.IsIdentifier = isIdStart c := by
  simp [Lexer.IsIdentifier, CharStream.PeekChar_cons _ c cs hr, isIdStart, isalpha_charToInt,
    charToInt_eq_some_iff]

theorem Lexer.IsNumber_eq (L : Lexer) (c : Char) (cs : List Char)
    (hr : L.stream.rest = c :: cs) : L.IsNumber = c.isDigit := by
  simp [Lexer.IsNumber, CharStream.PeekChar_cons _ c cs hr, isdigit_charToInt]

theorem Lexer.ParseStep_eq (L : Lexer) (c : Char) (cs : List Char)
    (hr : L.stream.rest = c :: cs) : L.ParseStep = some (L.stepSpec c cs) := by
  have hp := CharStream.PeekChar_cons _ c cs hr
  have hq1 := Lexer.ReadQuotedString_eq SQUOTE L c cs hr
  have hq2 := Lexer.ReadQuotedString_eq DQUOTE L c cs hr
  have hw := L.ReadWhiteSpace_eq
  have hi := L.ReadIdentifier_eq
  have hn := L.ReadNumber_eq
  rw [hr] at hw hi hn
  unfold Lexer.ParseStep Lexer.stepSpec
  simp only [Lexer.IsWhiteSpace_eq L c cs hr, Lexer.IsIdentifier_eq L c cs hr,
    Lexer.IsNumber_eq L c cs hr]
  simp only [hp, hw, hi, hn, Lexer.ReadSingleQuotedString, Lexer.ReadDoubleQuotedString,
    hq1, hq2, Lexer.ReadOperator_eq L c cs hr, Lexer.AddToken_eq,
    Option.some.injEq, Option.map_some', toChar_charToInt, Lexer.failOn, apply_ite some,
    charToInt_eq_some_iff, ne_eq, Char.reduceEq, SQUOTE_ne_last, DQUOTE_ne_last,
    not_false_eq_true, and_true]

/-! ## Character classes -/

theorem isDigit_iff (c : Char) : c.isDigit = true ↔ 48 ≤ c.toNat ∧ c.toNat ≤ 57 := by
  simp only [Char.isDigit, Bool.and_eq_true, decide_eq_true_eq, ge_iff_le, UInt32.le_def,
    BitVec.le_def, Char.toNat, UInt32.toNat]
  rfl

theorem isAlpha_iff (c : Char) :
    c.isAlpha = true ↔ (65 ≤ c.toNat ∧ c.toNat ≤ 90) ∨ (97 ≤ c.toNat ∧ c.toNat ≤ 122) := by
  simp only [Char.isAlpha, Char.isUpper, Char.isLower, Bool.or_eq_true, Bool.and_eq_true,
    decide_eq_true_eq, ge_iff_le, UInt32.le_def, BitVec.le_def, Char.toNat, UInt32.toNat]
  rfl

theorem isIdStart_iff (c : Char) : isIdStart c = true ↔ c = '_' ∨ c.isAlpha = true := by
  simp [isIdStart]

theorem isWhite_iff (c : Char) : isWhite c = true ↔ c = ' ' ∨ c = '\n' ∨ c = '\t' := by
  simp [isWhite]

theorem not_isIdStart_of_isWhite (c : Char) (h : isWhite c = true) : isIdStart c = false := by
  rw [isWhite_iff] at h
  rcases h with h | h | h <;> subst h <;> decide

theorem not_isDigit_of_isWhite (c : Char) (h : isWhite c = true) : c.isDigit = false := by
  rw [isWhite_iff] at h
  rcases h with h | h | h <;> subst h <;> decide

theorem not_isDigit_of_isIdStart (c : Char) (h : isIdStart c = true) : c.isDigit = false := by
  rw [isIdStart_iff] at h
  rcases h with h | h
  · subst h; decide
  · rw [Bool.eq_false_iff, Ne, isDigit_iff]
    rw [isAlpha_iff] at h
    omega

theorem not_isWhite_of_isIdStart (c : Char) (h : isIdStart c = true) : isWhite c = false := by
  rw [Bool.eq_false_iff]
  intro hw
  rw [not_isIdStart_of_isWhite c hw] at h
  cases h

theorem not_isWhite_of_isDigit (c : Char) (h : c.isDigit = true) : isWhite c = false := by
  rw [Bool.eq_false_iff]
  intro hw
  rw [not_isDigit_of_isWhite c hw] at h
  cases h

theorem not_isIdStart_of_isDigit (c : Char) (h : c.isDigit = true) : isIdStart c = false := by
  rw [Bool.eq_false_iff]
  intro hw
  rw [not_isDigit_of_isIdStart c hw] at h
  cases h

theorem ne_newline_of_isIdStart (c : Char) (h : isIdStart c = true) : c ≠ '\n' := by
  rintro rfl; revert h; decide

theorem ne_newline_of_isDigit (c : Char) (h : c.isDigit = true) : c ≠ '\n' := by
  rintro rfl; revert h; decide

theorem isPlain_of_isWhite (c : Char) (h : isWhite c = true) : isPlain c = true := by
  simp [isPlain, h]

theorem isPlain_of_isIdStart (c : Char) (h : isIdStart c = true) : isPlain c = true := by
  simp [isPlain, h]

theorem isPlain_of_isDigit (c : Char) (h : c.isDigit = true) : isPlain c = true := by
  simp [isPlain, h]

theorem isPlain_of_isSymbol (c : Char) (h : isSymbol c = true) : isPlain c = true := by
  simp [isPlain, h]

/-! ## The spans at the head of a text -/

theorem take_length_takeWhile (f : Char → Bool) (l : List Char) :
    l.take (l.takeWhile f).length = l.takeWhile f := by
  induction l with
  | nil => rfl
  | cons a l ih =>
    by_cases h : f a = true
    · simp [List.takeWhile_cons, h, ih]
    · simp [List.takeWhile_cons, h]

theorem identSpan_take (ne : Bool) (l : List Char) :
    l.take (identSpan ne l).length = identSpan ne l := by
  induction l generalizing ne with
  | nil => rfl
  | cons a l ih =>
    by_cases h : (isIdStart a || (ne && a.isDigit)) = true
    · simp only [identSpan, h, if_true, List.length_cons, List.take_succ_cons, ih]
    · simp only [identSpan, h, List.length_nil, List.take_zero]
      rfl

theorem identSpan_mem (ne : Bool) (l : List Char) :
    ∀ x ∈ identSpan ne l, isIdCont x = true := by
  induction l generalizing ne with
  | nil => intro x hx; cases hx
  | cons a l ih =>
    intro x hx
    by_cases h : (isIdStart a || (ne && a.isDigit)) = true
    · simp only [identSpan, h, if_true, List.mem_cons] at hx
      rcases hx with hx | hx
      · subst hx
        simp only [isIdCont]
        revert h
        cases isIdStart x <;> cases x.isDigit <;> cases ne <;> simp
      · exact ih true x hx
    · simp only [identSpan, h] at hx
      cases hx

theorem identSpan_cons_start (c : Char) (cs : List Char) (h : isIdStart c = true) :
    identSpan false (c :: cs) = c :: identSpan true cs := by
  simp [identSpan, h]

theorem numSpan_take (dot : Bool) (l : List Char) :
    l.take (numSpan dot l).1.length = (numSpan dot l).1 := by
  induction l generalizing dot with
  | nil => rfl
  | cons a l ih =>
    by_cases h : a.isDigit = true
    · simp only [numSpan, h, if_true, List.length_cons, List.take_succ_cons, ih]
    · by_cases h2 : a = '.' ∧ dot = false
      · simp only [numSpan, h, h2, if_true, List.length_cons, List.take_succ_cons, ih]
        simp [ih]
      · simp only [numSpan, h, h2]
        rfl

theorem numSpan_mem (dot : Bool) (l : List Char) :
    ∀ x ∈ (numSpan dot l).1, x.isDigit = true ∨ x = '.' := by
  induction l generalizing dot with
  | nil => intro x hx; cases hx
  | cons a l ih =>
    intro x hx
    by_cases h : a.isDigit = true
    · simp only [numSpan, h, if_true, List.mem_cons] at hx
      rcases hx with hx | hx
      · subst hx; exact Or.inl h
      · exact ih dot x hx
    · by_cases h2 : a = '.' ∧ dot = false
      · have hs : numSpan dot (a :: l) = (a :: (numSpan true l).1, (numSpan true l).2) := by
          simp only [numSpan, h, h2]
          simp
        rw [hs, List.mem_cons] at hx
        rcases hx with hx | hx
        · exact Or.inr (hx.trans h2.1)
        · exact ih true x hx
      · simp only [numSpan, h, h2] at hx
        simp at hx

theorem numSpan_cons_digit (dot : Bool) (c : Char) (cs : List Char) (h : c.isDigit = true) :
    numSpan dot (c :: cs) = (c :: (numSpan dot cs).1, (numSpan dot cs).2) := by
  simp [numSpan, h]

theorem length_le_of_take_eq (l s : List Char) (h : l.take s.length = s) :
    s.length ≤ l.length := by
  have := congrArg List.length h
  simp at this
  omega

/-! ## What one iteration of the main loop does -/

theorem Lexer.emit_eq (L : Lexer) (k : Nat) (t : Token) :
    L.emit k t =
      { tokens := { tokens := L.tokens.tokens ++ [t], index := L.tokens.index },
        stream := L.stream.skip k, line := L.line + ((0 : Nat) : Int), error := L.error } := by
  simp [Lexer.emit, Lexer.skip, TokenStream.AddToken]

theorem Lexer.stepSpec_symbol (L : Lexer) (c : Char) (cs : List Char) (h : isSymbol c = true) :
    ∃ ty : TokenType, ty.isWord = false ∧
      (L.stepSpec c cs = (true, L.emit 1 { type := ty, token := [], line := L.line }) ∨
        (cs.head? = some '=' ∧
          L.stepSpec c cs = (true, L.emit 2 { type := ty, token := [], line := L.line }))) := by
  simp only [isSymbol, decide_eq_true_eq] at h
  rcases h with h | h | h | h | h | h | h | h | h | h | h | h | h | h | h | h | h | h <;> subst h
  · exact ⟨TokenType.Add, rfl, Or.inl rfl⟩
  · exact ⟨TokenType.Sub, rfl, Or.inl rfl⟩
  · exact ⟨TokenType.Mul, rfl, Or.inl rfl⟩
  · exact ⟨TokenType.Div, rfl, Or.inl rfl⟩
  · exact ⟨TokenType.OpenParen, rfl, Or.inl rfl⟩
  · exact ⟨TokenType.CloseParen, rfl, Or.inl rfl⟩
  · exact ⟨TokenType.OpenCurlyBrace, rfl, Or.inl rfl⟩
  · exact ⟨TokenType.CloseCurlyBrace, rfl, Or.inl rfl⟩
  · exact ⟨TokenType.OpenBracket, rfl, Or.inl rfl⟩
  · exact ⟨TokenType.CloseBracket, rfl, Or.inl rfl⟩
  · exact ⟨TokenType.Comma, rfl, Or.inl rfl⟩
  · exact ⟨TokenType.Dot, rfl, Or.inl rfl⟩
  · by_cases he : cs.head? = some '='
    · refine ⟨TokenType.EQ, rfl, Or.inr ⟨he, ?_⟩⟩
      show (true, if cs.head? = some '=' then _ else _) = _
      rw [if_pos he]
    · refine ⟨TokenType.Assign, rfl, Or.inl ?_⟩
      show (true, if cs.head? = some '=' then _ else _) = _
      rw [if_neg he]
  · by_cases he : cs.head? = some '='
    · refine ⟨TokenType.NEQ, rfl, Or.inr ⟨he, ?_⟩⟩
      show (true, if cs.head? = some '=' then _ else _) = _
      rw [if_pos he]
    · refine ⟨TokenType.Not, rfl, Or.inl ?_⟩
      show (true, if cs.head? = some '=' then _ else _) = _
      rw [if_neg he]
  · by_cases he : cs.head? = some '='
    · refine ⟨TokenType.LTE, rfl, Or.inr ⟨he, ?_⟩⟩
      show (true, if cs.head? = some '=' then _ else _) = _
      rw [if_pos he]
    · refine ⟨TokenType.LT, rfl, Or.inl ?_⟩
      show (true, if cs.head? = some '=' then _ else _) = _
      rw [if_neg he]
  · by_cases he : cs.head? = some '='
    · refine ⟨TokenType.GTE, rfl, Or.inr ⟨he, ?_⟩⟩
      show (true, if cs.head? = some '=' then _ else _) = _
      rw [if_pos he]
    · refine ⟨TokenType.GT, rfl, Or.inl ?_⟩
      show (true, if cs.head? = some '=' then _ else _) = _
      rw [if_neg he]
  · exact ⟨TokenType.Colon, rfl, Or.inl rfl⟩
  · exact ⟨TokenType.SemiColon, rfl, Or.inl rfl⟩

theorem Lexer.stepSpec_white (L : Lexer) (c : Char) (cs : List Char) (h : isWhite c = true) :
    L.stepSpec c cs =
      (true, { L.skip ((c :: cs).takeWhile isWhite).length with
        line := L.line + (((c :: cs).takeWhile isWhite).count '\n' : Nat) }) := by
  unfold Lexer.stepSpec
  rw [if_pos h]

theorem Lexer.stepSpec_ident (L : Lexer) (c : Char) (cs : List Char) (h : isIdStart c = true) :
    L.stepSpec c cs =
      (true, L.emit (identSpan false (c :: cs)).length
        { type := keywordType (identSpan false (c :: cs)), token := identSpan false (c :: cs),
          line := L.line }) := by
  unfold Lexer.stepSpec
  rw [if_neg (by simp [not_isWhite_of_isIdStart c h]), if_pos h]

theorem Lexer.stepSpec_number (L : Lexer) (c : Char) (cs : List Char) (h : c.isDigit = true) :
    L.stepSpec c cs =
      (true, L.emit (numSpan false (c :: cs)).1.length
        { type := if (numSpan false (c :: cs)).2 then TokenType.Float else TokenType.Integer,
          token := (numSpan false (c :: cs)).1, line := L.line }) := by
  unfold Lexer.stepSpec
  rw [if_neg (by simp [not_isWhite_of_isDigit c h]),
    if_neg (by simp [not_isIdStart_of_isDigit c h]), if_pos h]

theorem Lexer.stepSpec_quote (L : Lexer) (q : Char) (cs : List Char)
    (h : q = SQUOTE ∨ q = DQUOTE) :
    L.stepSpec q cs =
      (true, L.emit (1 + min ((cs.takeWhile (isContent q)).length + 1) cs.length)
        { type := TokenType.String, token := cs.takeWhile (isContent q), line := L.line }) := by
  rcases h with h | h <;> subst h <;> rfl

theorem Lexer.stepSpec_unrecognized (L : Lexer) (c : Char) (cs : List Char)
    (h : isRecognized c = false) : L.stepSpec c cs = (false, L.failOn c) := by
  simp only [isRecognized, isPlain, isSymbol, Bool.or_eq_false_iff, decide_eq_false_iff_not,
    not_or] at h
  obtain ⟨⟨⟨⟨⟨hw, hi⟩, hd⟩, hs⟩, hq1⟩, hq2⟩ := h
  obtain ⟨h1, h2, h3, h4, h5, h6, h7, h8, h9, h10, h11, h12, h13, h14, h15, h16, h17, h18⟩ := hs
  unfold Lexer.stepSpec
  rw [if_neg (by simp [hw]), if_neg (by simp [hi]), if_neg (by simp [hd]), if_neg h1, if_neg h2,
    if_neg h3, if_neg h4, if_neg h5, if_neg h6, if_neg h7, if_neg h8, if_neg h9, if_neg h10,
    if_neg h11, if_neg h12, if_neg h13, if_neg h14, if_neg h15, if_neg h16, if_neg h17,
    if_neg h18, if_neg hq1, if_neg hq2]

theorem isRecognized_cases (c : Char) :
    isWhite c = true ∨ isIdStart c = true ∨ c.isDigit = true ∨ isSymbol c = true ∨
      (c = SQUOTE ∨ c = DQUOTE) ∨ isRecognized c = false := by
  by_cases h : isRecognized c = true
  · simp only [isRecognized, isPlain, Bool.or_eq_true, decide_eq_true_eq] at h
    tauto
  · simp at h; simp [h]

theorem isPlain_ne_quote (c : Char) (h : isPlain c = true) : c ≠ SQUOTE ∧ c ≠ DQUOTE := by
  constructor <;> (rintro rfl; revert h; decide)

theorem symbol_ne_newline (c : Char) (h : isSymbol c = true) : c ≠ '\n' := by
  rintro rfl; revert h; decide

theorem Lexer.stepSpec_cases (L : Lexer) (c : Char) (cs : List Char) :
    (isRecognized c = false ∧ L.stepSpec c cs = (false, L.failOn c)) ∨
    (isRecognized c = true ∧ ∃ (k : Nat) (toks : List Token) (dl : Nat),
      L.stepSpec c cs =
        (true, { tokens := { tokens := L.tokens.tokens ++ toks, index := L.tokens.index },
                 stream := L.stream.skip k, line := L.line + (dl : Int), error := L.error }) ∧
      1 ≤ k ∧ k ≤ cs.length + 1 ∧
      toks.length = (if isWhite c then 0 else 1) ∧
      (∀ t ∈ toks, t.line = L.line ∧ (t.type.isWord = true → t.startsLikeIdentifier)) ∧
      (isPlain c = true →
        (∀ x ∈ (c :: cs).take k, isPlain x = true) ∧ dl = ((c :: cs).take k).count '\n') ∧
      (isPlain c = false → dl = 0)) := by
  rcases isRecognized_cases c with hw | hi | hd | hs | hq | hu
  · -- whitespace
    right
    have htake := take_length_takeWhile isWhite (c :: cs)
    refine ⟨by simp [isRecognized, isPlain, hw], ((c :: cs).takeWhile isWhite).length, [],
      ((c :: cs).takeWhile isWhite).count '\n', ?_, ?_, ?_, by simp [hw], by simp, ?_, ?_⟩
    · rw [Lexer.stepSpec_white L c cs hw]; simp [Lexer.skip]
    · simp [List.takeWhile_cons, hw]
    · simpa using length_le_of_take_eq _ _ htake
    · intro _
      rw [htake]
      refine ⟨fun x hx => ?_, rfl⟩
      have := List.mem_takeWhile_imp hx
      exact isPlain_of_isWhite x this
    · intro h; simp [isPlain, hw] at h
  · -- identifier
    right
    have htake := identSpan_take false (c :: cs)
    have hne := not_isWhite_of_isIdStart c hi
    refine ⟨by simp [isRecognized, isPlain, hi], (identSpan false (c :: cs)).length,
      [{ type := keywordType (identSpan false (c :: cs)), token := identSpan false (c :: cs),
         line := L.line }], 0, ?_, ?_, ?_, by simp [hne], ?_, ?_, by simp⟩
    · rw [Lexer.stepSpec_ident L c cs hi, Lexer.emit_eq]
    · simp [identSpan_cons_start c cs hi]
    · simpa using length_le_of_take_eq _ _ htake
    · intro t ht
      simp only [List.mem_singleton] at ht
      subst ht
      exact ⟨rfl, fun _ => ⟨c, identSpan true cs, identSpan_cons_start c cs hi, hi⟩⟩
    · intro _
      rw [htake]
      have hall : ∀ x ∈ identSpan false (c :: cs), isIdStart x = true ∨ x.isDigit = true := by
        intro x hx
        have := identSpan_mem false _ x hx
        simpa [isIdCont] using this
      refine ⟨fun x hx => ?_, ?_⟩
      · rcases hall x hx with h | h
        · exact isPlain_of_isIdStart x h
        · exact isPlain_of_isDigit x h
      · symm
        rw [List.count_eq_zero]
        intro hx
        rcases hall _ hx with h | h
        · exact ne_newline_of_isIdStart _ h rfl
        · exact ne_newline_of_isDigit _ h rfl
  · -- number
    right
    have htake := numSpan_take false (c :: cs)
    have hne := not_isWhite_of_isDigit c hd
    refine ⟨by simp [isRecognized, isPlain, hd], (numSpan false (c :: cs)).1.length,
      [{ type := if (numSpan false (c :: cs)).2 then TokenType.Float else TokenType.Integer,
         token := (numSpan false (c :: cs)).1, line := L.line }], 0, ?_, ?_, ?_, by simp [hne],
      ?_, ?_, by simp⟩
    · rw [Lexer.stepSpec_number L c cs hd, Lexer.emit_eq]
    · simp [numSpan_cons_digit false c cs hd]
    · simpa using length_le_of_take_eq _ _ htake
    · intro t ht
      simp only [List.mem_singleton] at ht
      subst ht
      refine ⟨rfl, fun h => ?_⟩
      exfalso
      revert h
      simp only []
      split <;> simp [TokenType.isWord]
    · intro _
      rw [htake]
      have hall := numSpan_mem false (c :: cs)
      refine ⟨fun x hx => ?_, ?_⟩
      · rcases hall x hx with h | h
        · exact isPlain_of_isDigit x h
        · subst h; decide
      · symm
        rw [List.count_eq_zero]
        intro hx
        rcases hall _ hx with h | h
        · exact ne_newline_of_isDigit _ h rfl
        · revert h; decide
  · -- punctuation and operators
    right
    have hne : isWhite c = false := by
      rw [Bool.eq_false_iff]; intro hw
      rw [isWhite_iff] at hw
      rcases hw with h | h | h <;> subst h <;> revert hs <;> decide
    obtain ⟨ty, hty, h1 | ⟨he, h2⟩⟩ := Lexer.stepSpec_symbol L c cs hs
    · refine ⟨by simp [isRecognized, isPlain, hs], 1, [{ type := ty, token := [], line := L.line }],
        0, ?_, le_refl _, by omega, by simp [hne], ?_, ?_, by simp⟩
      · rw [h1, Lexer.emit_eq]
      · intro t ht
        simp only [List.mem_singleton] at ht
        subst ht
        exact ⟨rfl, fun h => by simp [hty] at h⟩
      · intro _
        have hn := symbol_ne_newline c hs
        refine ⟨fun x hx => ?_, ?_⟩
        · simp at hx; subst hx; exact isPlain_of_isSymbol x hs
        · simp [List.count_cons, List.take_succ_cons, hn]
    · obtain ⟨cs2, hcs⟩ : ∃ cs2, cs = '=' :: cs2 := by
        cases cs with
        | nil => simp at he
        | cons a cs2 => simp at he; exact ⟨cs2, by rw [he]⟩
      subst hcs
      refine ⟨by simp [isRecognized, isPlain, hs], 2, [{ type := ty, token := [], line := L.line }],
        0, ?_, by omega, by simp, by simp [hne], ?_, ?_, by simp⟩
      · rw [h2, Lexer.emit_eq]
      · intro t ht
        simp only [List.mem_singleton] at ht
        subst ht
        exact ⟨rfl, fun h => by simp [hty] at h⟩
      · intro _
        have hn := symbol_ne_newline c hs
        refine ⟨fun x hx => ?_, ?_⟩
        · simp at hx
          rcases hx with hx | hx
          · subst hx; exact isPlain_of_isSymbol x hs
          · subst hx; decide
        · simp [List.count_cons, List.take_succ_cons, hn]
  · -- string literals
    right
    have hnp : isPlain c = false := by
      rcases hq with h | h <;> subst h <;> decide
    have hne : isWhite c = false := by
      rcases hq with h | h <;> subst h <;> decide
    refine ⟨by rcases hq with h | h <;> subst h <;> decide,
      1 + min ((cs.takeWhile (isContent c)).length + 1) cs.length,
      [{ type := TokenType.String, token := cs.takeWhile (isContent c), line := L.line }],
      0, ?_, by omega, ?_, by simp [hne], ?_, by simp [hnp], by simp⟩
    · rw [Lexer.stepSpec_quote L c cs hq, Lexer.emit_eq]
    · have := Nat.min_le_right ((cs.takeWhile (isContent c)).length + 1) cs.length
      omega
    · intro t ht
      simp only [List.mem_singleton] at ht
      subst ht
      exact ⟨rfl, fun h => by simp [TokenType.isWord] at h⟩
  · exact Or.inl ⟨hu, Lexer.stepSpec_unrecognized L c cs hu⟩

/-! ## The main loop -/

theorem Lexer.ParseLoop_nil (fuel : Nat) (L : Lexer) (h : L.stream.rest = []) :
    Lexer.ParseLoop (fuel + 1) L = some (true, L) := by
  simp [Lexer.ParseLoop, CharStream.HasMore_nil _ h]

theorem Lexer.ParseLoop_cons (fuel : Nat) (L : Lexer) (c : Char) (cs : List Char)
    (h : L.stream.rest = c :: cs) :
    Lexer.ParseLoop (fuel + 1) L =
      if (L.stepSpec c cs).1 = true then Lexer.ParseLoop fuel (L.stepSpec c cs).2
      else some (false, (L.stepSpec c cs).2) := by
  rw [Lexer.ParseLoop]
  simp only [CharStream.HasMore_cons _ c cs h, if_true, Lexer.ParseStep_eq L c cs h]
  rcases hs : L.stepSpec c cs with ⟨b, L1⟩
  cases b <;> simp

theorem Lexer.stepSpec_rest (L : Lexer) (c : Char) (cs : List Char)
    (h : L.stream.rest = c :: cs) (hs : (L.stepSpec c cs).1 = true) :
    (L.stepSpec c cs).2.stream.rest.length < (c :: cs).length := by
  rcases L.stepSpec_cases c cs with ⟨_, h1⟩ | ⟨_, k, toks, dl, h1, hk1, hk2, _⟩
  · rw [h1] at hs; cases hs
  · rw [h1]
    simp only [CharStream.rest_skip, h, List.length_drop, List.length_cons]
    omega

theorem Lexer.ParseLoop_fuel (f1 f2 : Nat) (L : Lexer) (h1 : L.stream.rest.length < f1)
    (h2 : L.stream.rest.length < f2) : Lexer.ParseLoop f1 L = Lexer.ParseLoop f2 L := by
  induction f1 generalizing f2 L with
  | zero => omega
  | succ n ih =>
    cases f2 with
    | zero => omega
    | succ m =>
      cases hr : L.stream.rest with
      | nil => rw [Lexer.ParseLoop_nil _ _ hr, Lexer.ParseLoop_nil _ _ hr]
      | cons c cs =>
        rw [Lexer.ParseLoop_cons _ _ c cs hr, Lexer.ParseLoop_cons _ _ c cs hr]
        by_cases hs : (L.stepSpec c cs).1 = true
        · have hlt := Lexer.stepSpec_rest L c cs hr hs
          rw [hr] at h1 h2
          rw [if_pos hs, if_pos hs]
          exact ih _ _ (by omega) (by omega)
        · rw [if_neg hs, if_neg hs]

theorem Lexer.run_nil (L : Lexer) (h : L.stream.rest = []) : L.run = some (true, L) :=
  Lexer.ParseLoop_nil _ _ h

theorem Lexer.run_cons (L : Lexer) (c : Char) (cs : List Char) (h : L.stream.rest = c :: cs) :
    L.run = if (L.stepSpec c cs).1 = true then (L.stepSpec c cs).2.run
      else some (false, (L.stepSpec c cs).2) := by
  unfold Lexer.run
  rw [Lexer.ParseLoop_cons _ _ c cs h]
  by_cases hs : (L.stepSpec c cs).1 = true
  · rw [if_pos hs, if_pos hs]
    have hlt := Lexer.stepSpec_rest L c cs h hs
    rw [h]
    exact Lexer.ParseLoop_fuel _ _ _ hlt (Nat.lt_succ_self _)
  · rw [if_neg hs, if_neg hs]

theorem Lexer.Parse_eq_run (L : Lexer) (code : List Char) :
    L.Parse code =
      Lexer.run { tokens := TokenStream.new, stream := CharStream.new (StripComments code),
                  line := 1, error := L.error } := by
  unfold Lexer.Parse Lexer.run
  simp [CharStream.rest, CharStream.new]

theorem Lexer.run_total (L : Lexer) : ∃ r, L.run = some r := by
  generalize hn : L.stream.rest.length = n
  induction n using Nat.strong_induction_on generalizing L with
  | _ n ih =>
    cases hr : L.stream.rest with
    | nil => exact ⟨_, L.run_nil hr⟩
    | cons c cs =>
      rw [L.run_cons c cs hr]
      by_cases hs : (L.stepSpec c cs).1 = true
      · rw [if_pos hs]
        have hlt := Lexer.stepSpec_rest L c cs hr hs
        exact ih _ (by rw [← hn, hr]; exact hlt) _ rfl
      · rw [if_neg hs]
        exact ⟨_, rfl⟩

/-- An invariant of the iterations of the main loop holds of the final state. -/
theorem Lexer.run_invariant (P : Lexer → Prop)
    (hstep : ∀ (L : Lexer) (c : Char) (cs : List Char), P L → L.stream.rest = c :: cs →
      P (L.stepSpec c cs).2)
    (L : Lexer) (hL : P L) (r : Bool × Lexer) (hr : L.run = some r) : P r.2 := by
  generalize hn : L.stream.rest.length = n
  induction n using Nat.strong_induction_on generalizing L with
  | _ n ih =>
    cases hrest : L.stream.rest with
    | nil =>
      rw [L.run_nil hrest] at hr
      cases hr
      exact hL
    | cons c cs =>
      rw [L.run_cons c cs hrest] at hr
      by_cases hs : (L.stepSpec c cs).1 = true
      · rw [if_pos hs] at hr
        have hlt := Lexer.stepSpec_rest L c cs hrest hs
        exact ih _ (by rw [← hn, hrest]; exact hlt) _ (hstep L c cs hL hrest) hr rfl
      · rw [if_neg hs] at hr
        cases hr
        exact hstep L c cs hL hrest

/-! ## Comment stripping -/

theorem StripCommentsLoop_length (b : Bool) (s : List Char) :
    (StripCommentsLoop b s).length = s.length := by
  induction s generalizing b with
  | nil => cases b <;> rfl
  | cons c cs ih =>
    cases b
    · by_cases h : c = '/' ∧ cs.head? = some '/'
      · simp only [StripCommentsLoop, h, and_self, if_true, List.length_cons, ih]
      · simp only [StripCommentsLoop, h, if_false, List.length_cons, ih]
    · by_cases h : c = '\n'
      · simp only [StripCommentsLoop, h, if_true, List.length_cons, ih]
      · simp only [StripCommentsLoop, h, if_false, List.length_cons, ih]

theorem StripCommentsLoop_false_cons (c : Char) (cs : List Char) :
    StripCommentsLoop false (c :: cs) =
      if c = '/' ∧ cs.head? = some '/' then ' ' :: StripCommentsLoop true cs
      else c :: StripCommentsLoop false cs := by
  rw [StripCommentsLoop]

theorem StripCommentsLoop_true_cons (c : Char) (cs : List Char) :
    StripCommentsLoop true (c :: cs) =
      if c = '\n' then '\n' :: StripCommentsLoop false cs
      else ' ' :: StripCommentsLoop true cs := by
  rw [StripCommentsLoop]

theorem StripCommentsLoop_append (s t : List Char) (hs : hasAdjacentSlashes s = false)
    (ht : t.head? ≠ some '/') :
    StripCommentsLoop false (s ++ t) = s ++ StripCommentsLoop false t := by
  induction s with
  | nil => rfl
  | cons c cs ih =>
    cases cs with
    | nil =>
      show StripCommentsLoop false (c :: t) = c :: StripCommentsLoop false t
      rw [StripCommentsLoop_false_cons, if_neg (fun h => ht h.2)]
    | cons d ds =>
      simp only [hasAdjacentSlashes, Bool.or_eq_false_iff, Bool.and_eq_false_iff,
        decide_eq_false_iff_not] at hs
      have h : ¬ (c = '/' ∧ (d :: (ds ++ t)).head? = some '/') := by
        rintro ⟨h1, h2⟩
        simp at h2
        rcases hs.1 with h | h
        · exact h h1
        · exact h h2
      show StripCommentsLoop false (c :: (d :: (ds ++ t))) = c :: (d :: ds ++ StripCommentsLoop false t)
      rw [StripCommentsLoop_false_cons, if_neg h]
      have := ih hs.2
      simp only [List.cons_append] at this
      rw [this]
      rfl

theorem StripCommentsLoop_clean (s : List Char) (hs : hasAdjacentSlashes s = false) :
    StripCommentsLoop false s = s := by
  have := StripCommentsLoop_append s [] hs (by simp)
  simpa [StripCommentsLoop] using this

theorem cstring_append (s t : List Char) (hs : NUL ∉ s) : cstring (s ++ t) = s ++ cstring t := by
  unfold cstring
  rw [List.takeWhile_append_of_pos]
  intro x hx
  simp only [bne_iff_ne, ne_eq]
  rintro rfl
  exact hs hx

theorem cstring_clean (s : List Char) (hs : NUL ∉ s) : cstring s = s := by
  have := cstring_append s [] hs
  simpa [cstring] using this

theorem StripComments_append (s t : List Char) (hs : hasAdjacentSlashes s = false)
    (hn : NUL ∉ s) (ht : t.head? ≠ some '/') :
    StripComments (s ++ t) = s ++ StripComments t := by
  unfold StripComments
  rw [StripCommentsLoop_append s t hs ht, cstring_append s _ hn]

theorem StripComments_clean (s : List Char) (hs : hasAdjacentSlashes s = false)
    (hn : NUL ∉ s) : StripComments s = s := by
  unfold StripComments
  rw [StripCommentsLoop_clean s hs, cstring_clean s hn]

theorem mem_StripCommentsLoop (b : Bool) (s : List Char) (x : Char)
    (hx : x ∈ StripCommentsLoop b s) : x ∈ s ∨ x = ' ' := by
  induction s generalizing b with
  | nil => cases b <;> simp [StripCommentsLoop] at hx
  | cons c cs ih =>
    cases b
    · by_cases h : c = '/' ∧ cs.head? = some '/'
      · simp only [StripCommentsLoop, h, and_self, if_true, List.mem_cons] at hx
        rcases hx with hx | hx
        · exact Or.inr hx
        · rcases ih _ hx with h1 | h1
          · exact Or.inl (List.mem_cons_of_mem _ h1)
          · exact Or.inr h1
      · simp only [StripCommentsLoop, h, if_false, List.mem_cons] at hx
        rcases hx with hx | hx
        · exact Or.inl (by simp [hx])
        · rcases ih _ hx with h1 | h1
          · exact Or.inl (List.mem_cons_of_mem _ h1)
          · exact Or.inr h1
    · by_cases h : c = '\n'
      · simp only [StripCommentsLoop, h, if_true, List.mem_cons] at hx
        rcases hx with hx | hx
        · exact Or.inl (by simp [hx, h])
        · rcases ih _ hx with h1 | h1
          · exact Or.inl (List.mem_cons_of_mem _ h1)
          · exact Or.inr h1
      · simp only [StripCommentsLoop, h, if_false, List.mem_cons] at hx
        rcases hx with hx | hx
        · exact Or.inr hx
        · rcases ih _ hx with h1 | h1
          · exact Or.inl (List.mem_cons_of_mem _ h1)
          · exact Or.inr h1

theorem mem_cstring (s : List Char) (x : Char) (hx : x ∈ cstring s) : x ∈ s :=
  (List.takeWhile_sublist _).subset hx

theorem mem_StripComments (s : List Char) (x : Char) (hx : x ∈ StripComments s) :
    x ∈ s ∨ x = ' ' :=
  mem_StripCommentsLoop false s x (mem_cstring _ x hx)

theorem cstring_take (s : List Char) : s.take (cstring s).length = cstring s :=
  take_length_takeWhile _ s

theorem StripComments_length_le (s : List Char) : (StripComments s).length ≤ s.length := by
  have := length_le_of_take_eq _ _ (cstring_take (StripCommentsLoop false s))
  rw [StripCommentsLoop_length] at this
  exact this

theorem StripCommentsLoop_count_newline (b : Bool) (s : List Char) (n : Nat) :
    ((StripCommentsLoop b s).take n).count '\n' = (s.take n).count '\n' := by
  induction s generalizing b n with
  | nil => cases b <;> simp [StripCommentsLoop]
  | cons c cs ih =>
    cases n with
    | zero => simp
    | succ n =>
      cases b
      · by_cases h : c = '/' ∧ cs.head? = some '/'
        · simp only [StripCommentsLoop, h, and_self, if_true, List.take_succ_cons]
          rw [List.count_cons, List.count_cons, ih]
          simp
        · simp only [StripCommentsLoop, h, if_false, List.take_succ_cons]
          rw [List.count_cons, List.count_cons, ih]
      · by_cases h : c = '\n'
        · simp only [StripCommentsLoop, h, if_true, List.take_succ_cons]
          rw [List.count_cons, List.count_cons, ih]
        · simp only [StripCommentsLoop, h, if_false, List.take_succ_cons]
          rw [List.count_cons, List.count_cons, ih]
          simp [h]

theorem StripComments_count_newline (s : List Char) (n : Nat)
    (hn : n ≤ (StripComments s).length) :
    ((StripComments s).take n).count '\n' = (s.take n).count '\n' := by
  have h1 : (StripComments s).take n = (StripCommentsLoop false s).take n := by
    unfold StripComments at hn ⊢
    rw [← cstring_take, List.take_take, Nat.min_eq_left hn]
  rw [h1, StripCommentsLoop_count_newline]

/-! ## The buffer that the loop of `StripComments` fills, position by position -/

theorem StripCommentsLoop_tail (b : Bool) (c : Char) (cs : List Char) :
    ∃ x, StripCommentsLoop b (c :: cs) = x :: StripCommentsLoop (nextMode b c cs) cs := by
  cases b
  · rw [StripCommentsLoop_false_cons]
    by_cases h : c = '/' ∧ cs.head? = some '/'
    · exact ⟨' ', by simp [nextMode, h]⟩
    · exact ⟨c, by simp [nextMode, h]⟩
  · rw [StripCommentsLoop_true_cons]
    by_cases h : c = '\n'
    · exact ⟨'\n', by simp [nextMode, h]⟩
    · exact ⟨' ', by simp [nextMode, h]⟩

theorem inComment_succ (c : Char) (cs : List Char) (i : Nat) :
    inComment (c :: cs) (i + 1) ↔
      ((c = '/' ∧ cs.head? = some '/') ∧ ∀ k, k ≤ i → cs[k]? ≠ some '\n') ∨ inComment cs i := by
  constructor
  · rintro ⟨j, hj, h1, h2, h3⟩
    cases j with
    | zero =>
      left
      simp only [List.getElem?_cons_zero, Option.some.injEq] at h1
      simp only [Nat.zero_add, List.getElem?_cons_succ] at h2
      refine ⟨⟨h1, by cases cs <;> simp_all⟩, fun k hk => ?_⟩
      have := h3 (k + 1) (Nat.zero_le _) (by omega)
      simpa using this
    | succ j =>
      right
      refine ⟨j, by omega, by simpa using h1, by simpa using h2, fun k hk1 hk2 => ?_⟩
      have := h3 (k + 1) (by omega) (by omega)
      simpa using this
  · rintro (⟨⟨h1, h2⟩, h3⟩ | ⟨j, hj, h1, h2, h3⟩)
    · refine ⟨0, Nat.zero_le _, by simp [h1], ?_, fun k _ hk => ?_⟩
      · cases cs <;> simp_all
      · cases k with
        | zero => rw [h1]; simp
        | succ k => simpa using h3 k (by omega)
    · refine ⟨j + 1, by omega, by simpa using h1, by simpa using h2, fun k hk1 hk2 => ?_⟩
      obtain ⟨m, rfl⟩ : ∃ m, k = m + 1 := ⟨k - 1, by omega⟩
      simpa using h3 m (by omega) (by omega)

theorem blankedAt_succ (b : Bool) (c : Char) (cs : List Char) (i : Nat) :
    blankedAt b (c :: cs) (i + 1) ↔ blankedAt (nextMode b c cs) cs i := by
  unfold blankedAt
  rw [inComment_succ]
  have hall : (∀ k, k ≤ i + 1 → (c :: cs)[k]? ≠ some '\n') ↔
      (c ≠ '\n' ∧ ∀ k, k ≤ i → cs[k]? ≠ some '\n') := by
    constructor
    · intro h
      refine ⟨by simpa using h 0 (Nat.zero_le _), fun k hk => ?_⟩
      simpa using h (k + 1) (by omega)
    · rintro ⟨h1, h2⟩ k hk
      cases k with
      | zero => simpa using h1
      | succ k => simpa using h2 k (by omega)
  rw [hall]
  cases b
  · simp only [nextMode, Bool.false_eq_true, false_and, false_or, if_false, decide_eq_true_eq]
  · simp only [nextMode, true_and, if_true, Bool.not_eq_true', decide_eq_false_iff_not]
    constructor
    · rintro (h | ⟨⟨h1, _⟩, h3⟩ | h)
      · exact Or.inl h
      · exact Or.inl ⟨by rw [h1]; decide, h3⟩
      · exact Or.inr h
    · rintro (h | h)
      · exact Or.inl h
      · exact Or.inr (Or.inr h)

theorem blankedAt_zero (b : Bool) (c : Char) (cs : List Char) :
    blankedAt b (c :: cs) 0 ↔ (b = true ∧ c ≠ '\n') ∨ (c = '/' ∧ cs.head? = some '/') := by
  unfold blankedAt inComment
  constructor
  · rintro (⟨h1, h2⟩ | ⟨j, hj, h1, h2, _⟩)
    · exact Or.inl ⟨h1, by simpa using h2 0 (Nat.le_refl _)⟩
    · obtain rfl : j = 0 := by omega
      right
      refine ⟨by simpa using h1, ?_⟩
      cases cs <;> simp_all
  · rintro (⟨h1, h2⟩ | ⟨h1, h2⟩)
    · refine Or.inl ⟨h1, fun k hk => ?_⟩
      obtain rfl : k = 0 := by omega
      simpa using h2
    · refine Or.inr ⟨0, Nat.le_refl _, by simp [h1], ?_, fun k _ hk => ?_⟩
      · cases cs <;> simp_all
      · obtain rfl : k = 0 := by omega
        rw [h1]; simp

/-- The buffer that the loop of `StripComments` fills holds a space at every
blanked position and the character of the text at every other position. -/
theorem StripCommentsLoop_getElem (s : List Char) :
    ∀ (b : Bool) (i : Nat) (c : Char), s[i]? = some c →
      (blankedAt b s i → (StripCommentsLoop b s)[i]? = some ' ') ∧
      (¬ blankedAt b s i → (StripCommentsLoop b s)[i]? = some c) := by
  induction s with
  | nil => intro b i c h; simp at h
  | cons c0 cs ih =>
    intro b i c h
    cases i with
    | zero =>
      simp only [List.getElem?_cons_zero, Option.some.injEq] at h
      subst h
      rw [blankedAt_zero]
      cases b
      · rw [StripCommentsLoop_false_cons]
        by_cases hc : c0 = '/' ∧ cs.head? = some '/'
        · simp [hc]
        · simp [hc]
      · rw [StripCommentsLoop_true_cons]
        by_cases hn : c0 = '\n'
        · subst hn
          simp
        · simp [hn]
    | succ i =>
      obtain ⟨x, hx⟩ := StripCommentsLoop_tail b c0 cs
      rw [hx, blankedAt_succ]
      simp only [List.getElem?_cons_succ] at h ⊢
      exact ih (nextMode b c0 cs) i c h

/-- On a text without NUL the result of `StripComments` is the text position by
position, except that the positions inside comments hold a space. -/
theorem StripComments_getElem (s : List Char) (hn : NUL ∉ s) (i : Nat) (c : Char)
    (h : s[i]? = some c) :
    (inComment s i → (StripComments s)[i]? = some ' ') ∧
    (¬ inComment s i → (StripComments s)[i]? = some c) := by
  have hnul : NUL ∉ StripCommentsLoop false s := by
    intro hm
    rcases mem_StripCommentsLoop false s NUL hm with h1 | h1
    · exact hn h1
    · revert h1; decide
  unfold StripComments
  rw [cstring_clean _ hnul]
  have := StripCommentsLoop_getElem s false i c h
  simpa [blankedAt] using this

/-! ## Running the loop over one lexeme -/

theorem Lexer.emit_rest (L : Lexer) (k : Nat) (t : Token) :
    (L.emit k t).stream.rest = L.stream.rest.drop k := by
  simp [Lexer.emit, Lexer.skip, CharStream.rest_skip]

theorem Lexer.emit_tokens (L : Lexer) (k : Nat) (t : Token) :
    (L.emit k t).tokens.tokens = L.tokens.tokens ++ [t] := rfl

theorem Lexer.emit_line (L : Lexer) (k : Nat) (t : Token) : (L.emit k t).line = L.line := rfl

theorem Lexer.emit_error (L : Lexer) (k : Nat) (t : Token) : (L.emit k t).error = L.error := rfl

theorem Lexer.run_step (L L1 : Lexer) (c : Char) (cs : List Char) (hr : L.stream.rest = c :: cs)
    (hs : L.stepSpec c cs = (true, L1)) : L.run = L1.run := by
  rw [L.run_cons c cs hr, hs]
  simp

theorem Lexer.run_emit (L : Lexer) (lex rest : List Char) (t : Token) (c : Char) (cs : List Char)
    (hl : lex ++ rest = c :: cs) (hr : L.stream.rest = lex ++ rest)
    (hs : L.stepSpec c cs = (true, L.emit lex.length t)) :
    L.run = (L.emit lex.length t).run ∧ (L.emit lex.length t).stream.rest = rest := by
  refine ⟨Lexer.run_step L _ c cs (hr.trans hl) hs, ?_⟩
  rw [Lexer.emit_rest, hr, List.drop_left]

theorem identSpan_cons (ne : Bool) (c : Char) (cs : List Char) :
    identSpan ne (c :: cs) =
      if (isIdStart c || (ne && c.isDigit)) = true then c :: identSpan true cs else [] := by
  rw [identSpan]

theorem identSpan_append (r t : List Char) (hr : ∀ x ∈ r, isIdCont x = true) :
    identSpan true (r ++ t) = r ++ identSpan true t := by
  induction r with
  | nil => rfl
  | cons a r ih =>
    have ha : (isIdStart a || (true && a.isDigit)) = true := by
      have := hr a (List.mem_cons_self _ _)
      simpa [isIdCont] using this
    rw [List.cons_append, identSpan_cons, if_pos ha,
      ih (fun x hx => hr x (List.mem_cons_of_mem _ hx))]
    rfl

theorem identSpan_stop (t : List Char) (ht : ∀ x, t.head? = some x → isIdCont x = false) :
    identSpan true t = [] := by
  cases t with
  | nil => rfl
  | cons a t =>
    have ha : (isIdStart a || (true && a.isDigit)) = false := by
      have := ht a rfl
      simpa [isIdCont] using this
    rw [identSpan_cons, if_neg (by rw [ha]; exact Bool.false_ne_true)]

theorem identSpan_shaped (w t : List Char) (hw : identifierShaped w)
    (ht : ∀ x, t.head? = some x → isIdCont x = false) : identSpan false (w ++ t) = w := by
  obtain ⟨c, r, rfl, hc, hr⟩ := hw
  rw [List.cons_append, identSpan_cons_start c _ hc, identSpan_append r t hr,
    identSpan_stop t ht, List.append_nil]

/-- The loop reads an identifier-shaped word that is followed by no identifier
character as one token. -/
theorem Lexer.run_word (L : Lexer) (w t : List Char) (hw : identifierShaped w)
    (ht : ∀ x, t.head? = some x → isIdCont x = false) (hr : L.stream.rest = w ++ t) :
    L.run = (L.emit w.length { type := keywordType w, token := w, line := L.line }).run ∧
      (L.emit w.length { type := keywordType w, token := w, line := L.line }).stream.rest = t := by
  have hspan := identSpan_shaped w t hw ht
  obtain ⟨c, r, rfl, hc, _⟩ := hw
  refine Lexer.run_emit L (c :: r) t _ c (r ++ t) rfl hr ?_
  rw [Lexer.stepSpec_ident L c _ hc]
  rw [List.cons_append] at hspan
  rw [hspan]

theorem numSpan_nil (dot : Bool) : numSpan dot [] = ([], dot) := rfl

theorem numSpan_append (dot : Bool) (a t : List Char) (ha : ∀ x ∈ a, x.isDigit = true) :
    numSpan dot (a ++ t) = (a ++ (numSpan dot t).1, (numSpan dot t).2) := by
  induction a with
  | nil => rfl
  | cons c a ih =>
    rw [List.cons_append, numSpan_cons_digit dot c _ (ha c (List.mem_cons_self _ _)),
      ih (fun x hx => ha x (List.mem_cons_of_mem _ hx))]
    rfl

theorem numSpan_dot (t : List Char) :
    numSpan false ('.' :: t) = ('.' :: (numSpan true t).1, (numSpan true t).2) := by
  simp [numSpan]

theorem numSpan_stop (dot : Bool) (t : List Char)
    (ht : ∀ x, t.head? = some x → x.isDigit = false ∧ (x = '.' → dot = true)) :
    numSpan dot t = ([], dot) := by
  cases t with
  | nil => rfl
  | cons a t =>
    have ha := ht a rfl
    have h2 : ¬ (a = '.' ∧ dot = false) := by
      rintro ⟨h1, h2⟩
      rw [ha.2 h1] at h2
      cases h2
    simp only [numSpan, ha.1, h2]
    simp

/-- The loop reads a digit string that is followed by neither a digit nor a dot
as one `Integer` token. -/
theorem Lexer.run_integer (L : Lexer) (d t : List Char) (hd : digitString d)
    (ht : ∀ x, t.head? = some x → x.isDigit = false ∧ x ≠ '.') (hr : L.stream.rest = d ++ t) :
    L.run = (L.emit d.length { type := TokenType.Integer, token := d, line := L.line }).run ∧
      (L.emit d.length { type := TokenType.Integer, token := d, line := L.line }).stream.rest
        = t := by
  have hspan : numSpan false (d ++ t) = (d, false) := by
    rw [numSpan_append false d t hd.2, numSpan_stop false t
      (fun x hx => ⟨(ht x hx).1, fun h => absurd h (ht x hx).2⟩)]
    simp
  obtain ⟨hne, hall⟩ := hd
  cases d with
  | nil => exact absurd rfl hne
  | cons c r =>
    refine Lexer.run_emit L (c :: r) t _ c (r ++ t) rfl hr ?_
    rw [Lexer.stepSpec_number L c _ (hall c (List.mem_cons_self _ _))]
    rw [List.cons_append] at hspan
    rw [hspan]
    rfl

/-- The loop reads digits, a dot and further digits, followed by no digit, as
one `Float` token. -/
theorem Lexer.run_float (L : Lexer) (a b t : List Char) (ha : digitString a)
    (hb : ∀ x ∈ b, x.isDigit = true)
    (ht : ∀ x, t.head? = some x → x.isDigit = false) (hr : L.stream.rest = (a ++ '.' :: b) ++ t) :
    L.run =
      (L.emit (a ++ '.' :: b).length
        { type := TokenType.Float, token := a ++ '.' :: b, line := L.line }).run ∧
      (L.emit (a ++ '.' :: b).length
        { type := TokenType.Float, token := a ++ '.' :: b, line := L.line }).stream.rest = t := by
  have hspan : numSpan false ((a ++ '.' :: b) ++ t) = (a ++ '.' :: b, true) := by
    rw [List.append_assoc, numSpan_append false a _ ha.2, List.cons_append, numSpan_dot,
      numSpan_append true b t hb, numSpan_stop true t (fun x hx => ⟨ht x hx, fun _ => rfl⟩)]
    simp
  obtain ⟨hne, hall⟩ := ha
  cases a with
  | nil => exact absurd rfl hne
  | cons c r =>
    refine Lexer.run_emit L ((c :: r) ++ '.' :: b) t _ c ((r ++ '.' :: b) ++ t) rfl hr ?_
    rw [Lexer.stepSpec_number L c _ (hall c (List.mem_cons_self _ _))]
    have h2 : c :: ((r ++ '.' :: b) ++ t) = ((c :: r) ++ '.' :: b) ++ t := rfl
    rw [h2, hspan]
    rfl

/-! ## The error record a run starts with -/

theorem Lexer.stepSpec_error (L : Lexer) (e : Error) (c : Char) (cs : List Char) :
    Lexer.stepSpec { L with error := e } c cs =
      ((L.stepSpec c cs).1, { (L.stepSpec c cs).2 with error :=
        if (L.stepSpec c cs).1 = true then e
        else { e with code := ErrorType.UNKOWN_CHAR,
                      message := "unknown character ".toList ++ [c] } }) := by
  unfold Lexer.stepSpec
  by_cases h0 : isWhite c = true
  · simp only [if_pos h0]
    rfl
  simp only [if_neg h0]
  by_cases h1 : isIdStart c = true
  · simp only [if_pos h1]
    rfl
  simp only [if_neg h1]
  by_cases h2 : c.isDigit = true
  · simp only [if_pos h2]
    rfl
  simp only [if_neg h2]
  by_cases h3 : c = '+'
  · simp only [if_pos h3]
    rfl
  simp only [if_neg h3]
  by_cases h4 : c = '-'
  · simp only [if_pos h4]
    rfl
  simp only [if_neg h4]
  by_cases h5 : c = '*'
  · simp only [if_pos h5]
    rfl
  simp only [if_neg h5]
  by_cases h6 : c = '/'
  · simp only [if_pos h6]
    rfl
  simp only [if_neg h6]
  by_cases h7 : c = '('
  · simp only [if_pos h7]
    rfl
  simp only [if_neg h7]
  by_cases h8 : c = ')'
  · simp only [if_pos h8]
    rfl
  simp only [if_neg h8]
  by_cases h9 : c = Char.ofNat 123
  · simp only [if_pos h9]
    rfl
  simp only [if_neg h9]
  by_cases h10 : c = Char.ofNat 125
  · simp only [if_pos h10]
    rfl
  simp only [if_neg h10]
  by_cases h11 : c = '['
  · simp only [if_pos h11]
    rfl
  simp only [if_neg h11]
  by_cases h12 : c = ']'
  · simp only [if_pos h12]
    rfl
  simp only [if_neg h12]
  by_cases h13 : c = ','
  · simp only [if_pos h13]
    rfl
  simp only [if_neg h13]
  by_cases h14 : c = '.'
  · simp only [if_pos h14]
    rfl
  simp only [if_neg h14]
  by_cases h15 : c = '='
  · simp only [if_pos h15]
    split_ifs <;> rfl
  simp only [if_neg h15]
  by_cases h16 : c = '!'
  · simp only [if_pos h16]
    split_ifs <;> rfl
  simp only [if_neg h16]
  by_cases h17 : c = '<'
  · simp only [if_pos h17]
    split_ifs <;> rfl
  simp only [if_neg h17]
  by_cases h18 : c = '>'
  · simp only [if_pos h18]
    split_ifs <;> rfl
  simp only [if_neg h18]
  by_cases h19 : c = ':'
  · simp only [if_pos h19]
    rfl
  simp only [if_neg h19]
  by_cases h20 : c = ';'
  · simp only [if_pos h20]
    rfl
  simp only [if_neg h20]
  by_cases h21 : c = SQUOTE
  · simp only [if_pos h21]
    rfl
  simp only [if_neg h21]
  by_cases h22 : c = DQUOTE
  · simp only [if_pos h22]
    rfl
  simp only [if_neg h22]
  rfl

theorem Lexer.run_error (L : Lexer) (e : Error) :
    Lexer.run { L with error := e } = L.run.map (Lexer.outcomeWith e) := by
  generalize hn : L.stream.rest.length = n
  induction n using Nat.strong_induction_on generalizing L with
  | _ n ih =>
    cases hr : L.stream.rest with
    | nil =>
      have hr2 : ({ L with error := e } : Lexer).stream.rest = [] := hr
      rw [Lexer.run_nil _ hr, Lexer.run_nil _ hr2]
      rfl
    | cons c cs =>
      have hr2 : ({ L with error := e } : Lexer).stream.rest = c :: cs := hr
      rw [Lexer.run_cons _ c cs hr, Lexer.run_cons _ c cs hr2, Lexer.stepSpec_error]
      by_cases hs : (L.stepSpec c cs).1 = true
      · have hlt := Lexer.stepSpec_rest L c cs hr hs
        simp only [hs, if_true]
        exact ih _ (by rw [← hn, hr]; exact hlt) _ rfl
      · simp only [hs, if_false, Option.map_some', Bool.false_eq_true]
        rcases L.stepSpec_cases c cs with ⟨_, h1⟩ | ⟨_, k, toks, dl, h1, _⟩
        · rw [h1]
          rfl
        · rw [h1] at hs
          exact absurd rfl hs

/-- The outcome of `Parse` on a lexer in any state is the outcome on a fresh
lexer, up to the error record that the lexer held before. -/
theorem Lexer.Parse_new (L : Lexer) (code : List Char) :
    L.Parse code = (Lexer.new.Parse code).map (Lexer.outcomeWith L.error) := by
  rw [Lexer.Parse_eq_run, Lexer.Parse_eq_run]
  exact Lexer.run_error
    { tokens := TokenStream.new, stream := CharStream.new (StripComments code), line := 1,
      error := Lexer.new.error } L.error

/-- A successful `Parse` observed on a fresh lexer (the tokens and the final
cursor index) is the same on a lexer in any state, and leaves the error record
of that lexer as it was. -/
theorem Lexer.Parse_of_new (L : Lexer) (code : List Char) (toks : List Token) (n : Nat)
    (h : (Lexer.new.Parse code).map (fun r => (r.1, r.2.tokens.tokens, r.2.stream.index))
      = some (true, toks, n)) :
    ∃ L1, L.Parse code = some (true, L1) ∧ L1.tokens.tokens = toks ∧ L1.stream.index = n ∧
      L1.error = L.error := by
  cases hp : Lexer.new.Parse code with
  | none => rw [hp] at h; cases h
  | some r =>
    rw [hp] at h
    simp only [Option.map_some', Option.some.injEq, Prod.mk.injEq] at h
    obtain ⟨h1, h2, h3⟩ := h
    refine ⟨{ r.2 with error := L.error }, ?_, h2, h3, rfl⟩
    rw [Lexer.Parse_new, hp]
    simp [Lexer.outcomeWith, h1]

theorem Lexer.Parse_tokens_of_new (L : Lexer) (code : List Char) (toks : List Token) (n : Nat)
    (h : (Lexer.new.Parse code).map (fun r => (r.1, r.2.tokens.tokens, r.2.stream.index))
      = some (true, toks, n)) :
    ∃ L1, L.Parse code = some (true, L1) ∧ L1.tokens.tokens = toks :=
  (Lexer.Parse_of_new L code toks n h).imp (fun _ h => ⟨h.1, h.2.1⟩)

theorem Lexer.Parse_tokens_index_of_new (L : Lexer) (code : List Char) (toks : List Token)
    (n : Nat)
    (h : (Lexer.new.Parse code).map (fun r => (r.1, r.2.tokens.tokens, r.2.stream.index))
      = some (true, toks, n)) :
    ∃ L1, L.Parse code = some (true, L1) ∧ L1.tokens.tokens = toks ∧ L1.stream.index = n :=
  (Lexer.Parse_of_new L code toks n h).imp (fun _ h => ⟨h.1, h.2.1, h.2.2.1⟩)

/-! ## C1, C2: comment stripping and the NUL character -/

/-- C1 (failing input): the text `a`, NUL, `b` has no two adjacent `/`
characters, yet `StripComments` does not return it unchanged: the result is
built from the NUL-terminated buffer and stops at the NUL, giving `a`. -/
theorem C1_StripComments_not_identity_on_NUL :
    hasAdjacentSlashes ['a', NUL, 'b'] = false ∧
      StripComments ['a', NUL, 'b'] = ['a'] ∧
      StripComments ['a', NUL, 'b'] ≠ ['a', NUL, 'b'] := by
  decide

/-- C2 (failing input): on the three-character text `a`, NUL, newline the result
of `StripComments` has length 1, not 3, and the newline at position 2 of the
input is not in the output. -/
theorem C2_StripComments_length_on_NUL :
    ['a', NUL, '\n'].length = 3 ∧
      (StripComments ['a', NUL, '\n']).length = 1 ∧
      ['a', NUL, '\n'][2]? = some '\n' ∧
      (StripComments ['a', NUL, '\n'])[2]? = none := by
  decide

/-! ## C3: the operators that may be followed by `=` -/

theorem CharStream.rest_of_PeekChar (s : CharStream) (c : Char) (h : s.PeekChar 0 = some c) :
    ∃ cs, s.rest = c :: cs := by
  rw [CharStream.PeekChar_eq] at h
  cases hr : s.rest with
  | nil => rw [hr] at h; simp at h
  | cons a cs =>
    rw [hr] at h
    simp [charToInt_eq_some_iff] at h
    exact ⟨cs, by rw [h.1]⟩

/-- C3: for each of the characters `=`, `!`, `<`, `>` with its two-character
kind `two` and one-character kind `one`: `Parse` on the character followed by
`=` gives the single token `two` and consumes both characters; `Parse` on the
character, a space and `=` gives `one` and then `Assign`; an iteration of the
loop that starts at the character, with anything but `=` after it, adds `one`
and moves the cursor by exactly one; and the character followed by `1` gives
`one` and then the integer `1`. -/
theorem C3_operators_with_lookahead (L : Lexer) (c : Char) (two one : TokenType)
    (h : (c, two, one) ∈ operatorTable) :
    (∃ L1, L.Parse [c, '='] = some (true, L1) ∧
      L1.tokens.tokens = [{ type := two, token := [], line := 1 }] ∧ L1.stream.index = 2) ∧
    (∃ L1, L.Parse [c, ' ', '='] = some (true, L1) ∧
      L1.tokens.tokens = [{ type := one, token := [], line := 1 },
        { type := TokenType.Assign, token := [], line := 1 }]) ∧
    (∀ M : Lexer, M.stream.PeekChar 0 = some c → M.stream.PeekChar 1 ≠ some '=' →
      M.ParseStep = some (true,
        { M with tokens := M.tokens.AddToken { type := one, token := [], line := M.line },
                 stream := M.stream.Advance })) ∧
    (∃ L1, L.Parse [c, '1'] = some (true, L1) ∧
      L1.tokens.tokens = [{ type := one, token := [], line := 1 },
        { type := TokenType.Integer, token := ['1'], line := 1 }]) := by
  simp only [operatorTable, List.mem_cons, Prod.mk.injEq, List.mem_nil_iff, or_false] at h
  refine ⟨?_, ?_, ?_, ?_⟩
  · rcases h with ⟨rfl, rfl, rfl⟩ | ⟨rfl, rfl, rfl⟩ | ⟨rfl, rfl, rfl⟩ | ⟨rfl, rfl, rfl⟩
    · exact Lexer.Parse_tokens_index_of_new L _ _ _ (by decide)
    · exact Lexer.Parse_tokens_index_of_new L _ _ _ (by decide)
    · exact Lexer.Parse_tokens_index_of_new L _ _ _ (by decide)
    · exact Lexer.Parse_tokens_index_of_new L _ _ _ (by decide)
  · rcases h with ⟨rfl, rfl, rfl⟩ | ⟨rfl, rfl, rfl⟩ | ⟨rfl, rfl, rfl⟩ | ⟨rfl, rfl, rfl⟩
    · exact Lexer.Parse_tokens_of_new L _ _ 3 (by decide)
    · exact Lexer.Parse_tokens_of_new L _ _ 3 (by decide)
    · exact Lexer.Parse_tokens_of_new L _ _ 3 (by decide)
    · exact Lexer.Parse_tokens_of_new L _ _ 3 (by decide)
  · intro M h0 h1
    obtain ⟨cs, hr⟩ := CharStream.rest_of_PeekChar _ c h0
    have hne : ¬ cs.head? = some '=' := by
      rw [CharStream.PeekChar_eq, hr] at h1
      cases cs with
      | nil => simp
      | cons a cs => simpa [charToInt_eq_some_iff] using h1
    rw [Lexer.ParseStep_eq M c cs hr]
    rcases h with ⟨rfl, rfl, rfl⟩ | ⟨rfl, rfl, rfl⟩ | ⟨rfl, rfl, rfl⟩ | ⟨rfl, rfl, rfl⟩
    all_goals
      show some (true, if cs.head? = some '=' then _ else _) = _
      rw [if_neg hne]
      rfl
  · rcases h with ⟨rfl, rfl, rfl⟩ | ⟨rfl, rfl, rfl⟩ | ⟨rfl, rfl, rfl⟩ | ⟨rfl, rfl, rfl⟩
    · exact Lexer.Parse_tokens_of_new L _ _ 2 (by decide)
    · exact Lexer.Parse_tokens_of_new L _ _ 2 (by decide)
    · exact Lexer.Parse_tokens_of_new L _ _ 2 (by decide)
    · exact Lexer.Parse_tokens_of_new L _ _ 2 (by decide)

/-- C3 at the character `<`: `<=` is the one token `LTE`. -/
theorem C3_operators_with_lookahead_witness :
    ('<', TokenType.LTE, TokenType.LT) ∈ operatorTable ∧
      ∃ L1, Lexer.new.Parse ['<', '='] = some (true, L1) ∧
        L1.tokens.tokens = [{ type := TokenType.LTE, token := [], line := 1 }] ∧
        L1.stream.index = 2 :=
  ⟨by decide,
    (C3_operators_with_lookahead Lexer.new '<' TokenType.LTE TokenType.LT (by decide)).1⟩

/-! ## C4: identifiers and keywords -/

theorem hasAdjacentSlashes_of_no_slash (s : List Char) (h : ∀ x ∈ s, x ≠ '/') :
    hasAdjacentSlashes s = false := by
  induction s with
  | nil => rfl
  | cons c cs ih =>
    cases cs with
    | nil => rfl
    | cons d ds =>
      have hc : c ≠ '/' := h c (List.mem_cons_self _ _)
      simp only [hasAdjacentSlashes, hc, decide_False, Bool.false_and, Bool.false_or]
      exact ih (fun x hx => h x (List.mem_cons_of_mem _ hx))

theorem isIdCont_ne_slash (x : Char) (h : isIdCont x = true) : x ≠ '/' := by
  rintro rfl; revert h; decide

theorem isIdCont_ne_NUL (x : Char) (h : isIdCont x = true) : x ≠ NUL := by
  rintro rfl; revert h; decide

theorem isIdCont_of_isIdStart (x : Char) (h : isIdStart x = true) : isIdCont x = true := by
  simp [isIdCont, h]

theorem isIdCont_of_isDigit (x : Char) (h : x.isDigit = true) : isIdCont x = true := by
  simp [isIdCont, h]

theorem identifierShaped_mem (w : List Char) (hw : identifierShaped w) :
    ∀ x ∈ w, isIdCont x = true := by
  obtain ⟨c, r, rfl, hc, hr⟩ := hw
  intro x hx
  rcases List.mem_cons.1 hx with h | h
  · rw [h]; exact isIdCont_of_isIdStart c hc
  · exact hr x h

theorem StripComments_word (w : List Char) (hw : ∀ x ∈ w, isIdCont x = true) :
    StripComments w = w :=
  StripComments_clean w
    (hasAdjacentSlashes_of_no_slash w (fun x hx => isIdCont_ne_slash x (hw x hx)))
    (fun h => isIdCont_ne_NUL _ (hw _ h) rfl)

theorem keywordType_table : ∀ e ∈ keywordTable, keywordType e.1 = e.2 := by
  decide

theorem keywordType_of_mem (kw : List Char) (ty : TokenType) (h : (kw, ty) ∈ keywordTable) :
    keywordType kw = ty :=
  keywordType_table (kw, ty) h

theorem keywordType_of_not_mem (w : List Char)
    (h : ∀ kw ty, (kw, ty) ∈ keywordTable → w ≠ kw) : keywordType w = TokenType.Iden := by
  unfold keywordType
  rw [
    if_neg (h "import".toList TokenType.Import (by decide)),
    if_neg (h "module".toList TokenType.Module (by decide)),
    if_neg (h "new".toList TokenType.New (by decide)),
    if_neg (h "class".toList TokenType.Class (by decide)),
    if_neg (h "function".toList TokenType.Function (by decide)),
    if_neg (h "def".toList TokenType.Def (by decide)),
    if_neg (h "extends".toList TokenType.Extends (by decide)),
    if_neg (h "static".toList TokenType.Static (by decide)),
    if_neg (h "return".toList TokenType.Return (by decide)),
    if_neg (h "var".toList TokenType.Var (by decide)),
    if_neg (h "enum".toList TokenType.Enum (by decide)),
    if_neg (h "if".toList TokenType.If (by decide)),
    if_neg (h "else".toList TokenType.Else (by decide)),
    if_neg (h "elif".toList TokenType.Elif (by decide)),
    if_neg (h "for".toList TokenType.For (by decide)),
    if_neg (h "while".toList TokenType.While (by decide)),
    if_neg (h "break".toList TokenType.Break (by decide)),
    if_neg (h "or".toList TokenType.Or (by decide)),
    if_neg (h "and".toList TokenType.And (by decide)),
    if_neg (h "true".toList TokenType.True (by decide)),
    if_neg (h "false".toList TokenType.False (by decide)),
    if_neg (h "null".toList TokenType.Null (by decide))]

/-- C4: for every identifier-shaped word `w` (a letter or `_`, then letters,
digits, `_`), `Parse` on `w` succeeds, consumes the whole word and emits
exactly one token, on line 1, with text `w`; its kind is the kind the
specification gives to `w` when `w` is one of the keywords or literals, and
`Iden` when it is none of them; `Var` and `iff` are identifiers. -/
theorem C4_identifier_or_keyword (L : Lexer) (w : List Char) (hw : identifierShaped w) :
    L.Parse w = some (true,
      { tokens := { tokens := [{ type := keywordType w, token := w, line := 1 }], index := 0 },
        stream := { chars := w, index := w.length }, line := 1, error := L.error }) ∧
    (∀ kw ty, (kw, ty) ∈ keywordTable → w = kw → keywordType w = ty) ∧
    ((∀ kw ty, (kw, ty) ∈ keywordTable → w ≠ kw) → keywordType w = TokenType.Iden) ∧
    keywordType "Var".toList = TokenType.Iden ∧ keywordType "iff".toList = TokenType.Iden := by
  refine ⟨?_, fun kw ty hmem heq => heq ▸ keywordType_of_mem kw ty hmem,
    keywordType_of_not_mem w, by decide, by decide⟩
  rw [Lexer.Parse_eq_run, StripComments_word w (identifierShaped_mem w hw)]
  have hrun := Lexer.run_word
    { tokens := TokenStream.new, stream := CharStream.new w, line := 1, error := L.error }
    w [] hw (by simp) (by simp [CharStream.rest, CharStream.new])
  rw [hrun.1, Lexer.run_nil _ hrun.2]
  simp [Lexer.emit, Lexer.skip, CharStream.skip, CharStream.new, TokenStream.new,
    TokenStream.AddToken]

/-- C4 at the word `var`: one token of kind `Var` with text `var`. -/
theorem C4_identifier_or_keyword_witness :
    identifierShaped "var".toList ∧
      Lexer.new.Parse "var".toList = some (true,
        { tokens := { tokens := [{ type := keywordType "var".toList, token := "var".toList,
                                   line := 1 }], index := 0 },
          stream := { chars := "var".toList, index := "var".toList.length }, line := 1,
          error := Lexer.new.error }) :=
  ⟨⟨'v', ['a', 'r'], rfl, by decide, by decide⟩,
    (C4_identifier_or_keyword Lexer.new "var".toList
      ⟨'v', ['a', 'r'], rfl, by decide, by decide⟩).1⟩

/-! ## C5: numbers -/

theorem isDigit_ne_slash (x : Char) (h : x.isDigit = true) : x ≠ '/' := by
  rintro rfl; revert h; decide

theorem isDigit_ne_NUL (x : Char) (h : x.isDigit = true) : x ≠ NUL := by
  rintro rfl; revert h; decide

theorem isDigit_ne_dot (x : Char) (h : x.isDigit = true) : x ≠ '.' := by
  rintro rfl; revert h; decide

/-- A text of digits and dots is left alone by `StripComments`. -/
theorem StripComments_number (s : List Char) (hs : ∀ x ∈ s, x.isDigit = true ∨ x = '.') :
    StripComments s = s := by
  refine StripComments_clean s (hasAdjacentSlashes_of_no_slash s (fun x hx => ?_)) (fun h => ?_)
  · rcases hs x hx with h | h
    · exact isDigit_ne_slash x h
    · rw [h]; decide
  · rcases hs _ h with h | h
    · exact isDigit_ne_NUL _ h rfl
    · revert h; decide

theorem Lexer.initial_rest (e : Error) (code : List Char) :
    ({ tokens := TokenStream.new, stream := CharStream.new code, line := 1, error := e }
      : Lexer).stream.rest = code := by
  simp [CharStream.rest, CharStream.new]

/-- C5: for non-empty digit strings `a`, `b`, `c`, `Parse` gives on `a` the one
token `Integer a`, on `a.` the one token `Float a.`, on `a.b` the one token
`Float a.b`, and on `a.b.c` the three tokens `Float a.b`, `Dot`, `Integer c`;
all on line 1. -/
theorem C5_numbers (L : Lexer) (a b c : List Char) (ha : digitString a) (hb : digitString b)
    (hc : digitString c) :
    (∃ L1, L.Parse a = some (true, L1) ∧
      L1.tokens.tokens = [{ type := TokenType.Integer, token := a, line := 1 }]) ∧
    (∃ L1, L.Parse (a ++ ['.']) = some (true, L1) ∧
      L1.tokens.tokens = [{ type := TokenType.Float, token := a ++ ['.'], line := 1 }]) ∧
    (∃ L1, L.Parse (a ++ '.' :: b) = some (true, L1) ∧
      L1.tokens.tokens = [{ type := TokenType.Float, token := a ++ '.' :: b, line := 1 }]) ∧
    (∃ L1, L.Parse ((a ++ '.' :: b) ++ '.' :: c) = some (true, L1) ∧
      L1.tokens.tokens = [{ type := TokenType.Float, token := a ++ '.' :: b, line := 1 },
        { type := TokenType.Dot, token := [], line := 1 },
        { type := TokenType.Integer, token := c, line := 1 }]) := by
  refine ⟨?_, ?_, ?_, ?_⟩
  · rw [Lexer.Parse_eq_run, StripComments_number a (fun x hx => Or.inl (ha.2 x hx))]
    have hrun := Lexer.run_integer _ a [] ha (by simp)
      (by rw [List.append_nil]; exact Lexer.initial_rest L.error a)
    rw [hrun.1, Lexer.run_nil _ hrun.2]
    exact ⟨_, rfl, rfl⟩
  · rw [Lexer.Parse_eq_run, StripComments_number (a ++ ['.']) (by
      intro x hx
      rcases List.mem_append.1 hx with h | h
      · exact Or.inl (ha.2 x h)
      · exact Or.inr (by simpa using h))]
    have hrun := Lexer.run_float _ a [] [] ha (by simp) (by simp)
      (by rw [List.append_nil]; exact Lexer.initial_rest L.error _)
    rw [hrun.1, Lexer.run_nil _ hrun.2]
    exact ⟨_, rfl, rfl⟩
  · rw [Lexer.Parse_eq_run, StripComments_number (a ++ '.' :: b) (by
      intro x hx
      rcases List.mem_append.1 hx with h | h
      · exact Or.inl (ha.2 x h)
      · rcases List.mem_cons.1 h with h | h
        · exact Or.inr h
        · exact Or.inl (hb.2 x h))]
    have hrun := Lexer.run_float _ a b [] ha hb.2 (by simp)
      (by rw [List.append_nil]; exact Lexer.initial_rest L.error _)
    rw [hrun.1, Lexer.run_nil _ hrun.2]
    exact ⟨_, rfl, rfl⟩
  · rw [Lexer.Parse_eq_run, StripComments_number ((a ++ '.' :: b) ++ '.' :: c) (by
      intro x hx
      rcases List.mem_append.1 hx with h | h
      · rcases List.mem_append.1 h with h | h
        · exact Or.inl (ha.2 x h)
        · rcases List.mem_cons.1 h with h | h
          · exact Or.inr h
          · exact Or.inl (hb.2 x h)
      · rcases List.mem_cons.1 h with h | h
        · exact Or.inr h
        · exact Or.inl (hc.2 x h))]
    have hrun := Lexer.run_float _ a b ('.' :: c) ha hb.2
      (by intro x hx; simp at hx; rw [← hx]; decide)
      (Lexer.initial_rest L.error _)
    have hdot := Lexer.run_step _ _ '.' c hrun.2 rfl
    have hint := Lexer.run_integer
      (Lexer.emit (Lexer.emit
        { tokens := TokenStream.new, stream := CharStream.new ((a ++ '.' :: b) ++ '.' :: c),
          line := 1, error := L.error }
        (a ++ '.' :: b).length { type := TokenType.Float, token := a ++ '.' :: b, line := 1 })
        1 { type := TokenType.Dot, token := [], line := 1 })
      c [] hc (by simp)
      (by rw [Lexer.emit_rest, hrun.2, List.append_nil]; rfl)
    exact ⟨_, hrun.1.trans (hdot.trans (hint.1.trans (Lexer.run_nil _ hint.2))), rfl⟩

/-- C5 at `a` = 3, `b` = 14, `c` = 5: `3.14.5` gives `Float 3.14`, `Dot`,
`Integer 5`. -/
theorem C5_numbers_witness :
    digitString ['3'] ∧ digitString ['1', '4'] ∧ digitString ['5'] ∧
      ∃ L1, Lexer.new.Parse ((['3'] ++ '.' :: ['1', '4']) ++ '.' :: ['5']) = some (true, L1) ∧
        L1.tokens.tokens =
          [{ type := TokenType.Float, token := ['3'] ++ '.' :: ['1', '4'], line := 1 },
           { type := TokenType.Dot, token := [], line := 1 },
           { type := TokenType.Integer, token := ['5'], line := 1 }] :=
  ⟨⟨by decide, by decide⟩, ⟨by decide, by decide⟩, ⟨by decide, by decide⟩,
    (C5_numbers Lexer.new ['3'] ['1', '4'] ['5'] ⟨by decide, by decide⟩ ⟨by decide, by decide⟩
      ⟨by decide, by decide⟩).2.2.2⟩

/-! ## C6: an identifier never begins with a digit -/

theorem Lexer.Parse_total (L : Lexer) (code : List Char) : ∃ r, L.Parse code = some r := by
  rw [Lexer.Parse_eq_run]
  exact Lexer.run_total _

theorem Lexer.stepSpec_words (L : Lexer) (c : Char) (cs : List Char)
    (hL : ∀ t ∈ L.tokens.tokens, t.type.isWord = true → t.startsLikeIdentifier) :
    ∀ t ∈ (L.stepSpec c cs).2.tokens.tokens, t.type.isWord = true → t.startsLikeIdentifier := by
  rcases L.stepSpec_cases c cs with ⟨_, h1⟩ | ⟨_, k, toks, dl, h1, _, _, _, htoks, _⟩
  · rw [h1]; exact hL
  · rw [h1]
    intro t ht
    rcases List.mem_append.1 ht with h | h
    · exact hL t h
    · exact (htoks t h).2

theorem Lexer.Parse_words (L : Lexer) (code : List Char) (r : Bool × Lexer)
    (h : L.Parse code = some r) :
    ∀ t ∈ r.2.tokens.tokens, t.type.isWord = true → t.startsLikeIdentifier := by
  rw [Lexer.Parse_eq_run] at h
  refine Lexer.run_invariant
    (fun M => ∀ t ∈ M.tokens.tokens, t.type.isWord = true → t.startsLikeIdentifier)
    (fun M c cs hM _ => Lexer.stepSpec_words M c cs hM) _ ?_ r h
  intro t ht
  cases ht

/-- C6: for a non-empty digit string `d` and an identifier-shaped word `w`,
`Parse` on `d` followed by `w` gives exactly the two tokens `Integer d` and the
identifier or keyword token with text `w`; and on every input `code`, `Parse`
returns, and each token it has emitted whose kind is `Iden`, a keyword or one of
the literals `true`, `false`, `null` has a non-empty text that begins with a
letter or `_`. -/
theorem C6_identifier_never_starts_with_digit (L : Lexer) (d w code : List Char)
    (hd : digitString d) (hw : identifierShaped w) :
    (∃ L1, L.Parse (d ++ w) = some (true, L1) ∧
      L1.tokens.tokens = [{ type := TokenType.Integer, token := d, line := 1 },
        { type := keywordType w, token := w, line := 1 }]) ∧
    (∃ r, L.Parse code = some r ∧
      ∀ t ∈ r.2.tokens.tokens, t.type.isWord = true → t.startsLikeIdentifier) := by
  constructor
  · rw [Lexer.Parse_eq_run, StripComments_word (d ++ w) (by
      intro x hx
      rcases List.mem_append.1 hx with h | h
      · exact isIdCont_of_isDigit x (hd.2 x h)
      · exact identifierShaped_mem w hw x h)]
    have hstart : ∀ x, w.head? = some x → x.isDigit = false ∧ x ≠ '.' := by
      obtain ⟨c, r, rfl, hc, _⟩ := hw
      intro x hx
      simp only [List.head?_cons, Option.some.injEq] at hx
      subst hx
      refine ⟨not_isDigit_of_isIdStart c hc, ?_⟩
      rintro rfl
      revert hc
      decide
    have hint := Lexer.run_integer _ d w hd hstart (Lexer.initial_rest L.error (d ++ w))
    have hword := Lexer.run_word
      (Lexer.emit
        { tokens := TokenStream.new, stream := CharStream.new (d ++ w), line := 1,
          error := L.error }
        d.length { type := TokenType.Integer, token := d, line := 1 })
      w [] hw (by simp) (by rw [List.append_nil]; exact hint.2)
    exact ⟨_, hint.1.trans (hword.1.trans (Lexer.run_nil _ hword.2)), rfl⟩
  · obtain ⟨r, hr⟩ := Lexer.Parse_total L code
    exact ⟨r, hr, Lexer.Parse_words L code r hr⟩

/-- C6 at `d` = 1 and `w` = abc: `1abc` gives `Integer 1` and the identifier
`abc`. -/
theorem C6_identifier_never_starts_with_digit_witness :
    digitString ['1'] ∧ identifierShaped ['a', 'b', 'c'] ∧
      ∃ L1, Lexer.new.Parse (['1'] ++ ['a', 'b', 'c']) = some (true, L1) ∧
        L1.tokens.tokens = [{ type := TokenType.Integer, token := ['1'], line := 1 },
          { type := keywordType ['a', 'b', 'c'], token := ['a', 'b', 'c'], line := 1 }] :=
  ⟨⟨by decide, by decide⟩, ⟨'a', ['b', 'c'], rfl, by decide, by decide⟩,
    (C6_identifier_never_starts_with_digit Lexer.new ['1'] ['a', 'b', 'c'] []
      ⟨by decide, by decide⟩ ⟨'a', ['b', 'c'], rfl, by decide, by decide⟩).1⟩

/-! ## C7, C8: string literals -/

theorem isContent_of_mem (q : Char) (s : List Char) (hs : q ∉ s) (hl : Char.ofNat 255 ∉ s)
    (x : Char) (hx : x ∈ s) : isContent q x = true := by
  have h1 : x ≠ q := fun h => hs (h ▸ hx)
  have h2 : x ≠ Char.ofNat 255 := fun h => hl (h ▸ hx)
  simp [isContent, h1, h2]

theorem takeWhile_ne_closed (q : Char) (s t : List Char) (hs : q ∉ s)
    (hl : Char.ofNat 255 ∉ s) : (s ++ q :: t).takeWhile (isContent q) = s := by
  rw [List.takeWhile_append_of_pos]
  · simp [List.takeWhile_cons, isContent]
  · exact isContent_of_mem q s hs hl

theorem takeWhile_ne_open (q : Char) (s : List Char) (hs : q ∉ s) (hl : Char.ofNat 255 ∉ s) :
    s.takeWhile (isContent q) = s := by
  rw [List.takeWhile_eq_self_iff]
  exact isContent_of_mem q s hs hl

/-- The loop reads a quote, a text without that quote and without the byte 0xFF,
and the closing quote as one `String` token whose text is what stands between
the quotes. -/
theorem Lexer.run_string_closed (L : Lexer) (q : Char) (s t : List Char)
    (hq : q = SQUOTE ∨ q = DQUOTE) (hs : q ∉ s) (hl : Char.ofNat 255 ∉ s)
    (hr : L.stream.rest = (q :: (s ++ [q])) ++ t) :
    L.run = (L.emit (q :: (s ++ [q])).length
        { type := TokenType.String, token := s, line := L.line }).run ∧
      (L.emit (q :: (s ++ [q])).length
        { type := TokenType.String, token := s, line := L.line }).stream.rest = t := by
  refine Lexer.run_emit L (q :: (s ++ [q])) t _ q ((s ++ [q]) ++ t) rfl hr ?_
  rw [Lexer.stepSpec_quote L q _ hq]
  have h1 : (s ++ [q]) ++ t = s ++ q :: t := by simp
  rw [h1, takeWhile_ne_closed q s t hs hl]
  have h2 : 1 + min (s.length + 1) (s ++ q :: t).length = (q :: (s ++ [q])).length := by
    simp only [List.length_append, List.length_cons, List.length_nil]
    omega
  rw [h2]

/-- The loop reads a quote and a text without that quote and without the byte
0xFF, up to the end of the input, as one `String` token whose text is all that
follows the quote. -/
theorem Lexer.run_string_open (L : Lexer) (q : Char) (s : List Char)
    (hq : q = SQUOTE ∨ q = DQUOTE) (hs : q ∉ s) (hl : Char.ofNat 255 ∉ s)
    (hr : L.stream.rest = q :: s) :
    L.run = (L.emit (q :: s).length
        { type := TokenType.String, token := s, line := L.line }).run ∧
      (L.emit (q :: s).length
        { type := TokenType.String, token := s, line := L.line }).stream.rest = [] := by
  refine Lexer.run_emit L (q :: s) [] _ q s (by simp) (by simpa using hr) ?_
  rw [Lexer.stepSpec_quote L q _ hq, takeWhile_ne_open q s hs hl]
  have h2 : 1 + min (s.length + 1) s.length = (q :: s).length := by
    simp only [List.length_cons]
    omega
  rw [h2]

theorem hasAdjacentSlashes_cons (c : Char) (s : List Char) (hc : c ≠ '/') :
    hasAdjacentSlashes (c :: s) = hasAdjacentSlashes s := by
  cases s with
  | nil => rfl
  | cons d ds => simp [hasAdjacentSlashes, hc]

theorem quote_facts (q : Char) (hq : q = SQUOTE ∨ q = DQUOTE) :
    q ≠ '/' ∧ q ≠ NUL ∧ q ≠ ' ' := by
  rcases hq with h | h <;> subst h <;> decide

theorem StripComments_cons (c : Char) (s : List Char) (h1 : c ≠ '/') (h2 : c ≠ NUL) :
    StripComments (c :: s) = c :: StripComments s := by
  unfold StripComments
  rw [StripCommentsLoop_false_cons, if_neg (fun h => h1 h.1)]
  exact cstring_append [c] _ (by simpa using Ne.symm h2)

/-- C7 (counterexample): the text `//` has no single quote in it, yet `Parse` on
it between single quotes gives a `String` token whose text is three spaces:
`StripComments` has blanked the two slashes and the closing quote before the
scan. So the token text is not `//`. -/
theorem C7_counterexample_slashes_in_string :
    SQUOTE ∉ ['/', '/'] ∧
      (Lexer.new.Parse [SQUOTE, '/', '/', SQUOTE]).map (fun r => (r.1, r.2.tokens.tokens)) =
        some (true, [{ type := TokenType.String, token := [' ', ' ', ' '], line := 1 }]) ∧
      ¬ ∃ L1, Lexer.new.Parse [SQUOTE, '/', '/', SQUOTE] = some (true, L1) ∧
        L1.tokens.tokens = [{ type := TokenType.String, token := ['/', '/'], line := 1 }] := by
  have h : (Lexer.new.Parse [SQUOTE, '/', '/', SQUOTE]).map (fun r => (r.1, r.2.tokens.tokens)) =
      some (true, [{ type := TokenType.String, token := [' ', ' ', ' '], line := 1 }]) := by
    decide
  refine ⟨by decide, h, ?_⟩
  rintro ⟨L1, h1, h2⟩
  rw [h1] at h
  simp only [Option.map_some', Option.some.injEq, Prod.mk.injEq, true_and] at h
  rw [h2] at h
  revert h
  decide

/-- C7 (amended): for a quote character `q` and a text `s` that holds neither
`q`, nor two adjacent `/`, nor NUL, nor the byte 0xFF, `Parse` on `s` between
two `q` succeeds and emits exactly one `String` token, on line 1, whose text is
`s`; and the two adjacent literals `it` and `s` in single quotes give two
`String` tokens with these texts. -/
theorem C7_string_content_verbatim (L : Lexer) (q : Char) (s : List Char)
    (hq : q = SQUOTE ∨ q = DQUOTE) (hs : q ∉ s) (hslash : hasAdjacentSlashes s = false)
    (hnul : NUL ∉ s) (hlast : Char.ofNat 255 ∉ s) :
    (∃ L1, L.Parse (q :: (s ++ [q])) = some (true, L1) ∧
      L1.tokens.tokens = [{ type := TokenType.String, token := s, line := 1 }]) ∧
    (∃ L1, L.Parse [SQUOTE, 'i', 't', SQUOTE, SQUOTE, 's', SQUOTE] = some (true, L1) ∧
      L1.tokens.tokens = [{ type := TokenType.String, token := ['i', 't'], line := 1 },
        { type := TokenType.String, token := ['s'], line := 1 }]) := by
  obtain ⟨hq1, hq2, _⟩ := quote_facts q hq
  constructor
  · have hstrip : StripComments (q :: (s ++ [q])) = q :: (s ++ [q]) := by
      rw [StripComments_cons q _ hq1 hq2,
        StripComments_append s [q] hslash hnul (by simpa using hq1),
        StripComments_cons q [] hq1 hq2]
      rfl
    rw [Lexer.Parse_eq_run, hstrip]
    have hrun := Lexer.run_string_closed _ q s [] hq hs hlast
      (by rw [List.append_nil]; exact Lexer.initial_rest L.error _)
    exact ⟨_, hrun.1.trans (Lexer.run_nil _ hrun.2), rfl⟩
  · exact Lexer.Parse_tokens_of_new L _ _ 7 (by decide)

/-- C7 (amended) at `q` the double quote and `s` = a/b: one `String` token with
text a/b. -/
theorem C7_string_content_verbatim_witness :
    (DQUOTE = SQUOTE ∨ DQUOTE = DQUOTE) ∧ DQUOTE ∉ ['a', '/', 'b'] ∧
      hasAdjacentSlashes ['a', '/', 'b'] = false ∧ NUL ∉ ['a', '/', 'b'] ∧
      Char.ofNat 255 ∉ ['a', '/', 'b'] ∧
      ∃ L1, Lexer.new.Parse (DQUOTE :: (['a', '/', 'b'] ++ [DQUOTE])) = some (true, L1) ∧
        L1.tokens.tokens = [{ type := TokenType.String, token := ['a', '/', 'b'], line := 1 }] :=
  ⟨Or.inr rfl, by decide, by decide, by decide, by decide,
    (C7_string_content_verbatim Lexer.new DQUOTE ['a', '/', 'b'] (Or.inr rfl) (by decide)
      (by decide) (by decide) (by decide)).1⟩

/-- The byte 0xFF inside a closed literal: on the text a, 0xFF, b between
double quotes the literal ends at the byte, and `Parse` gives the `String` token
`a`, the identifier `b` and a second, empty `String` token. -/
theorem Lexer.Parse_literal_with_byte_255 :
    (Lexer.new.Parse [DQUOTE, 'a', Char.ofNat 255, 'b', DQUOTE]).map
        (fun r => (r.1, r.2.tokens.tokens)) =
      some (true, [{ type := TokenType.String, token := ['a'], line := 1 },
        { type := TokenType.Iden, token := ['b'], line := 1 },
        { type := TokenType.String, token := [], line := 1 }]) := by
  decide

/-- `Parse` on a quote character `q` followed by a text `s` that holds neither
`q` nor the byte 0xFF (a literal that is never closed) returns true, leaves the
error record as it was, and emits exactly one `String` token, on line 1, whose
text is `StripComments s`. -/
theorem Lexer.Parse_unterminated_string (L : Lexer) (q : Char) (s : List Char)
    (hq : q = SQUOTE ∨ q = DQUOTE) (hs : q ∉ s) (hlast : Char.ofNat 255 ∉ s) :
    ∃ L1, L.Parse (q :: s) = some (true, L1) ∧ L1.error = L.error ∧
      L1.tokens.tokens = [{ type := TokenType.String, token := StripComments s, line := 1 }] := by
  obtain ⟨hq1, hq2, hq3⟩ := quote_facts q hq
  have hmem : q ∉ StripComments s := by
    intro h
    rcases mem_StripComments s q h with h | h
    · exact hs h
    · exact hq3 h
  have hmem2 : Char.ofNat 255 ∉ StripComments s := by
    intro h
    rcases mem_StripComments s _ h with h | h
    · exact hlast h
    · revert h; decide
  rw [Lexer.Parse_eq_run, StripComments_cons q s hq1 hq2]
  have hrun := Lexer.run_string_open _ q (StripComments s) hq hmem hmem2
    (Lexer.initial_rest L.error _)
  exact ⟨_, hrun.1.trans (Lexer.run_nil _ hrun.2), rfl, rfl⟩

/-- C8 (failing input): the text is a single quote, the byte 0xFF and `@`. No
single quote follows the opening one, and `StripComments` leaves the text as it
is. `NextChar` returns the byte 0xFF, which is inside the text, as the value of
`EOF`; the loop of the literal stops there with the empty text, and `Parse`
returns false on `@` with the code `UNKOWN_CHAR`. So `Parse` does not return
true, the error record is modified, and the text of the `String` token is empty
and not the two characters after the quote. -/
theorem C8_literal_ends_at_byte_255 :
    SQUOTE ∉ [Char.ofNat 255, '@'] ∧
      StripComments [Char.ofNat 255, '@'] = [Char.ofNat 255, '@'] ∧
      (CharStream.NextChar { chars := [SQUOTE, Char.ofNat 255, '@'], index := 1 }).1 = none ∧
      (Lexer.new.Parse [SQUOTE, Char.ofNat 255, '@']).map
          (fun r => (r.1, r.2.error.code, r.2.tokens.tokens)) =
        some (false, ErrorType.UNKOWN_CHAR,
          [{ type := TokenType.String, token := [], line := 1 }]) ∧
      ¬ ∃ L1, Lexer.new.Parse [SQUOTE, Char.ofNat 255, '@'] = some (true, L1) ∧
        L1.error = Lexer.new.error ∧
        L1.tokens.tokens =
          [{ type := TokenType.String, token := StripComments [Char.ofNat 255, '@'],
             line := 1 }] := by
  have h : (Lexer.new.Parse [SQUOTE, Char.ofNat 255, '@']).map
      (fun r => (r.1, r.2.error.code, r.2.tokens.tokens)) =
      some (false, ErrorType.UNKOWN_CHAR,
        [{ type := TokenType.String, token := [], line := 1 }]) := by
    decide
  refine ⟨by decide, by decide, by decide, h, ?_⟩
  rintro ⟨L1, h1, _, _⟩
  rw [h1] at h
  revert h
  simp

/-! ## C9: the unknown character -/

theorem not_isPlain_of_not_isRecognized (u : Char) (h : isRecognized u = false) :
    isPlain u = false := by
  simp only [isRecognized, Bool.or_eq_false_iff] at h
  exact h.1.1

/-- A run over recognized characters other than quotes, followed by a character
that is not recognized, ends with `return false` on that character. -/
theorem Lexer.run_fails_after_plain (n : Nat) :
    ∀ (p : List Char) (L : Lexer) (u : Char) (t : List Char), p.length = n →
      (∀ x ∈ p, isPlain x = true) → isRecognized u = false → L.stream.rest = p ++ u :: t →
      ∃ L1, L.run = some (false, L1) ∧ L1.error = (L.failOn u).error := by
  induction n using Nat.strong_induction_on with
  | _ n ih =>
    intro p L u t hn hp hu hr
    cases p with
    | nil =>
      rw [List.nil_append] at hr
      rw [L.run_cons u t hr, Lexer.stepSpec_unrecognized L u t hu]
      exact ⟨_, rfl, rfl⟩
    | cons c p1 =>
      rw [List.cons_append] at hr
      have hc : isPlain c = true := hp c (List.mem_cons_self _ _)
      rcases L.stepSpec_cases c (p1 ++ u :: t) with
        ⟨h0, _⟩ | ⟨_, k, toks, dl, h1, hk1, hk2, _, _, hplain, _⟩
      · simp [isRecognized, hc] at h0
      · obtain ⟨hall, _⟩ := hplain hc
        have hk : k ≤ (c :: p1).length := by
          by_contra hlt
          have hmem : u ∈ (c :: (p1 ++ u :: t)).take k := by
            have h2 : c :: (p1 ++ u :: t) = (c :: p1) ++ u :: t := rfl
            rw [h2, List.take_append_eq_append_take]
            refine List.mem_append_right _ ?_
            obtain ⟨m, hm⟩ : ∃ m, k - (c :: p1).length = m + 1 := ⟨k - (c :: p1).length - 1, by omega⟩
            rw [hm, List.take_succ_cons]
            exact List.mem_cons_self _ _
          have := hall u hmem
          rw [not_isPlain_of_not_isRecognized u hu] at this
          cases this
        have herr : (L.stepSpec c (p1 ++ u :: t)).2.error = L.error := by rw [h1]
        have hok : (L.stepSpec c (p1 ++ u :: t)).1 = true := by rw [h1]
        rw [L.run_cons c _ hr, if_pos hok]
        have hrest : (L.stepSpec c (p1 ++ u :: t)).2.stream.rest = (c :: p1).drop k ++ u :: t := by
          rw [h1]
          show (L.stream.skip k).rest = _
          rw [CharStream.rest_skip, hr]
          have h2 : c :: (p1 ++ u :: t) = (c :: p1) ++ u :: t := rfl
          rw [h2, List.drop_append_of_le_length hk]
        have hlen : ((c :: p1).drop k).length < n := by
          rw [List.length_drop, ← hn]
          simp only [List.length_cons] at hk ⊢
          omega
        obtain ⟨L1, h3, h4⟩ :=
          ih _ hlen _ _ u t rfl (fun x hx => hp x (List.mem_of_mem_drop hx)) hu hrest
        exact ⟨L1, h3, by rw [h4]; simp only [Lexer.failOn, herr]⟩

theorem isPlain_ne_NUL (x : Char) (h : isPlain x = true) : x ≠ NUL := by
  rintro rfl; revert h; decide

/-- C9 (counterexample): the text quote, `@`, quote holds `@` and `Parse`
returns true on it; and on the text `@` alone `Parse` returns false with the
code `UNKOWN_CHAR` while the line field of the error is still the -1 of
`Error::Error()`, not the line 1 of the `@`. -/
theorem C9_counterexample_at_sign :
    '@' ∈ [SQUOTE, '@', SQUOTE] ∧
      (Lexer.new.Parse [SQUOTE, '@', SQUOTE]).map (fun r => r.1) = some true ∧
      (Lexer.new.Parse ['@']).map (fun r => (r.1, r.2.error.code, r.2.error.line)) =
        some (false, ErrorType.UNKOWN_CHAR, -1) := by
  decide

/-- C9 (amended): when the text before an `@` holds only recognized characters
other than quotes and no two adjacent `/`, `Parse` returns false with the code
`UNKOWN_CHAR` and the message `unknown character @`. -/
theorem C9_unknown_character (L : Lexer) (p r : List Char) (hp : ∀ x ∈ p, isPlain x = true)
    (hslash : hasAdjacentSlashes p = false) :
    ∃ L1, L.Parse (p ++ '@' :: r) = some (false, L1) ∧
      L1.error.code = ErrorType.UNKOWN_CHAR ∧
      L1.error.message = "unknown character @".toList := by
  have hstrip : StripComments (p ++ '@' :: r) = p ++ '@' :: StripComments r := by
    rw [StripComments_append p _ hslash (fun h => isPlain_ne_NUL _ (hp _ h) rfl) (by simp),
      StripComments_cons '@' r (by decide) (by decide)]
  rw [Lexer.Parse_eq_run, hstrip]
  obtain ⟨L1, h1, h2⟩ := Lexer.run_fails_after_plain p.length p
    { tokens := TokenStream.new, stream := CharStream.new (p ++ '@' :: StripComments r),
      line := 1, error := L.error } '@' (StripComments r) rfl hp (by decide)
    (Lexer.initial_rest L.error _)
  exact ⟨L1, h1, by rw [h2]; rfl, by rw [h2]; rfl⟩

/-- C9 (amended) at the text `x = @`: the scan stops at the `@`. -/
theorem C9_unknown_character_witness :
    (∀ x ∈ ['x', ' ', '=', ' '], isPlain x = true) ∧
      hasAdjacentSlashes ['x', ' ', '=', ' '] = false ∧
      ∃ L1, Lexer.new.Parse (['x', ' ', '=', ' '] ++ '@' :: []) = some (false, L1) ∧
        L1.error.code = ErrorType.UNKOWN_CHAR ∧
        L1.error.message = "unknown character @".toList :=
  ⟨by decide, by decide,
    C9_unknown_character Lexer.new ['x', ' ', '=', ' '] [] (by decide) (by decide)⟩

/-! ## C10: line numbers of tokens -/

theorem Lexer.ParseLoopStarts_nil (fuel : Nat) (L : Lexer) (h : L.stream.rest = []) :
    Lexer.ParseLoopStarts (fuel + 1) L = some [] := by
  simp [Lexer.ParseLoopStarts, CharStream.HasMore_nil _ h]

theorem Lexer.ParseLoopStarts_cons (fuel : Nat) (L : Lexer) (c : Char) (cs : List Char)
    (h : L.stream.rest = c :: cs) :
    Lexer.ParseLoopStarts (fuel + 1) L =
      if (L.stepSpec c cs).1 = true then
        (Lexer.ParseLoopStarts fuel (L.stepSpec c cs).2).map
          (fun r => List.replicate
            ((L.stepSpec c cs).2.tokens.tokens.length - L.tokens.tokens.length)
            L.stream.index ++ r)
      else
        some (List.replicate ((L.stepSpec c cs).2.tokens.tokens.length - L.tokens.tokens.length)
          L.stream.index) := by
  rw [Lexer.ParseLoopStarts]
  simp only [CharStream.HasMore_cons _ c cs h, if_true, Lexer.ParseStep_eq L c cs h]
  rcases hs : L.stepSpec c cs with ⟨b, L1⟩
  cases b <;> simp

theorem CharStream.mem_of_rest (s : CharStream) (c : Char) (cs : List Char)
    (h : s.rest = c :: cs) : c ∈ s.chars := by
  have : c ∈ s.rest := by rw [h]; exact List.mem_cons_self _ _
  exact List.mem_of_mem_drop this

theorem CharStream.rest_length (s : CharStream) (h : s.index ≤ s.chars.length) :
    s.rest.length + s.index = s.chars.length := by
  simp only [CharStream.rest, List.length_drop]
  omega

/-- Along the main loop on a text without quotes, every token carries the line
of the position at which its lexeme begins. -/
theorem Lexer.ParseLoop_lines (fuel : Nat) :
    ∀ L : Lexer, L.stream.rest.length < fuel →
      (∀ x ∈ L.stream.chars, x ≠ SQUOTE ∧ x ≠ DQUOTE) →
      L.stream.index ≤ L.stream.chars.length →
      L.line = 1 + (((L.stream.chars.take L.stream.index).count '\n' : Nat) : Int) →
      ∃ (ok : Bool) (L1 : Lexer) (new : List Token) (starts : List Nat),
        Lexer.ParseLoop fuel L = some (ok, L1) ∧ Lexer.ParseLoopStarts fuel L = some starts ∧
        L1.tokens.tokens = L.tokens.tokens ++ new ∧
        List.Forall₂ (fun t p => p < L.stream.chars.length ∧
          t.line = 1 + (((L.stream.chars.take p).count '\n' : Nat) : Int)) new starts := by
  induction fuel with
  | zero => intro L h; omega
  | succ n ih =>
    intro L hfuel hq hidx hline
    cases hr : L.stream.rest with
    | nil =>
      exact ⟨true, L, [], [], Lexer.ParseLoop_nil _ _ hr, Lexer.ParseLoopStarts_nil _ _ hr,
        by simp, List.Forall₂.nil⟩
    | cons c cs =>
      have hlen := CharStream.rest_length _ hidx
      rw [hr] at hlen hfuel
      simp only [List.length_cons] at hlen hfuel
      rw [Lexer.ParseLoop_cons _ _ c cs hr, Lexer.ParseLoopStarts_cons _ _ c cs hr]
      have hcq := hq c (CharStream.mem_of_rest _ c cs hr)
      rcases L.stepSpec_cases c cs with
        ⟨_, h1⟩ | ⟨hrec, k, toks, dl, h1, hk1, hk2, htl, htoks, hplain, _⟩
      · rw [h1]
        refine ⟨false, L.failOn c, [], [], by simp, ?_, by simp [Lexer.failOn], List.Forall₂.nil⟩
        simp [Lexer.failOn]
      · have hc : isPlain c = true := by
          simp only [isRecognized, Bool.or_eq_true, decide_eq_true_eq] at hrec
          rcases hrec with (h | h) | h
          · exact h
          · exact absurd h hcq.1
          · exact absurd h hcq.2
        obtain ⟨_, hdl⟩ := hplain hc
        have hline1 : L.line + (dl : Int) =
            1 + (((L.stream.chars.take (L.stream.index + k)).count '\n' : Nat) : Int) := by
          rw [List.take_add, List.count_append, hline, hdl]
          have : List.take k (List.drop L.stream.index L.stream.chars) = List.take k (c :: cs) := by
            rw [← hr]; rfl
          rw [this]
          push_cast
          ring
        obtain ⟨ok, L2, new1, starts1, hp1, hp2, hp3, hp4⟩ :=
          ih { tokens := { tokens := L.tokens.tokens ++ toks, index := L.tokens.index },
               stream := L.stream.skip k, line := L.line + (dl : Int), error := L.error }
            (by
              show (L.stream.skip k).rest.length < n
              rw [CharStream.rest_skip, hr, List.length_drop, List.length_cons]
              omega)
            hq
            (by show L.stream.index + k ≤ L.stream.chars.length; omega)
            hline1
        rw [h1]
        refine ⟨ok, L2, toks ++ new1, List.replicate toks.length L.stream.index ++ starts1,
          by simpa using hp1, ?_, ?_, ?_⟩
        · simp only [if_true, hp2, Option.map_some', List.length_append, Nat.add_sub_cancel_left]
        · rw [hp3, List.append_assoc]
        · have hhead : List.Forall₂ (fun t p => p < L.stream.chars.length ∧
              t.line = 1 + (((L.stream.chars.take p).count '\n' : Nat) : Int)) toks
                (List.replicate toks.length L.stream.index) := by
            rw [List.forall₂_iff_get]
            refine ⟨by simp, ?_⟩
            intro i h₁ h₂
            simp only [List.get_eq_getElem, List.getElem_replicate]
            refine ⟨by omega, ?_⟩
            rw [(htoks _ (List.getElem_mem h₁)).1, hline]
          exact List.rel_append hhead hp4

/-- C10: on an input without quote characters, `Parse` returns, and every token
it has emitted carries the line 1 + the number of newlines of the input that
stand before the position where the lexeme of the token begins (`ParseStarts`
lists these positions in the order of the tokens); and on a comment line
followed by `var x` the tokens are exactly `Var` and `Iden x`, both on
line 2. -/
theorem C10_token_line_numbers (L : Lexer) (code : List Char)
    (hq : SQUOTE ∉ code ∧ DQUOTE ∉ code) :
    (∃ (ok : Bool) (L1 : Lexer) (starts : List Nat),
      L.Parse code = some (ok, L1) ∧ L.ParseStarts code = some starts ∧
      List.Forall₂ (fun t p => p < code.length ∧
        t.line = 1 + (((code.take p).count '\n' : Nat) : Int)) L1.tokens.tokens starts) ∧
    (∃ L1, L.Parse "// comment\nvar x".toList = some (true, L1) ∧
      L1.tokens.tokens = [{ type := TokenType.Var, token := "var".toList, line := 2 },
        { type := TokenType.Iden, token := "x".toList, line := 2 }]) := by
  constructor
  · have hquotes : ∀ x ∈ StripComments code, x ≠ SQUOTE ∧ x ≠ DQUOTE := by
      intro x hx
      rcases mem_StripComments code x hx with h | h
      · exact ⟨fun e => hq.1 (e ▸ h), fun e => hq.2 (e ▸ h)⟩
      · rw [h]; decide
    obtain ⟨ok, L1, new, starts, h1, h2, h3, h4⟩ := Lexer.ParseLoop_lines
      ((StripComments code).length + 1)
      { tokens := TokenStream.new, stream := CharStream.new (StripComments code), line := 1,
        error := L.error }
      (by rw [Lexer.initial_rest]; exact Nat.lt_succ_self _) hquotes (Nat.zero_le _) (by
        show (1 : Int) = 1 + (((List.take 0 (StripComments code)).count '\n' : Nat) : Int)
        simp)
    refine ⟨ok, L1, starts, h1, h2, ?_⟩
    have h5 : L1.tokens.tokens = new := by rw [h3]; rfl
    rw [h5]
    refine List.Forall₂.imp ?_ h4
    intro t p ⟨hp1, hp2⟩
    have hp3 : p < (StripComments code).length := hp1
    refine ⟨lt_of_lt_of_le hp3 (StripComments_length_le code), ?_⟩
    rw [hp2]
    show 1 + (((List.take p (StripComments code)).count '\n' : Nat) : Int) = _
    rw [StripComments_count_newline code p (le_of_lt hp3)]
  · exact Lexer.Parse_tokens_of_new L _ _ 16 (by decide)

/-- C10 at the two-line text `a`, newline, `b`: the identifier `b` begins at
position 2 and is on line 2. -/
theorem C10_token_line_numbers_witness :
    (SQUOTE ∉ ['a', '\n', 'b'] ∧ DQUOTE ∉ ['a', '\n', 'b']) ∧
      ∃ (ok : Bool) (L1 : Lexer) (starts : List Nat),
        Lexer.new.Parse ['a', '\n', 'b'] = some (ok, L1) ∧
        Lexer.new.ParseStarts ['a', '\n', 'b'] = some starts ∧
        List.Forall₂ (fun t p => p < ['a', '\n', 'b'].length ∧
          t.line = 1 + (((['a', '\n', 'b'].take p).count '\n' : Nat) : Int))
          L1.tokens.tokens starts :=
  ⟨⟨by decide, by decide⟩,
    (C10_token_line_numbers Lexer.new ['a', '\n', 'b'] ⟨by decide, by decide⟩).1⟩

/-! ## C11 to C14: reading a TokenStream -/

theorem Lexer.Parse_stream_of_new (L : Lexer) (code : List Char) (ts : TokenStream)
    (h : (Lexer.new.Parse code).map (fun r => (r.1, r.2.tokens)) = some (true, ts)) :
    ∃ L1, L.Parse code = some (true, L1) ∧ L1.tokens = ts := by
  cases hp : Lexer.new.Parse code with
  | none => rw [hp] at h; cases h
  | some r =>
    rw [hp] at h
    simp only [Option.map_some', Option.some.injEq, Prod.mk.injEq] at h
    refine ⟨{ r.2 with error := L.error }, ?_, h.2⟩
    rw [Lexer.Parse_new, hp]
    simp [Lexer.outcomeWith, h.1]

/-- C11: `Parse` on `x = 1 + 2` succeeds with five tokens, and six calls of
`NextToken` on the resulting stream return `Iden x`, `Assign`, `Integer 1`,
`Add`, `Integer 2` and an end-of-stream token; all six are on line 1 and the
operator tokens have the empty text. -/
theorem C11_tokens_of_x_assign_sum (L : Lexer) :
    ∃ L1, L.Parse "x = 1 + 2".toList = some (true, L1) ∧
      L1.tokens.tokens.length = 5 ∧
      (L1.tokens.readTokens 6).1 =
        [{ type := TokenType.Iden, token := ['x'], line := 1 },
         { type := TokenType.Assign, token := [], line := 1 },
         { type := TokenType.Integer, token := ['1'], line := 1 },
         { type := TokenType.Add, token := [], line := 1 },
         { type := TokenType.Integer, token := ['2'], line := 1 },
         { type := TokenType.EOS, token := [], line := 1 }] := by
  obtain ⟨L1, h1, h2⟩ := Lexer.Parse_stream_of_new L "x = 1 + 2".toList
    { tokens := [{ type := TokenType.Iden, token := ['x'], line := 1 },
                 { type := TokenType.Assign, token := [], line := 1 },
                 { type := TokenType.Integer, token := ['1'], line := 1 },
                 { type := TokenType.Add, token := [], line := 1 },
                 { type := TokenType.Integer, token := ['2'], line := 1 }],
      index := 0 } (by decide)
  refine ⟨L1, h1, ?_, ?_⟩
  · rw [h2]; rfl
  · rw [h2]; decide

/-- C12 (failing input): on a stream without tokens, `Advance` and then
`PeekToken(0)` reads `tokens[0]`, outside the vector; and on a stream of one
token, two calls of `NextToken` (the second returns the end-of-stream token)
and then `PeekToken(0)` read `tokens[1]`, outside the vector. -/
theorem C12_PeekToken_reads_outside :
    (TokenStream.new.Advance).PeekToken 0 = none ∧
      ((TokenStream.new.AddToken
        { type := TokenType.Iden, token := ['x'], line := 1 }).readTokens 2).1 =
        [{ type := TokenType.Iden, token := ['x'], line := 1 }, Token.EOSToken eosLineDefault] ∧
      ((TokenStream.new.AddToken
        { type := TokenType.Iden, token := ['x'], line := 1 }).readTokens 2).2.PeekToken 0 =
        none := by
  decide

/-- C13 (counterexample): on the stream of the two tokens `a` (line 1) and `b`
(line 2), whose last token is on line 2, `PeekToken(2)` with the cursor at 0 and
`PeekToken(1)` with the cursor at 1 are reads beyond the end that return an
end-of-stream token on line 1. -/
theorem C13_counterexample_line_of_end_of_stream :
    (TokenStream.PeekToken
        { tokens := [{ type := TokenType.Iden, token := ['a'], line := 1 },
                     { type := TokenType.Iden, token := ['b'], line := 2 }], index := 0 } 2
      = some (Token.EOSToken 1)) ∧
    (TokenStream.PeekToken
        { tokens := [{ type := TokenType.Iden, token := ['a'], line := 1 },
                     { type := TokenType.Iden, token := ['b'], line := 2 }], index := 1 } 1
      = some (Token.EOSToken 1)) ∧
    (Token.EOSToken 1).line ≠ 2 := by
  decide

/-- C13 (amended): on a stream whose cursor is not beyond the end, `PeekToken(k)`
with `index + k` at or past the number of tokens returns an end-of-stream
token; its line is 1 when the cursor is at 0, and the line of the token just
before the cursor otherwise; with the cursor at the end of the stream that is
the line of the last token, or 1 if the stream holds no tokens. -/
theorem C13_PeekToken_end_of_stream_line (ts : TokenStream) (k : Nat)
    (h1 : ts.index ≤ ts.tokens.length) (h2 : ts.tokens.length ≤ ts.index + k) :
    ∃ t, ts.PeekToken k = some t ∧ t.type = TokenType.EOS ∧
      (ts.index = 0 → t.line = 1) ∧
      (∀ p, 0 < ts.index → ts.tokens[ts.index - 1]? = some p → t.line = p.line) ∧
      (ts.index = ts.tokens.length →
        t.line = (ts.tokens.getLast?.map (fun p => p.line)).getD 1) := by
  unfold TokenStream.PeekToken
  rw [dif_pos h2]
  by_cases h0 : ts.index > 0
  · rw [if_pos h0]
    have hlt : ts.index - 1 < ts.tokens.length := by omega
    rw [List.getElem?_eq_getElem hlt]
    refine ⟨_, rfl, rfl, fun h => by omega, fun p _ hp => ?_, fun hend => ?_⟩
    · simp only [Option.some.injEq] at hp
      rw [← hp]
      rfl
    · rw [List.getLast?_eq_getElem?, ← hend, List.getElem?_eq_getElem hlt]
      rfl
  · rw [if_neg h0]
    refine ⟨_, rfl, rfl, fun _ => rfl, fun p hp => absurd hp h0, fun hend => ?_⟩
    have hnil : ts.tokens = [] := List.eq_nil_of_length_eq_zero (by omega)
    rw [hnil]
    rfl

/-- C13 (amended) on the stream of `a` (line 1) and `b` (line 2) with the cursor
at the end: the end-of-stream token is on line 2. -/
theorem C13_PeekToken_end_of_stream_line_witness :
    ∃ t, TokenStream.PeekToken
        { tokens := [{ type := TokenType.Iden, token := ['a'], line := 1 },
                     { type := TokenType.Iden, token := ['b'], line := 2 }], index := 2 } 0
        = some t ∧ t.type = TokenType.EOS ∧ t.line = 2 := by
  obtain ⟨t, h1, h2, _, _, h5⟩ := C13_PeekToken_end_of_stream_line
    { tokens := [{ type := TokenType.Iden, token := ['a'], line := 1 },
                 { type := TokenType.Iden, token := ['b'], line := 2 }], index := 2 } 0
    (by decide) (by decide)
  exact ⟨t, h1, h2, h5 rfl⟩

theorem TokenStream.readTokens_snd (n : Nat) (ts : TokenStream) :
    (TokenStream.readTokens n ts).2 = { ts with index := ts.index + n } := by
  induction n generalizing ts with
  | zero => rfl
  | succ n ih =>
    rw [TokenStream.readTokens, ih]
    unfold TokenStream.NextToken
    split <;> simp [Nat.add_assoc, Nat.add_comm 1 n]

theorem TokenStream.foldl_AddToken (toks : List Token) (ts : TokenStream) :
    toks.foldl TokenStream.AddToken ts = { ts with tokens := ts.tokens ++ toks } := by
  induction toks generalizing ts with
  | nil => simp
  | cons t toks ih =>
    rw [List.foldl_cons, ih]
    simp [TokenStream.AddToken]

theorem TokenStream.readTokens_fst (toks pre : List Token) :
    (TokenStream.readTokens toks.length { tokens := pre ++ toks, index := pre.length }).1
      = toks := by
  induction toks generalizing pre with
  | nil => rfl
  | cons t toks ih =>
    have hlt : pre.length < (pre ++ t :: toks).length := by simp
    have hnext : TokenStream.NextToken { tokens := pre ++ t :: toks, index := pre.length } =
        (t, { tokens := (pre ++ [t]) ++ toks, index := (pre ++ [t]).length }) := by
      unfold TokenStream.NextToken
      rw [dif_pos hlt]
      simp [List.getElem_append_right]
    rw [List.length_cons, TokenStream.readTokens, hnext, ih]

/-- C14: a stream built by adding the tokens `toks` to a new stream holds these
tokens with the cursor at 0; after `i` calls of `NextToken` the cursor is at
`i`; while `i` is less than the number of tokens, the next `NextToken` returns
the `i`-th token, which `PeekToken(0)` returns as well; reading as many tokens
as were added returns them in order; `HasMore` holds exactly while `i` is less
than the number of tokens; and `NextToken` and `Advance` increase the index by
exactly one and leave the tokens alone. (`PeekToken`, `PeekTokenType` and
`HasMore` assign nothing: in the embedding they are functions of the stream.) -/
theorem C14_stream_reads_in_order (toks : List Token) :
    (toks.foldl TokenStream.AddToken TokenStream.new).tokens = toks ∧
    (toks.foldl TokenStream.AddToken TokenStream.new).index = 0 ∧
    (∀ i, ((toks.foldl TokenStream.AddToken TokenStream.new).readTokens i).2.index = i) ∧
    (∀ i, ∀ h : i < toks.length,
      (((toks.foldl TokenStream.AddToken TokenStream.new).readTokens i).2.NextToken).1
        = toks.get ⟨i, h⟩ ∧
      ((toks.foldl TokenStream.AddToken TokenStream.new).readTokens i).2.PeekToken 0
        = some (toks.get ⟨i, h⟩)) ∧
    ((toks.foldl TokenStream.AddToken TokenStream.new).readTokens toks.length).1 = toks ∧
    (∀ i, ((toks.foldl TokenStream.AddToken TokenStream.new).readTokens i).2.HasMore
      = decide (i < toks.length)) ∧
    (∀ s : TokenStream, (s.NextToken).2.index = s.index + 1 ∧ s.Advance.index = s.index + 1 ∧
      (s.NextToken).2.tokens = s.tokens ∧ s.Advance.tokens = s.tokens) := by
  have hbuild : toks.foldl TokenStream.AddToken TokenStream.new =
      { tokens := toks, index := 0 } := by
    rw [TokenStream.foldl_AddToken]
    simp [TokenStream.new]
  rw [hbuild]
  refine ⟨rfl, rfl, fun i => ?_, fun i h => ?_, ?_, fun i => ?_, fun s => ?_⟩
  · rw [TokenStream.readTokens_snd]; simp
  · rw [TokenStream.readTokens_snd]
    constructor
    · unfold TokenStream.NextToken
      simp [h]
    · have hn : ¬ toks.length ≤ i := by omega
      unfold TokenStream.PeekToken
      simp [hn]
  · exact TokenStream.readTokens_fst toks []
  · rw [TokenStream.readTokens_snd]; simp [TokenStream.HasMore]
  · refine ⟨?_, rfl, ?_, rfl⟩
    · unfold TokenStream.NextToken
      split <;> rfl
    · unfold TokenStream.NextToken
      split <;> rfl

/-! ## C15: the character cursor -/

theorem toInt32_of_lt (n : Nat) (h : n < 2147483648) : toInt32 n = (n : Int) := by
  unfold toInt32
  have h1 : n % 4294967296 = n := Nat.mod_eq_of_lt (by omega)
  rw [h1, if_pos h]

/-- On a text and an offset that fit in an `int`, `PeekChar` with its conversions
is `CharStream.PeekChar`: the character at `index + look_ahead` converted to
`int`, or `EOF`. -/
theorem CharStream.PeekCharInt_eq (s : CharStream) (k : Nat)
    (h1 : s.chars.length < 2147483648) (h2 : s.index + k < 2147483648) :
    s.PeekCharInt k = some (s.PeekChar k) := by
  unfold CharStream.PeekCharInt CharStream.PeekChar
  simp only [toInt32_of_lt _ h1, toInt32_of_lt _ h2, Nat.cast_lt]
  by_cases h : s.index + k < s.chars.length
  · rw [if_pos h, if_pos h, List.getElem?_eq_getElem h]
    rfl
  · rw [if_neg h, if_neg h]

/-- `NextChar` returns what `PeekChar(0)` returns and moves the index by one;
`HasMore` holds exactly when the index is within the text. -/
theorem CharStream.NextChar_eq (s : CharStream) :
    s.NextChar = (s.PeekChar 0, { s with index := s.index + 1 }) ∧
      (s.HasMore = true ↔ s.index < s.chars.length) := by
  constructor
  · unfold CharStream.NextChar CharStream.PeekChar
    by_cases h : s.index < s.chars.length
    · simp [h]
    · simp [h]
  · simp [CharStream.HasMore]

/-- C15 (failing input): on the text `a` with the cursor at 0, `PeekChar` with
the offset 2147483648 (an `unsigned int`) computes `look = -2147483648`, which
is less than the size 1, and reads `chars[2147483648]`, outside the text; it
does not return `EOF`, although `index + look_ahead` is not within the text. -/
theorem C15_PeekChar_offset_beyond_int :
    toInt32 (0 + 2147483648) = -2147483648 ∧
      ¬ (0 + 2147483648 < ['a'].length) ∧
      CharStream.PeekCharInt { chars := ['a'], index := 0 } 2147483648 = none ∧
      CharStream.PeekCharInt { chars := ['a'], index := 0 } 2147483648 ≠ some none := by
  decide

/-! ## C16: what `Parse` leaves of the state before it -/

/-- When the main loop returns false, the error record holds the code
`UNKOWN_CHAR` and the message on the character the loop stopped at. -/
theorem Lexer.run_false_error (L : Lexer) (r : Bool × Lexer) (h : L.run = some r)
    (hf : r.1 = false) :
    r.2.error.code = ErrorType.UNKOWN_CHAR ∧
      ∃ c, isRecognized c = false ∧ r.2.error.message = "unknown character ".toList ++ [c] := by
  generalize hn : L.stream.rest.length = n
  induction n using Nat.strong_induction_on generalizing L with
  | _ n ih =>
    cases hrest : L.stream.rest with
    | nil =>
      rw [L.run_nil hrest] at h
      cases h
      cases hf
    | cons c cs =>
      rw [L.run_cons c cs hrest] at h
      by_cases hs : (L.stepSpec c cs).1 = true
      · rw [if_pos hs] at h
        have hlt := Lexer.stepSpec_rest L c cs hrest hs
        exact ih _ (by rw [← hn, hrest]; exact hlt) _ h rfl
      · rw [if_neg hs] at h
        cases h
        rcases L.stepSpec_cases c cs with ⟨hu, h1⟩ | ⟨_, k, toks, dl, h1, _⟩
        · rw [h1]
          exact ⟨rfl, c, hu, rfl⟩
        · rw [h1] at hs
          exact absurd rfl hs

/-- C16 (counterexample): a lexer that has failed on `@` and then parses `x`
returns true and still holds the error code `UNKOWN_CHAR`, while a fresh lexer
that parses `x` returns true and holds the code `NONE`: the error record after
a successful `Parse` depends on the state before it. -/
theorem C16_counterexample_stale_error :
    (Lexer.new.Parse ['@']).bind (fun r =>
        (r.2.Parse ['x']).map (fun q => (r.1, q.1, q.2.error.code)))
      = some (false, true, ErrorType.UNKOWN_CHAR) ∧
    (Lexer.new.Parse ['x']).map (fun q => (q.1, q.2.error.code))
      = some (true, ErrorType.NONE) := by
  decide

/-- C16 (amended): on the same input two lexers in any states return the same
flag and leave the same tokens, the same character cursor and the same line
counter; when `Parse` fails, both error records hold the code `UNKOWN_CHAR` and
the same message; when it succeeds, each lexer keeps the error record it had
before the call. -/
theorem C16_Parse_depends_on_input_only (L M : Lexer) (code : List Char) :
    ∃ rL rM, L.Parse code = some rL ∧ M.Parse code = some rM ∧
      rL.1 = rM.1 ∧ rL.2.tokens = rM.2.tokens ∧ rL.2.stream = rM.2.stream ∧
      rL.2.line = rM.2.line ∧
      (rL.1 = false → rL.2.error.code = ErrorType.UNKOWN_CHAR ∧
        rM.2.error.code = ErrorType.UNKOWN_CHAR ∧
        rL.2.error.message = rM.2.error.message) ∧
      (rL.1 = true → rL.2.error = L.error ∧ rM.2.error = M.error) := by
  obtain ⟨r, hr⟩ := Lexer.Parse_total Lexer.new code
  have hcode : r.1 = false → r.2.error.code = ErrorType.UNKOWN_CHAR := by
    intro hf
    rw [Lexer.Parse_eq_run] at hr
    exact (Lexer.run_false_error _ r hr hf).1
  refine ⟨Lexer.outcomeWith L.error r, Lexer.outcomeWith M.error r, ?_, ?_, rfl, rfl, rfl, rfl,
    ?_, ?_⟩
  · rw [Lexer.Parse_new, hr]; rfl
  · rw [Lexer.Parse_new, hr]; rfl
  · intro hf
    have hf2 : r.1 = false := hf
    simp [Lexer.outcomeWith, hf2, hcode hf2]
  · intro ht
    have ht2 : r.1 = true := ht
    simp [Lexer.outcomeWith, ht2]

/-! ## C17: when `Parse` fails -/

/-- A run over recognized characters other than quotes returns true and leaves
the error record alone. -/
theorem Lexer.run_plain (n : Nat) :
    ∀ (p : List Char) (L : Lexer), p.length = n → (∀ x ∈ p, isPlain x = true) →
      L.stream.rest = p → ∃ L1, L.run = some (true, L1) ∧ L1.error = L.error := by
  induction n using Nat.strong_induction_on with
  | _ n ih =>
    intro p L hn hp hr
    cases p with
    | nil => exact ⟨L, L.run_nil hr, rfl⟩
    | cons c p1 =>
      have hc : isPlain c = true := hp c (List.mem_cons_self _ _)
      rcases L.stepSpec_cases c p1 with ⟨h0, _⟩ | ⟨_, k, toks, dl, h1, hk1, hk2, _⟩
      · simp [isRecognized, hc] at h0
      · have herr : (L.stepSpec c p1).2.error = L.error := by rw [h1]
        have hok : (L.stepSpec c p1).1 = true := by rw [h1]
        have hrest : (L.stepSpec c p1).2.stream.rest = (c :: p1).drop k := by
          rw [h1]
          show (L.stream.skip k).rest = _
          rw [CharStream.rest_skip, hr]
        have hlen : ((c :: p1).drop k).length < n := by
          rw [List.length_drop, ← hn]
          simp only [List.length_cons]
          omega
        rw [L.run_cons c _ hr, if_pos hok]
        obtain ⟨L1, h3, h4⟩ :=
          ih _ hlen _ _ rfl (fun x hx => hp x (List.mem_of_mem_drop hx)) hrest
        exact ⟨L1, h3, h4.trans herr⟩

theorem isPlain_of_isRecognized (x : Char) (h : isRecognized x = true) (h1 : x ≠ SQUOTE)
    (h2 : x ≠ DQUOTE) : isPlain x = true := by
  simp only [isRecognized, Bool.or_eq_true, decide_eq_true_eq] at h
  rcases h with (h | h) | h
  · exact h
  · exact absurd h h1
  · exact absurd h h2

/-- The first character of a text that is not recognized, with the text before
it and the text after it. -/
theorem exists_first_unrecognized (s : List Char) (h : ∃ x ∈ s, isRecognized x = false) :
    ∃ p u t, s = p ++ u :: t ∧ (∀ x ∈ p, isRecognized x = true) ∧ isRecognized u = false := by
  induction s with
  | nil => obtain ⟨x, hx, _⟩ := h; cases hx
  | cons c cs ih =>
    by_cases hc : isRecognized c = true
    · obtain ⟨x, hx, hxu⟩ := h
      have hx2 : x ∈ cs := by
        rcases List.mem_cons.1 hx with e | e
        · rw [e, hc] at hxu; cases hxu
        · exact e
      obtain ⟨p, u, t, h1, h2, h3⟩ := ih ⟨x, hx2, hxu⟩
      refine ⟨c :: p, u, t, by rw [h1]; rfl, fun y hy => ?_, h3⟩
      rcases List.mem_cons.1 hy with e | e
      · rw [e]; exact hc
      · exact h2 y e
    · exact ⟨[], c, cs, rfl, ⟨fun y hy => absurd hy (List.not_mem_nil y), by simpa using hc⟩⟩

/-- On a text without quotes, without two adjacent `/` and without NUL, `Parse`
returns false exactly when the text holds a character that is not recognized,
and then the error record holds the code `UNKOWN_CHAR` and the message on the
first such character. -/
theorem Lexer.Parse_fails_iff (L : Lexer) (code : List Char)
    (hq : SQUOTE ∉ code ∧ DQUOTE ∉ code) (hs : hasAdjacentSlashes code = false)
    (hn : NUL ∉ code) :
    ((∃ L1, L.Parse code = some (false, L1)) ↔ ∃ x ∈ code, isRecognized x = false) ∧
    (∀ p u t, code = p ++ u :: t → (∀ x ∈ p, isRecognized x = true) → isRecognized u = false →
      ∃ L1, L.Parse code = some (false, L1) ∧ L1.error.code = ErrorType.UNKOWN_CHAR ∧
        L1.error.message = "unknown character ".toList ++ [u]) := by
  have hfail : ∀ p u t, code = p ++ u :: t → (∀ x ∈ p, isRecognized x = true) →
      isRecognized u = false →
      ∃ L1, L.Parse code = some (false, L1) ∧ L1.error.code = ErrorType.UNKOWN_CHAR ∧
        L1.error.message = "unknown character ".toList ++ [u] := by
    intro p u t hcode hp hu
    have hplain : ∀ x ∈ p, isPlain x = true := by
      intro x hx
      have hmem : x ∈ code := by rw [hcode]; exact List.mem_append_left _ hx
      exact isPlain_of_isRecognized x (hp x hx) (fun e => hq.1 (e ▸ hmem))
        (fun e => hq.2 (e ▸ hmem))
    rw [Lexer.Parse_eq_run, StripComments_clean code hs hn]
    obtain ⟨L1, h1, h2⟩ := Lexer.run_fails_after_plain p.length p
      { tokens := TokenStream.new, stream := CharStream.new code, line := 1, error := L.error }
      u t rfl hplain hu (by rw [Lexer.initial_rest, hcode])
    exact ⟨L1, h1, by rw [h2]; rfl, by rw [h2]; rfl⟩
  refine ⟨⟨?_, ?_⟩, hfail⟩
  · rintro ⟨L1, h1⟩
    by_contra hall
    have hplain : ∀ x ∈ code, isPlain x = true := by
      intro x hx
      have hr : isRecognized x = true := by
        by_contra hx2
        exact hall ⟨x, hx, by simpa using hx2⟩
      exact isPlain_of_isRecognized x hr (fun e => hq.1 (e ▸ hx)) (fun e => hq.2 (e ▸ hx))
    rw [Lexer.Parse_eq_run, StripComments_clean code hs hn] at h1
    obtain ⟨L2, h2, _⟩ := Lexer.run_plain code.length code
      { tokens := TokenStream.new, stream := CharStream.new code, line := 1, error := L.error }
      rfl hplain (Lexer.initial_rest _ _)
    rw [h2] at h1
    cases h1
  · intro h
    obtain ⟨p, u, t, h1, h2, h3⟩ := exists_first_unrecognized code h
    obtain ⟨L1, h4, _⟩ := hfail p u t h1 h2 h3
    exact ⟨L1, h4⟩

theorem takeWhile_append_stop (f : Char → Bool) (l : List Char) (u : Char) (t : List Char)
    (hu : f u = false) : (l ++ u :: t).takeWhile f = l.takeWhile f := by
  induction l with
  | nil => simp [List.takeWhile_cons, hu]
  | cons a l ih =>
    by_cases ha : f a = true
    · simp [List.takeWhile_cons, ha, ih]
    · simp [List.takeWhile_cons, ha]

theorem identSpan_append_stop (l : List Char) (u : Char) (t : List Char)
    (h1 : isIdStart u = false) (h2 : u.isDigit = false) :
    ∀ ne, identSpan ne (l ++ u :: t) = identSpan ne l := by
  induction l with
  | nil =>
    intro ne
    rw [List.nil_append, identSpan_cons, if_neg (by simp [h1, h2])]
    rfl
  | cons a l ih =>
    intro ne
    rw [List.cons_append, identSpan_cons, identSpan_cons, ih true]

theorem numSpan_append_stop (l : List Char) (u : Char) (t : List Char)
    (h1 : u.isDigit = false) (h2 : u ≠ '.') :
    ∀ dot, numSpan dot (l ++ u :: t) = numSpan dot l := by
  induction l with
  | nil =>
    intro dot
    exact numSpan_stop dot (u :: t) (fun x hx => by
      simp only [List.head?_cons, Option.some.injEq] at hx
      subst hx
      exact ⟨h1, fun h => absurd h h2⟩)
  | cons a l ih =>
    intro dot
    simp only [List.cons_append, numSpan, List.append_eq, ih]

/-- The iteration at a punctuation or operator character adds a token of a kind
that the character fixes, `two` when the character is an operator followed by
`=` and `one` otherwise. -/
theorem Lexer.stepSpec_symbol_eq (c : Char) (h : isSymbol c = true) :
    ∃ (one two : TokenType) (op : Bool), ∀ (L : Lexer) (cs : List Char),
      L.stepSpec c cs =
        (true, if op = true ∧ cs.head? = some '=' then
            L.emit 2 { type := two, token := [], line := L.line }
          else L.emit 1 { type := one, token := [], line := L.line }) := by
  simp only [isSymbol, decide_eq_true_eq] at h
  rcases h with h | h | h | h | h | h | h | h | h | h | h | h | h | h | h | h | h | h <;> subst h
  · exact ⟨TokenType.Add, TokenType.Add, false, fun L cs => rfl⟩
  · exact ⟨TokenType.Sub, TokenType.Sub, false, fun L cs => rfl⟩
  · exact ⟨TokenType.Mul, TokenType.Mul, false, fun L cs => rfl⟩
  · exact ⟨TokenType.Div, TokenType.Div, false, fun L cs => rfl⟩
  · exact ⟨TokenType.OpenParen, TokenType.OpenParen, false, fun L cs => rfl⟩
  · exact ⟨TokenType.CloseParen, TokenType.CloseParen, false, fun L cs => rfl⟩
  · exact ⟨TokenType.OpenCurlyBrace, TokenType.OpenCurlyBrace, false, fun L cs => rfl⟩
  · exact ⟨TokenType.CloseCurlyBrace, TokenType.CloseCurlyBrace, false, fun L cs => rfl⟩
  · exact ⟨TokenType.OpenBracket, TokenType.OpenBracket, false, fun L cs => rfl⟩
  · exact ⟨TokenType.CloseBracket, TokenType.CloseBracket, false, fun L cs => rfl⟩
  · exact ⟨TokenType.Comma, TokenType.Comma, false, fun L cs => rfl⟩
  · exact ⟨TokenType.Dot, TokenType.Dot, false, fun L cs => rfl⟩
  · exact ⟨TokenType.Assign, TokenType.EQ, true, fun L cs => by simp only [true_and]; rfl⟩
  · exact ⟨TokenType.Not, TokenType.NEQ, true, fun L cs => by simp only [true_and]; rfl⟩
  · exact ⟨TokenType.LT, TokenType.LTE, true, fun L cs => by simp only [true_and]; rfl⟩
  · exact ⟨TokenType.GT, TokenType.GTE, true, fun L cs => by simp only [true_and]; rfl⟩
  · exact ⟨TokenType.Colon, TokenType.Colon, false, fun L cs => rfl⟩
  · exact ⟨TokenType.SemiColon, TokenType.SemiColon, false, fun L cs => rfl⟩

theorem hasAdjacentSlashes_cons_eq (c : Char) (s : List Char) :
    hasAdjacentSlashes (c :: s) =
      ((decide (c = '/') && decide (s.head? = some '/')) || hasAdjacentSlashes s) := by
  cases s with
  | nil => simp [hasAdjacentSlashes]
  | cons d ds => simp [hasAdjacentSlashes]

theorem hasAdjacentSlashes_append_left (l1 l2 : List Char)
    (h : hasAdjacentSlashes (l1 ++ l2) = false) : hasAdjacentSlashes l1 = false := by
  induction l1 with
  | nil => rfl
  | cons c l1 ih =>
    rw [List.cons_append, hasAdjacentSlashes_cons_eq, Bool.or_eq_false_iff] at h
    rw [hasAdjacentSlashes_cons_eq, ih h.2, Bool.or_false]
    have h1 := h.1
    simp only [Bool.and_eq_false_imp, decide_eq_true_eq, decide_eq_false_iff_not] at h1 ⊢
    intro hc hh
    apply h1 hc
    cases l1 with
    | nil => simp at hh
    | cons d ds => simpa using hh

theorem not_isRecognized_facts (u : Char) (hu : isRecognized u = false) :
    isWhite u = false ∧ isIdStart u = false ∧ u.isDigit = false ∧ u ≠ '.' ∧ u ≠ '=' := by
  have h := hu
  simp only [isRecognized, isPlain, Bool.or_eq_false_iff] at h
  refine ⟨h.1.1.1.1.1, h.1.1.1.1.2, h.1.1.1.2, ?_, ?_⟩ <;>
    (rintro rfl; revert hu; decide)

/-- An iteration that begins at a recognized character other than a quote does
the same on a text and on that text followed by a character that is not
recognized: it consumes the same characters, none beyond the text, and adds
the same tokens. -/
theorem Lexer.stepSpec_before_unrecognized (L M : Lexer) (c : Char) (cs : List Char) (u : Char)
    (t : List Char) (hc : isPlain c = true) (hu : isRecognized u = false)
    (ht : L.tokens.tokens = M.tokens.tokens) (hl : L.line = M.line) :
    ∃ k, 1 ≤ k ∧ k ≤ cs.length + 1 ∧
      (L.stepSpec c (cs ++ u :: t)).1 = true ∧ (M.stepSpec c cs).1 = true ∧
      (L.stepSpec c (cs ++ u :: t)).2.stream = L.stream.skip k ∧
      (M.stepSpec c cs).2.stream = M.stream.skip k ∧
      (L.stepSpec c (cs ++ u :: t)).2.tokens.tokens = (M.stepSpec c cs).2.tokens.tokens ∧
      (L.stepSpec c (cs ++ u :: t)).2.line = (M.stepSpec c cs).2.line := by
  obtain ⟨hu1, hu2, hu3, hu4, hu5⟩ := not_isRecognized_facts u hu
  have happ : c :: (cs ++ u :: t) = (c :: cs) ++ u :: t := rfl
  rcases isRecognized_cases c with hw | hi | hd | hs | hq | hn
  · have hspan : (c :: (cs ++ u :: t)).takeWhile isWhite = (c :: cs).takeWhile isWhite := by
      rw [happ, takeWhile_append_stop isWhite _ u t hu1]
    rw [Lexer.stepSpec_white L c _ hw, Lexer.stepSpec_white M c cs hw, hspan]
    refine ⟨((c :: cs).takeWhile isWhite).length, by simp [List.takeWhile_cons, hw], ?_,
      rfl, rfl, rfl, rfl, ht, ?_⟩
    · simpa using length_le_of_take_eq _ _ (take_length_takeWhile isWhite (c :: cs))
    · show L.line + _ = M.line + _
      rw [hl]
  · have hspan : identSpan false (c :: (cs ++ u :: t)) = identSpan false (c :: cs) := by
      rw [happ, identSpan_append_stop _ u t hu2 hu3]
    rw [Lexer.stepSpec_ident L c _ hi, Lexer.stepSpec_ident M c cs hi, hspan]
    refine ⟨(identSpan false (c :: cs)).length, by simp [identSpan_cons_start c cs hi], ?_,
      rfl, rfl, rfl, rfl, ?_, hl⟩
    · simpa using length_le_of_take_eq _ _ (identSpan_take false (c :: cs))
    · rw [Lexer.emit_tokens, Lexer.emit_tokens, ht, hl]
  · have hspan : numSpan false (c :: (cs ++ u :: t)) = numSpan false (c :: cs) := by
      rw [happ, numSpan_append_stop _ u t hu3 hu4]
    rw [Lexer.stepSpec_number L c _ hd, Lexer.stepSpec_number M c cs hd, hspan]
    refine ⟨(numSpan false (c :: cs)).1.length, by simp [numSpan_cons_digit false c cs hd], ?_,
      rfl, rfl, rfl, rfl, ?_, hl⟩
    · simpa using length_le_of_take_eq _ _ (numSpan_take false (c :: cs))
    · rw [Lexer.emit_tokens, Lexer.emit_tokens, ht, hl]
  · obtain ⟨one, two, op, hstep⟩ := Lexer.stepSpec_symbol_eq c hs
    have hhead : ((cs ++ u :: t).head? = some '=') ↔ (cs.head? = some '=') := by
      cases cs with
      | nil => simp [hu5]
      | cons a cs => simp
    rw [hstep L, hstep M]
    by_cases hop : op = true ∧ cs.head? = some '='
    · have hop2 : op = true ∧ (cs ++ u :: t).head? = some '=' := ⟨hop.1, hhead.2 hop.2⟩
      rw [if_pos hop, if_pos hop2]
      refine ⟨2, by omega, ?_, rfl, rfl, rfl, rfl, ?_, hl⟩
      · cases cs with
        | nil => simp at hop
        | cons a cs => simp
      · rw [Lexer.emit_tokens, Lexer.emit_tokens, ht, hl]
    · have hop2 : ¬ (op = true ∧ (cs ++ u :: t).head? = some '=') :=
        fun h => hop ⟨h.1, hhead.1 h.2⟩
      rw [if_neg hop, if_neg hop2]
      refine ⟨1, Nat.le_refl _, by omega, rfl, rfl, rfl, rfl, ?_, hl⟩
      rw [Lexer.emit_tokens, Lexer.emit_tokens, ht, hl]
  · exact absurd hc (by rcases hq with h | h <;> subst h <;> decide)
  · rw [not_isPlain_of_not_isRecognized c hn] at hc
    cases hc

/-- The tokens of a run that stops at a character that is not recognized are
the tokens of the run over the text before that character. -/
theorem Lexer.run_before_unrecognized (n : Nat) :
    ∀ (p : List Char) (L M : Lexer) (u : Char) (t : List Char), p.length = n →
      (∀ x ∈ p, isPlain x = true) → isRecognized u = false →
      L.stream.rest = p ++ u :: t → M.stream.rest = p →
      L.tokens.tokens = M.tokens.tokens → L.line = M.line →
      ∃ L1 M1, L.run = some (false, L1) ∧ M.run = some (true, M1) ∧
        L1.tokens.tokens = M1.tokens.tokens := by
  induction n using Nat.strong_induction_on with
  | _ n ih =>
    intro p L M u t hn hp hu hrL hrM ht hl
    cases p with
    | nil =>
      rw [List.nil_append] at hrL
      rw [L.run_cons u t hrL, Lexer.stepSpec_unrecognized L u t hu, M.run_nil hrM]
      exact ⟨_, _, rfl, rfl, ht⟩
    | cons c p1 =>
      rw [List.cons_append] at hrL
      have hc : isPlain c = true := hp c (List.mem_cons_self _ _)
      obtain ⟨k, hk1, hk2, hokL, hokM, hsL, hsM, htk, hln⟩ :=
        Lexer.stepSpec_before_unrecognized L M c p1 u t hc hu ht hl
      rw [L.run_cons c _ hrL, M.run_cons c _ hrM, if_pos hokL, if_pos hokM]
      have hk : k ≤ (c :: p1).length := by simpa using hk2
      have hrestL : (L.stepSpec c (p1 ++ u :: t)).2.stream.rest = (c :: p1).drop k ++ u :: t := by
        rw [hsL, CharStream.rest_skip, hrL]
        have h2 : c :: (p1 ++ u :: t) = (c :: p1) ++ u :: t := rfl
        rw [h2, List.drop_append_of_le_length hk]
      have hrestM : (M.stepSpec c p1).2.stream.rest = (c :: p1).drop k := by
        rw [hsM, CharStream.rest_skip, hrM]
      have hlen : ((c :: p1).drop k).length < n := by
        rw [List.length_drop, ← hn]
        simp only [List.length_cons] at hk ⊢
        omega
      exact ih _ hlen _ _ _ u t rfl (fun x hx => hp x (List.mem_of_mem_drop hx)) hu
        hrestL hrestM htk hln

/-- On a text without quotes, without two adjacent `/` and without NUL, the
tokens that `Parse` has emitted when it stops at the first character that is
not recognized are the tokens of `Parse` on the text before that character. -/
theorem Lexer.Parse_tokens_before_unrecognized (L : Lexer) (p : List Char) (u : Char)
    (t : List Char) (hq : SQUOTE ∉ p ++ u :: t ∧ DQUOTE ∉ p ++ u :: t)
    (hs : hasAdjacentSlashes (p ++ u :: t) = false) (hn : NUL ∉ p ++ u :: t)
    (hp : ∀ x ∈ p, isRecognized x = true) (hu : isRecognized u = false) :
    ∃ L1 L2, L.Parse (p ++ u :: t) = some (false, L1) ∧ L.Parse p = some (true, L2) ∧
      L1.tokens.tokens = L2.tokens.tokens := by
  have hplain : ∀ x ∈ p, isPlain x = true := by
    intro x hx
    have hmem : x ∈ p ++ u :: t := List.mem_append_left _ hx
    exact isPlain_of_isRecognized x (hp x hx) (fun e => hq.1 (e ▸ hmem))
      (fun e => hq.2 (e ▸ hmem))
  rw [Lexer.Parse_eq_run, Lexer.Parse_eq_run, StripComments_clean _ hs hn,
    StripComments_clean p (hasAdjacentSlashes_append_left p _ hs)
      (fun h => hn (List.mem_append_left _ h))]
  exact Lexer.run_before_unrecognized p.length p _ _ u t rfl hplain hu
    (Lexer.initial_rest _ _) (Lexer.initial_rest _ _) rfl rfl

/-- C17 (failing input): the text that holds the one character NUL has no
quote and no `/`, and NUL is outside the recognized set, yet `Parse` returns
true on it, with no token: `StripComments` has cut the text at the NUL. The
same happens to `x`, NUL, `@`, where neither the NUL nor the `@` is reported. -/
theorem C17_NUL_is_not_reported :
    isRecognized NUL = false ∧ SQUOTE ∉ [NUL] ∧ DQUOTE ∉ [NUL] ∧
      hasAdjacentSlashes [NUL] = false ∧
      (Lexer.new.Parse [NUL]).map (fun r => (r.1, r.2.tokens.tokens)) = some (true, []) ∧
      (Lexer.new.Parse ['x', NUL, '@']).map (fun r => (r.1, r.2.tokens.tokens)) =
        some (true, [{ type := TokenType.Iden, token := ['x'], line := 1 }]) := by
  decide

/-! ## C18: termination -/

theorem Lexer.ParseLoopCount_nil (fuel : Nat) (L : Lexer) (h : L.stream.rest = []) :
    Lexer.ParseLoopCount (fuel + 1) L = some 0 := by
  simp [Lexer.ParseLoopCount, CharStream.HasMore_nil _ h]

theorem Lexer.ParseLoopCount_cons (fuel : Nat) (L : Lexer) (c : Char) (cs : List Char)
    (h : L.stream.rest = c :: cs) :
    Lexer.ParseLoopCount (fuel + 1) L =
      if (L.stepSpec c cs).1 = true then
        (Lexer.ParseLoopCount fuel (L.stepSpec c cs).2).map (fun n => n + 1)
      else some 1 := by
  rw [Lexer.ParseLoopCount]
  simp only [CharStream.HasMore_cons _ c cs h, if_true, Lexer.ParseStep_eq L c cs h]
  rcases hs : L.stepSpec c cs with ⟨b, L1⟩
  cases b <;> simp

theorem CharStream.rest_of_HasMore (s : CharStream) (h : s.HasMore = true) :
    ∃ c cs, s.rest = c :: cs := by
  cases hr : s.rest with
  | nil => rw [CharStream.HasMore_nil s hr] at h; cases h
  | cons c cs => exact ⟨c, cs, rfl⟩

/-- With enough fuel the main loop returns after at most as many iterations as
there are characters left, and it adds at most as many tokens. -/
theorem Lexer.ParseLoop_bounds (fuel : Nat) :
    ∀ L : Lexer, L.stream.rest.length < fuel →
      ∃ (r : Bool × Lexer) (n : Nat), Lexer.ParseLoop fuel L = some r ∧
        Lexer.ParseLoopCount fuel L = some n ∧ n ≤ L.stream.rest.length ∧
        r.2.tokens.tokens.length ≤ L.tokens.tokens.length + L.stream.rest.length := by
  induction fuel with
  | zero => intro L h; omega
  | succ m ih =>
    intro L hfuel
    cases hr : L.stream.rest with
    | nil =>
      exact ⟨(true, L), 0, Lexer.ParseLoop_nil _ _ hr, Lexer.ParseLoopCount_nil _ _ hr,
        Nat.le_refl _, Nat.le_refl _⟩
    | cons c cs =>
      rw [hr] at hfuel
      simp only [List.length_cons] at hfuel
      rw [Lexer.ParseLoop_cons _ _ c cs hr, Lexer.ParseLoopCount_cons _ _ c cs hr]
      rcases L.stepSpec_cases c cs with ⟨_, h1⟩ | ⟨_, k, toks, dl, h1, hk1, hk2, htl, _⟩
      · rw [h1]
        refine ⟨(false, L.failOn c), 1, by simp, by simp, by simp, ?_⟩
        show L.tokens.tokens.length ≤ _
        omega
      · have hrest : (L.stepSpec c cs).2.stream.rest.length = cs.length + 1 - k := by
          rw [h1]
          show (L.stream.skip k).rest.length = _
          rw [CharStream.rest_skip, hr, List.length_drop, List.length_cons]
        have htok : (L.stepSpec c cs).2.tokens.tokens.length ≤ L.tokens.tokens.length + 1 := by
          rw [h1]
          show (L.tokens.tokens ++ toks).length ≤ _
          rw [List.length_append, htl]
          split <;> omega
        obtain ⟨r, n, h2, h3, h4, h5⟩ := ih (L.stepSpec c cs).2 (by rw [hrest]; omega)
        have hok : (L.stepSpec c cs).1 = true := by rw [h1]
        rw [if_pos hok, if_pos hok, h2, h3]
        refine ⟨r, n + 1, rfl, rfl, ?_, ?_⟩
        · rw [hrest] at h4
          simp only [List.length_cons]
          omega
        · rw [hrest] at h5
          simp only [List.length_cons]
          omega

/-- C18: `Parse` returns on every input; the main loop executes at most as many
iterations as the input has characters (`ParseCount`) and the tokens emitted
are at most as many; and every iteration, entered with `HasMore` true, returns
false or leaves the character cursor strictly further than it found it. -/
theorem C18_Parse_terminates (L : Lexer) (code : List Char) :
    (∃ (r : Bool × Lexer) (n : Nat), L.Parse code = some r ∧ L.ParseCount code = some n ∧
      n ≤ code.length ∧ r.2.tokens.tokens.length ≤ code.length) ∧
    (∀ M : Lexer, M.stream.HasMore = true →
      ∃ (ok : Bool) (M1 : Lexer), M.ParseStep = some (ok, M1) ∧
        (ok = true → M.stream.index < M1.stream.index)) := by
  constructor
  · obtain ⟨r, n, h1, h2, h3, h4⟩ := Lexer.ParseLoop_bounds ((StripComments code).length + 1)
      { tokens := TokenStream.new, stream := CharStream.new (StripComments code), line := 1,
        error := L.error }
      (by rw [Lexer.initial_rest]; exact Nat.lt_succ_self _)
    rw [Lexer.initial_rest] at h3 h4
    have hle := StripComments_length_le code
    refine ⟨r, n, h1, h2, le_trans h3 hle, ?_⟩
    have h5 : r.2.tokens.tokens.length ≤ 0 + (StripComments code).length := h4
    omega
  · intro M hM
    obtain ⟨c, cs, hr⟩ := CharStream.rest_of_HasMore _ hM
    rw [Lexer.ParseStep_eq M c cs hr]
    rcases M.stepSpec_cases c cs with ⟨_, h1⟩ | ⟨_, k, toks, dl, h1, hk1, _⟩
    · exact ⟨false, M.failOn c, by rw [h1], fun h => by cases h⟩
    · refine ⟨true, _, by rw [h1], fun _ => ?_⟩
      show M.stream.index < M.stream.index + k
      omega

/-! ## C19: comment stripping is idempotent -/

theorem StripCommentsLoop_head (cs : List Char)
    (h : (StripCommentsLoop false cs).head? = some '/') : cs.head? = some '/' := by
  cases cs with
  | nil => simp [StripCommentsLoop] at h
  | cons d ds =>
    rw [StripCommentsLoop_false_cons] at h
    by_cases hd : d = '/' ∧ ds.head? = some '/'
    · rw [if_pos hd] at h
      simp at h
    · rw [if_neg hd] at h
      simpa using h

theorem StripCommentsLoop_no_slashes (s : List Char) :
    ∀ b, hasAdjacentSlashes (StripCommentsLoop b s) = false := by
  induction s with
  | nil => intro b; cases b <;> rfl
  | cons c cs ih =>
    intro b
    cases b
    · rw [StripCommentsLoop_false_cons]
      by_cases hc : c = '/' ∧ cs.head? = some '/'
      · rw [if_pos hc, hasAdjacentSlashes_cons_eq, ih true]
        simp
      · rw [if_neg hc, hasAdjacentSlashes_cons_eq, ih false]
        simp only [Bool.or_false, Bool.and_eq_false_imp, decide_eq_true_eq,
          decide_eq_false_iff_not]
        intro h1 h2
        exact hc ⟨h1, StripCommentsLoop_head cs h2⟩
    · rw [StripCommentsLoop_true_cons]
      by_cases hn : c = '\n'
      · rw [if_pos hn, hasAdjacentSlashes_cons_eq, ih false]
        simp
      · rw [if_neg hn, hasAdjacentSlashes_cons_eq, ih true]
        simp

theorem cstring_no_slashes (s : List Char) (h : hasAdjacentSlashes s = false) :
    hasAdjacentSlashes (cstring s) = false := by
  apply hasAdjacentSlashes_append_left (cstring s) (s.dropWhile (fun c => c != NUL))
  unfold cstring
  rw [List.takeWhile_append_dropWhile]
  exact h

theorem NUL_not_mem_cstring (s : List Char) : NUL ∉ cstring s := by
  intro h
  have := List.mem_takeWhile_imp h
  simp at this

/-- C19: the result of `StripComments` holds no two adjacent `/` characters,
and `StripComments` applied to its own result returns it unchanged. -/
theorem C19_StripComments_idempotent (s : List Char) :
    hasAdjacentSlashes (StripComments s) = false ∧
      StripComments (StripComments s) = StripComments s := by
  have h1 : hasAdjacentSlashes (StripComments s) = false :=
    cstring_no_slashes _ (StripCommentsLoop_no_slashes s false)
  exact ⟨h1, StripComments_clean _ h1 (NUL_not_mem_cstring _)⟩

/-! ## C20: the line counter and the newlines inside string literals -/

/-- An iteration of the main loop moves the line counter only when it begins at
a whitespace character. -/
theorem Lexer.stepSpec_line (L : Lexer) (c : Char) (cs : List Char) (h : isWhite c = false) :
    (L.stepSpec c cs).2.line = L.line := by
  rcases isRecognized_cases c with hw | hi | hd | hs | hq | hu
  · rw [hw] at h; cases h
  · rw [Lexer.stepSpec_ident L c cs hi]; rfl
  · rw [Lexer.stepSpec_number L c cs hd]; rfl
  · obtain ⟨ty, _, h1 | ⟨_, h1⟩⟩ := Lexer.stepSpec_symbol L c cs hs <;> rw [h1] <;> rfl
  · rw [Lexer.stepSpec_quote L c cs hq]; rfl
  · rw [Lexer.stepSpec_unrecognized L c cs hu]; rfl

theorem Lexer.ParseLoopOrigins_nil (fuel : Nat) (L : Lexer) (w q : Nat)
    (h : L.stream.rest = []) : Lexer.ParseLoopOrigins (fuel + 1) L w q = some [] := by
  simp [Lexer.ParseLoopOrigins, CharStream.HasMore_nil _ h]

theorem Lexer.ParseLoopOrigins_cons (fuel : Nat) (L : Lexer) (w q : Nat) (c : Char)
    (cs : List Char) (h : L.stream.rest = c :: cs) :
    Lexer.ParseLoopOrigins (fuel + 1) L w q =
      if (L.stepSpec c cs).1 = true then
        (Lexer.ParseLoopOrigins fuel (L.stepSpec c cs).2
          (if isWhite c = true then
            w + ((c :: cs).take ((L.stepSpec c cs).2.stream.index - L.stream.index)).count '\n'
           else w)
          (if c = SQUOTE ∨ c = DQUOTE then
            q + ((c :: cs).take ((L.stepSpec c cs).2.stream.index - L.stream.index)).count '\n'
           else q)).map
          (fun r => List.replicate
            ((L.stepSpec c cs).2.tokens.tokens.length - L.tokens.tokens.length)
            ({ start := L.stream.index, white := w, quoted := q } : TokenOrigin) ++ r)
      else
        some (List.replicate ((L.stepSpec c cs).2.tokens.tokens.length - L.tokens.tokens.length)
          ({ start := L.stream.index, white := w, quoted := q } : TokenOrigin)) := by
  have hrest : List.drop L.stream.index L.stream.chars = c :: cs := h
  rw [Lexer.ParseLoopOrigins]
  simp only [CharStream.HasMore_cons _ c cs h, if_true, Lexer.ParseStep_eq L c cs h,
    Lexer.IsWhiteSpace_eq L c cs h, CharStream.PeekChar_cons _ c cs h, Option.some.injEq, hrest,
    charToInt_eq_some_iff, ne_eq, SQUOTE_ne_last, DQUOTE_ne_last, not_false_eq_true, and_true]

/-- Along the main loop every token carries the line 1 + the newlines consumed
as whitespace before it, which with the newlines inside the earlier string
literals are all the newlines before its lexeme; and the lines never decrease. -/
theorem Lexer.ParseLoop_origins (fuel : Nat) :
    ∀ (L : Lexer) (w q : Nat), L.stream.rest.length < fuel →
      L.stream.index ≤ L.stream.chars.length →
      L.line = 1 + (w : Int) →
      w + q = (L.stream.chars.take L.stream.index).count '\n' →
      ∃ (ok : Bool) (L1 : Lexer) (new : List Token) (origins : List TokenOrigin),
        Lexer.ParseLoop fuel L = some (ok, L1) ∧
        Lexer.ParseLoopOrigins fuel L w q = some origins ∧
        L1.tokens.tokens = L.tokens.tokens ++ new ∧
        List.Forall₂ (fun t o => t.line = 1 + (o.white : Int) ∧
          o.white + o.quoted = (L.stream.chars.take o.start).count '\n' ∧
          o.start < L.stream.chars.length) new origins ∧
        (∀ t ∈ new, L.line ≤ t.line) ∧
        List.Pairwise (fun a b => a.line ≤ b.line) new := by
  induction fuel with
  | zero => intro L w q h; omega
  | succ m ih =>
    intro L w q hfuel hidx hline hsum
    cases hr : L.stream.rest with
    | nil =>
      exact ⟨true, L, [], [], Lexer.ParseLoop_nil _ _ hr, Lexer.ParseLoopOrigins_nil _ _ _ _ hr,
        by simp, List.Forall₂.nil, fun t ht => absurd ht (List.not_mem_nil t), List.Pairwise.nil⟩
    | cons c cs =>
      have hlen := CharStream.rest_length _ hidx
      rw [hr] at hlen hfuel
      simp only [List.length_cons] at hlen hfuel
      rw [Lexer.ParseLoop_cons _ _ c cs hr, Lexer.ParseLoopOrigins_cons _ _ _ _ c cs hr]
      rcases L.stepSpec_cases c cs with
        ⟨_, h1⟩ | ⟨hrec, k, toks, dl, h1, hk1, hk2, htl, htoks, hplain, hnp⟩
      · rw [h1]
        refine ⟨false, L.failOn c, [], [], by simp, by simp [Lexer.failOn], by simp [Lexer.failOn],
          List.Forall₂.nil, fun t ht => absurd ht (List.not_mem_nil t), List.Pairwise.nil⟩
      · have hok : (L.stepSpec c cs).1 = true := by rw [h1]
        have hidx1 : (L.stepSpec c cs).2.stream.index - L.stream.index = k := by
          rw [h1]
          show L.stream.index + k - L.stream.index = k
          omega
        have htk : (L.stepSpec c cs).2.tokens.tokens.length - L.tokens.tokens.length
            = toks.length := by
          rw [h1]
          show (L.tokens.tokens ++ toks).length - L.tokens.tokens.length = toks.length
          rw [List.length_append]
          omega
        have htake : L.stream.chars.take (L.stream.index + k) =
            L.stream.chars.take L.stream.index ++ (c :: cs).take k := by
          rw [List.take_add]
          congr 1
          rw [← hr]
          rfl
        -- the counters after the iteration
        have hcount : ∃ w1 q1 : Nat,
            (if isWhite c = true then w + ((c :: cs).take k).count '\n' else w) = w1 ∧
            (if c = SQUOTE ∨ c = DQUOTE then q + ((c :: cs).take k).count '\n' else q) = q1 ∧
            L.line + (dl : Int) = 1 + (w1 : Int) ∧
            w1 + q1 = (L.stream.chars.take (L.stream.index + k)).count '\n' ∧ w ≤ w1 := by
          rw [htake, List.count_append, ← hsum]
          by_cases hw : isWhite c = true
          · have hc : isPlain c = true := isPlain_of_isWhite c hw
            have hnq : ¬ (c = SQUOTE ∨ c = DQUOTE) := fun h =>
              (isPlain_ne_quote c hc).elim (fun a b => h.elim a b)
            rw [if_pos hw, if_neg hnq]
            refine ⟨_, _, rfl, rfl, ?_, by omega, by omega⟩
            rw [hline, (hplain hc).2]
            push_cast
            ring
          · have hw2 : isWhite c = false := by simpa using hw
            have hdl : dl = 0 := by
              have h2 := Lexer.stepSpec_line L c cs hw2
              rw [h1] at h2
              have h3 : L.line + (dl : Int) = L.line := h2
              omega
            rw [if_neg hw]
            by_cases hq : c = SQUOTE ∨ c = DQUOTE
            · rw [if_pos hq]
              refine ⟨_, _, rfl, rfl, ?_, by omega, Nat.le_refl _⟩
              rw [hdl, hline]
              simp
            · rw [if_neg hq]
              have hc : isPlain c = true :=
                isPlain_of_isRecognized c hrec (fun e => hq (Or.inl e)) (fun e => hq (Or.inr e))
              have hzero : ((c :: cs).take k).count '\n' = 0 := by
                rw [← (hplain hc).2, hdl]
              refine ⟨_, _, rfl, rfl, ?_, by omega, Nat.le_refl _⟩
              rw [hdl, hline]
              simp
        obtain ⟨w1, q1, hw1, hq1, hline1, hsum1, hmono⟩ := hcount
        rw [if_pos hok, if_pos hok, hidx1, htk, hw1, hq1]
        have hL1 : ∃ L1 : Lexer, L1 = (L.stepSpec c cs).2 ∧ L1.stream = L.stream.skip k ∧
            L1.line = L.line + (dl : Int) ∧ L1.tokens.tokens = L.tokens.tokens ++ toks := by
          refine ⟨_, rfl, ?_, ?_, ?_⟩ <;> rw [h1]
        obtain ⟨L1, hL1, hst, hln, htkn⟩ := hL1
        rw [← hL1]
        obtain ⟨ok, L2, new1, origins1, hp1, hp2, hp3, hp4, hp5, hp6⟩ := ih L1 w1 q1
          (by
            rw [hst, CharStream.rest_skip, hr, List.length_drop, List.length_cons]
            omega)
          (by rw [hst]; show L.stream.index + k ≤ L.stream.chars.length; omega)
          (by rw [hln]; exact hline1)
          (by rw [hst]; exact hsum1)
        have hchars : L1.stream.chars = L.stream.chars := by rw [hst]; rfl
        rw [hchars] at hp4
        have hge : L.line ≤ L1.line := by rw [hln]; omega
        refine ⟨ok, L2, toks ++ new1,
          List.replicate toks.length
            ({ start := L.stream.index, white := w, quoted := q } : TokenOrigin) ++ origins1,
          hp1, by rw [hp2]; rfl, by rw [hp3, htkn, List.append_assoc], ?_, ?_, ?_⟩
        · refine List.rel_append ?_ hp4
          rw [List.forall₂_iff_get]
          refine ⟨by simp, ?_⟩
          intro i h₁ h₂
          simp only [List.get_eq_getElem, List.getElem_replicate]
          exact ⟨by rw [(htoks _ (List.getElem_mem h₁)).1, hline], hsum, by omega⟩
        · intro t ht
          rcases List.mem_append.1 ht with h | h
          · rw [(htoks t h).1]
          · exact le_trans hge (hp5 t h)
        · rw [List.pairwise_append]
          refine ⟨List.pairwise_of_forall_mem_list (fun a ha b hb => ?_), hp6,
            fun a ha b hb => ?_⟩
          · rw [(htoks a ha).1, (htoks b hb).1]
          · rw [(htoks a ha).1]
            exact le_trans hge (hp5 b hb)

/-- C20: on every input `Parse` returns, and each token it has emitted carries
the line 1 + the number of newlines consumed as whitespace before it
(`white`); that line is at least 1 and never decreases along the tokens; and
with the number of newlines inside the string literals before the token
(`quoted`) it accounts for all the newlines of the input before the lexeme,
so the line falls short of the line the lexeme stands on by `quoted`. On a
double-quoted literal that holds one newline, followed by a space and `x`, the
identifier `x` begins at position 6, after one newline, and is on line 1. -/
theorem C20_line_ignores_newlines_in_strings (L : Lexer) (code : List Char) :
    (∃ (ok : Bool) (L1 : Lexer) (origins : List TokenOrigin),
      L.Parse code = some (ok, L1) ∧ L.ParseOrigins code = some origins ∧
      List.Forall₂ (fun t o => t.line = 1 + (o.white : Int) ∧
        o.white + o.quoted = (code.take o.start).count '\n' ∧
        o.start < code.length) L1.tokens.tokens origins ∧
      (∀ t ∈ L1.tokens.tokens, 1 ≤ t.line) ∧
      List.Pairwise (fun a b => a.line ≤ b.line) L1.tokens.tokens) ∧
    ((Lexer.new.Parse [DQUOTE, 'a', '\n', 'b', DQUOTE, ' ', 'x']).map
        (fun r => (r.1, r.2.tokens.tokens)) =
      some (true, [{ type := TokenType.String, token := ['a', '\n', 'b'], line := 1 },
        { type := TokenType.Iden, token := ['x'], line := 1 }]) ∧
      Lexer.new.ParseOrigins [DQUOTE, 'a', '\n', 'b', DQUOTE, ' ', 'x'] =
        some [{ start := 0, white := 0, quoted := 0 }, { start := 6, white := 0, quoted := 1 }] ∧
      ([DQUOTE, 'a', '\n', 'b', DQUOTE, ' ', 'x'].take 6).count '\n' = 1) := by
  constructor
  · obtain ⟨ok, L1, new, origins, h1, h2, h3, h4, h5, h6⟩ := Lexer.ParseLoop_origins
      ((StripComments code).length + 1)
      { tokens := TokenStream.new, stream := CharStream.new (StripComments code), line := 1,
        error := L.error } 0 0
      (by rw [Lexer.initial_rest]; exact Nat.lt_succ_self _) (Nat.zero_le _) (by simp)
      (by
        show 0 + 0 = (List.take 0 (StripComments code)).count '\n'
        simp)
    have h7 : L1.tokens.tokens = new := by rw [h3]; rfl
    refine ⟨ok, L1, origins, h1, h2, ?_, ?_, ?_⟩
    · rw [h7]
      refine List.Forall₂.imp ?_ h4
      intro t o ⟨ho1, ho2, ho3⟩
      have ho4 : o.start < (StripComments code).length := ho3
      refine ⟨ho1, ?_, lt_of_lt_of_le ho4 (StripComments_length_le code)⟩
      rw [ho2]
      exact StripComments_count_newline code o.start (le_of_lt ho4)
    · rw [h7]
      exact h5
    · rw [h7]
      exact h6
  · decide

end loris
